import Mathlib

/-!
Verification of the maze engine (TypeScript sources in src/): the
Direction/Position/Walls value layer, the Cell and Maze classes, the
recursive-backtracking generator, the DFS and BFS solvers and the
statistics scan.  Mutable TS state is embedded as explicit state passing:
a Maze value carries the grid as a total function from positions to cells,
methods that mutate the receiver return the updated Maze, and methods that
can throw return an Except (or a pair of an optional error and the final
state when the TS method mutates before throwing).  JS numbers are Int
(all values in play are small integers); Math.random driven choices are
modelled by an arbitrary stream of naturals reduced modulo the number of
candidates, so theorems quantify over every possible random behaviour.
While loops and recursion are run on explicit fuel; the wrappers pass the
fuel bounds proved sufficient below.
-/

namespace MazeProof

/-- Direction enum from src/src/types/Direction.ts. -/
inductive Direction where
  | up
  | down
  | left
  | right
deriving DecidableEq, Repr

/-- ALL_DIRECTIONS from Direction.ts, in source order. -/
def ALL_DIRECTIONS : List Direction := [.up, .down, .left, .right]

/-- Position from the types layer: a 2D integer coordinate. -/
structure Position where
  x : Int
  y : Int
deriving DecidableEq, Repr

/-- getDirectionOffset from Direction.ts. -/
def getDirectionOffset : Direction → Position
  | .up => ⟨0, -1⟩
  | .down => ⟨0, 1⟩
  | .left => ⟨-1, 0⟩
  | .right => ⟨1, 0⟩

/-- movePosition from Position.ts (distance defaults to 1 at call sites). -/
def movePosition (pos : Position) (direction : Direction) (distance : Int) : Position :=
  ⟨pos.x + (getDirectionOffset direction).x * distance,
   pos.y + (getDirectionOffset direction).y * distance⟩

/-- Walls record from the Walls module: one boolean per direction, key
order Up, Down, Left, Right as created by the two constructors. -/
structure Walls where
  up : Bool
  down : Bool
  left : Bool
  right : Bool
deriving DecidableEq, Repr

/-- createClosedWalls. -/
def createClosedWalls : Walls := ⟨true, true, true, true⟩

/-- createOpenWalls. -/
def createOpenWalls : Walls := ⟨false, false, false, false⟩

/-- hasWall from the Walls module. -/
def hasWall (walls : Walls) : Direction → Bool
  | .up => walls.up
  | .down => walls.down
  | .left => walls.left
  | .right => walls.right

/-- removeWall: non-destructive update setting the given direction false. -/
def removeWall (walls : Walls) : Direction → Walls
  | .up => { walls with up := false }
  | .down => { walls with down := false }
  | .left => { walls with left := false }
  | .right => { walls with right := false }

/-- addWall: non-destructive update setting the given direction true. -/
def addWall (walls : Walls) : Direction → Walls
  | .up => { walls with up := true }
  | .down => { walls with down := true }
  | .left => { walls with left := true }
  | .right => { walls with right := true }

/-- Cell from src/src/classes/Cell.ts: immutable position, wall set,
visited flag. -/
structure Cell where
  position : Position
  walls : Walls
  visited : Bool
deriving DecidableEq, Repr

/-- The Cell constructor with the default all-closed wall set (the
coordinate validation always passes for cells built by the Maze). -/
def Cell.mkClosed (x y : Int) : Cell := ⟨⟨x, y⟩, createClosedWalls, false⟩

/-- Cell.createOpen. -/
def Cell.createOpen (x y : Int) : Cell := ⟨⟨x, y⟩, createOpenWalls, false⟩

def Cell.hasWallInDirection (c : Cell) (d : Direction) : Bool := hasWall c.walls d

def Cell.isOpenInDirection (c : Cell) (d : Direction) : Bool := ! c.hasWallInDirection d

/-- Cell.getWalledDirections: Object.entries filtered; the record key
order is always Up, Down, Left, Right. -/
def Cell.getWalledDirections (c : Cell) : List Direction :=
  ALL_DIRECTIONS.filter (fun d => c.hasWallInDirection d)

/-- Cell.getOpenDirections. -/
def Cell.getOpenDirections (c : Cell) : List Direction :=
  ALL_DIRECTIONS.filter (fun d => ! c.hasWallInDirection d)

/-- Cell.removeWallMutable, as a functional update of the cell. -/
def Cell.removeWallMutable (c : Cell) (d : Direction) : Cell :=
  { c with walls := removeWall c.walls d }

/-- Cell.addWallMutable. -/
def Cell.addWallMutable (c : Cell) (d : Direction) : Cell :=
  { c with walls := addWall c.walls d }

def Cell.getNeighborPosition (c : Cell) (d : Direction) : Position :=
  movePosition c.position d 1

def Cell.manhattanDistanceTo (c : Cell) (other : Position) : Int :=
  (c.position.x - other.x).natAbs + (c.position.y - other.y).natAbs

def Cell.isAdjacentTo (c : Cell) (other : Cell) : Bool :=
  c.manhattanDistanceTo other.position = 1

/-- Cell.reset: clears visited, walls untouched. -/
def Cell.reset (c : Cell) : Cell := { c with visited := false }

/-- Cell.getWallCount. -/
def Cell.getWallCount (c : Cell) : Nat := c.getWalledDirections.length

/-- The error taxonomy of the Maze methods (the TS code throws Error with
distinguishing messages). -/
inductive MazeErr where
  | outOfBounds
  | notNeighbors
  | invalidPosition
  | badDirection
deriving DecidableEq, Repr

/-- Maze from src/unnamed/part_012: fixed dimensions (validated positive
integers, so stored as Nat) and the cell grid.  The TS grid is a 2D array
indexed grid[y][x] for 0 ≤ x < width, 0 ≤ y < height; it is embedded as a
total function on positions, all reads of which are bounds-guarded just
as in the source. -/
structure Maze where
  width : Nat
  height : Nat
  grid : Position → Cell

/-- The Maze constructor: createGrid builds the cell at every in-bounds
slot, all-closed or all-open according to initializeWalls. -/
def Maze.create (width height : Nat) (initializeWalls : Bool) : Maze :=
  ⟨width, height, fun p =>
    if initializeWalls then Cell.mkClosed p.x p.y else Cell.createOpen p.x p.y⟩

/-- Maze.createOpen static factory. -/
def Maze.createOpenM (width height : Nat) : Maze := Maze.create width height false

def Maze.totalCells (m : Maze) : Nat := m.width * m.height

def Maze.isValidPosition (m : Maze) (x y : Int) : Bool :=
  0 ≤ x && x < (m.width : Int) && 0 ≤ y && y < (m.height : Int)

def Maze.isValidPositionObject (m : Maze) (pos : Position) : Bool :=
  m.isValidPosition pos.x pos.y

/-- Maze.getCell: throws out-of-bounds, else returns the slot. -/
def Maze.getCell (m : Maze) (x y : Int) : Except MazeErr Cell :=
  if m.isValidPosition x y then .ok (m.grid ⟨x, y⟩) else .error .outOfBounds

def Maze.getCellAt (m : Maze) (pos : Position) : Except MazeErr Cell :=
  m.getCell pos.x pos.y

/-- Maze.getCellSafe: undefined instead of throwing. -/
def Maze.getCellSafe (m : Maze) (x y : Int) : Option Cell :=
  if m.isValidPosition x y then some (m.grid ⟨x, y⟩) else none

def Maze.getCellSafeAt (m : Maze) (pos : Position) : Option Cell :=
  m.getCellSafe pos.x pos.y

/-- Maze.setCell: bounds check, then the stored-position-matches-slot
check, then stores the cell. -/
def Maze.setCell (m : Maze) (x y : Int) (cell : Cell) : Except MazeErr Maze :=
  if ! m.isValidPosition x y then .error .outOfBounds
  else if cell.position.x ≠ x ∨ cell.position.y ≠ y then .error .invalidPosition
  else .ok { m with grid := fun q => if q = (⟨x, y⟩ : Position) then cell else m.grid q }

/-- Internal update of one grid slot (the effect of mutating the cell
object living at that slot through a reference obtained from the grid). -/
def Maze.updateCell (m : Maze) (p : Position) (f : Cell → Cell) : Maze :=
  { m with grid := fun q => if q = p then f (m.grid q) else m.grid q }

/-- Maze.getNeighbors: the in-bounds cells in the four directions, in
ALL_DIRECTIONS order. -/
def Maze.getNeighbors (m : Maze) (cell : Cell) : List Cell :=
  ALL_DIRECTIONS.filterMap (fun d => m.getCellSafeAt (cell.getNeighborPosition d))

/-- Maze.getAccessibleNeighbors: iterates the cell's own open directions. -/
def Maze.getAccessibleNeighbors (m : Maze) (cell : Cell) : List Cell :=
  cell.getOpenDirections.filterMap (fun d => m.getCellSafeAt (cell.getNeighborPosition d))

/-- Maze.getUnvisitedNeighbors. -/
def Maze.getUnvisitedNeighbors (m : Maze) (cell : Cell) : List Cell :=
  (m.getNeighbors cell).filter (fun n => ! n.visited)

def Maze.areNeighbors (_m : Maze) (cell1 cell2 : Cell) : Bool :=
  cell1.isAdjacentTo cell2

/-- Maze.getDirectionBetween: throws NotNeighbors unless adjacent, then
matches the coordinate delta. -/
def Maze.getDirectionBetween (m : Maze) (from_ to_ : Cell) : Except MazeErr Direction :=
  if ! m.areNeighbors from_ to_ then .error .notNeighbors
  else
    let dx := to_.position.x - from_.position.x
    let dy := to_.position.y - from_.position.y
    if dx = 1 ∧ dy = 0 then .ok .right
    else if dx = -1 ∧ dy = 0 then .ok .left
    else if dx = 0 ∧ dy = 1 then .ok .down
    else if dx = 0 ∧ dy = -1 then .ok .up
    else .error .badDirection

def Maze.arePositionsAdjacent (_m : Maze) (pos1 pos2 : Position) : Bool :=
  let dx := (pos1.x - pos2.x).natAbs
  let dy := (pos1.y - pos2.y).natAbs
  (dx = 1 ∧ dy = 0) ∨ (dx = 0 ∧ dy = 1)

/-- Maze.canMoveBetween: false for non-adjacent positions, then fetches
both cells (throwing when either is out of bounds) and tests the facing
wall of the from cell. -/
def Maze.canMoveBetween (m : Maze) (from_ to_ : Position) : Except MazeErr Bool :=
  if ! m.arePositionsAdjacent from_ to_ then .ok false
  else do
    let fromCell ← m.getCellAt from_
    let toCell ← m.getCellAt to_
    if ! m.areNeighbors fromCell toCell then return false
    else do
      let d ← m.getDirectionBetween fromCell toCell
      return ! fromCell.hasWallInDirection d

/-- Maze.removeWallBetween on two cells fetched from slots p and q: both
cell objects get their facing wall removed.  The TS method takes the two
cell references; geneation and the position wrapper below always pass the
cells living at their own grid slots. -/
def Maze.removeWallBetweenAt (m : Maze) (p q : Position) : Except MazeErr Maze :=
  let cell1 := m.grid p
  let cell2 := m.grid q
  if ! m.areNeighbors cell1 cell2 then .error .notNeighbors
  else do
    let d12 ← m.getDirectionBetween cell1 cell2
    let d21 ← m.getDirectionBetween cell2 cell1
    return (m.updateCell p (fun c => c.removeWallMutable d12)).updateCell q
      (fun c => c.removeWallMutable d21)

/-- Maze.removeWallBetweenPositions: getCellAt both (throwing out of
bounds), then removeWallBetween. -/
def Maze.removeWallBetweenPositions (m : Maze) (pos1 pos2 : Position) : Except MazeErr Maze :=
  do
    let _ ← m.getCellAt pos1
    let _ ← m.getCellAt pos2
    m.removeWallBetweenAt pos1 pos2

/-- Maze.addWallBetween on the cells at slots p and q. -/
def Maze.addWallBetweenAt (m : Maze) (p q : Position) : Except MazeErr Maze :=
  let cell1 := m.grid p
  let cell2 := m.grid q
  if ! m.areNeighbors cell1 cell2 then .error .notNeighbors
  else do
    let d12 ← m.getDirectionBetween cell1 cell2
    let d21 ← m.getDirectionBetween cell2 cell1
    return (m.updateCell p (fun c => c.addWallMutable d12)).updateCell q
      (fun c => c.addWallMutable d21)

/-- Maze.hasPassageBetween on the cells at slots p and q. -/
def Maze.hasPassageBetweenAt (m : Maze) (p q : Position) : Bool :=
  let cell1 := m.grid p
  let cell2 := m.grid q
  if ! m.areNeighbors cell1 cell2 then false
  else match m.getDirectionBetween cell1 cell2 with
    | .ok d => cell1.isOpenInDirection d
    | .error _ => false

/-- The row-major position enumeration backing getAllCells / forEachCell. -/
def allPositions (w h : Nat) : List Position :=
  (List.range h).flatMap (fun (y : Nat) =>
    (List.range w).map (fun (x : Nat) => Position.mk (x : Int) (y : Int)))

/-- Maze.resetVisited: Cell.reset on every cell. -/
def Maze.resetVisited (m : Maze) : Maze :=
  { m with grid := fun p => if m.isValidPositionObject p then (m.grid p).reset else m.grid p }

/-- Maze.resetToFullyWalled: every in-bounds slot gets a fresh all-walled
cell constructed at its own coordinate (the setCell guard passes). -/
def Maze.resetToFullyWalled (m : Maze) : Maze :=
  { m with grid := fun p => if m.isValidPositionObject p then Cell.mkClosed p.x p.y else m.grid p }

/-- Marking one cell's visited flag through its grid reference. -/
def Maze.setVisited (m : Maze) (p : Position) (b : Bool) : Maze :=
  m.updateCell p (fun c => { c with visited := b })

/-- One run of the generation while loop, on explicit fuel.  The stack
holds the positions of the stacked cell references.  The random index
Math.floor(Math.random()*n) is modelled as seed k % n where seed is an
arbitrary stream of naturals and k counts the draws.  Fuel exhaustion
stops early returning the current state; the wrapper passes fuel proved
sufficient for the loop to empty its stack. -/
def Maze.genLoop (seed : Nat → Nat) : Nat → Maze → Nat → List Position → Maze
  | 0, m, _, _ => m
  | _ + 1, m, _, [] => m
  | fuel + 1, m, k, cur :: rest =>
    let uns := m.getUnvisitedNeighbors (m.grid cur)
    if h : 0 < uns.length then
      let nxt := uns.get ⟨seed k % uns.length, Nat.mod_lt _ h⟩
      match m.removeWallBetweenAt cur nxt.position with
      | .ok m1 =>
        let m2 := m1.setVisited nxt.position true
        Maze.genLoop seed fuel m2 (k + 1) (nxt.position :: cur :: rest)
      | .error _ => m
    else
      Maze.genLoop seed fuel m k rest

/-- Maze.generateRecursiveBacktracking.  It resets the grid to fully
walled and unvisited first, and only then bounds-checks the start cell:
on a bad start the TS method throws with the reset already applied, so the
embedding returns the optional error together with the state at that
point. -/
def Maze.generateRecursiveBacktracking (m : Maze) (seed : Nat → Nat) (startX startY : Int) :
    Option MazeErr × Maze :=
  let m1 := m.resetToFullyWalled
  let m2 := m1.resetVisited
  if m2.isValidPosition startX startY then
    let start : Position := ⟨startX, startY⟩
    let m3 := m2.setVisited start true
    (none, Maze.genLoop seed (2 * m.width * m.height + 1) m3 0 [start])
  else
    (some .outOfBounds, m2)

/-- The positions of the accessible neighbors of the cell at slot p (the
solver loops read the .position of each neighbor cell reference). -/
def Maze.accessiblePositions (m : Maze) (p : Position) : List Position :=
  (m.getAccessibleNeighbors (m.grid p)).map (fun c => c.position)

/-- The for loop over accessibleNeighbors inside dfsRecursive: each
neighbor's live visited flag is re-read before the try, a successful
recursive call is propagated immediately, a failed one leaves its visited
mutations in place.  The recursive call is passed as an argument so that
the fuel recursion below stays structural. -/
def Maze.dfsTry (rec : Maze → Position → Option (List Position) × Maze) :
    Maze → List Position → Option (List Position) × Maze
  | m, [] => (none, m)
  | m, n :: ns =>
    if (m.grid n).visited then Maze.dfsTry rec m ns
    else match rec m n with
      | (some p, m') => (some p, m')
      | (none, m') => Maze.dfsTry rec m' ns

/-- dfsRecursive: marks the current cell, succeeds if it is the target,
else tries each accessible neighbor in order; on a propagated success the
current position is the head of the returned path (the TS code keeps the
pushed spine current..target on the shared path array).  The grid is
threaded to retain visited mutations. -/
def Maze.dfsRec (target : Position) : Nat → Maze → Position → Option (List Position) × Maze
  | 0, m, _ => (none, m)
  | fuel + 1, m, current =>
    let m1 := m.setVisited current true
    if current = target then (some [current], m1)
    else match Maze.dfsTry (Maze.dfsRec target fuel) m1 (m1.accessiblePositions current) with
      | (some p, m') => (some (current :: p), m')
      | (none, m') => (none, m')

/-- Maze.solveDFS: validates both endpoints, resets visited, runs the
recursion.  Returns the path (or none) plus the final grid state. -/
def Maze.solveDFS (m : Maze) (start end_ : Position) :
    Except MazeErr (Option (List Position) × Maze) :=
  if ! m.isValidPositionObject start then .error .invalidPosition
  else if ! m.isValidPositionObject end_ then .error .invalidPosition
  else .ok (Maze.dfsRec end_ (m.width * m.height + 1) m.resetVisited start)

/-- A BFS queue node: the position plus the parent chain, embedded as the
reversed list of ancestor positions (nearest parent first).
reconstructPath walks the chain and reverses. -/
abbrev QNode := Position × List Position

/-- The enqueue for loop of solveBFS: each accessible neighbor is tested
against its live visited flag, marked at enqueue time and appended. -/
def Maze.bfsEnqueue (cur : Position) (tail : List Position) :
    Maze → List QNode → List Position → Maze × List QNode
  | m, acc, [] => (m, acc)
  | m, acc, n :: ns =>
    if (m.grid n).visited then Maze.bfsEnqueue cur tail m acc ns
    else Maze.bfsEnqueue cur tail (m.setVisited n true) (acc ++ [(n, cur :: tail)]) ns

/-- The while loop of solveBFS on explicit fuel: dequeue from the front,
return the reconstructed path on hitting the target, else enqueue the
unvisited accessible neighbors at the back. -/
def Maze.bfsLoop (end_ : Position) : Nat → Maze → List QNode → Option (List Position) × Maze
  | 0, m, _ => (none, m)
  | _ + 1, m, [] => (none, m)
  | fuel + 1, m, (cur, tail) :: rest =>
    if cur = end_ then (some (cur :: tail).reverse, m)
    else
      let step := Maze.bfsEnqueue cur tail m [] (m.accessiblePositions cur)
      Maze.bfsLoop end_ fuel step.1 (rest ++ step.2)

/-- Maze.solveBFS: validates both endpoints, resets visited, seeds the
queue with the start node and marks it visited, then runs the loop. -/
def Maze.solveBFS (m : Maze) (start end_ : Position) :
    Except MazeErr (Option (List Position) × Maze) :=
  if ! m.isValidPositionObject start then .error .invalidPosition
  else if ! m.isValidPositionObject end_ then .error .invalidPosition
  else
    let m0 := m.resetVisited
    let m1 := m0.setVisited start true
    .ok (Maze.bfsLoop end_ (2 * m.width * m.height + 1) m1 [(start, [])])

/-- The record returned by getStatistics.  The JS connectivity ratio
(a float division) is modelled as the exact rational. -/
structure Statistics where
  totalCells : Nat
  visitedCells : Nat
  unvisitedCells : Nat
  totalWalls : Nat
  removedWalls : Nat
  connectivity : Rat
deriving Repr

/-- Maze.getStatistics: one scan over all cells. -/
def Maze.getStatistics (m : Maze) : Statistics :=
  let cells := (allPositions m.width m.height).map m.grid
  let visitedCount := (cells.filter (fun c => c.visited)).length
  let totalWalls := (cells.map (fun c => c.getWallCount)).sum
  let removedWalls := (cells.map (fun c => 4 - c.getWallCount)).sum
  { totalCells := m.totalCells
    visitedCells := visitedCount
    unvisitedCells := m.totalCells - visitedCount
    totalWalls := totalWalls
    removedWalls := removedWalls
    connectivity := (removedWalls : Rat) / ((m.totalCells : Rat) * 4) }

/-- The path component of a solver result. -/
def pathOf (r : Except MazeErr (Option (List Position) × Maze)) : Option (List Position) :=
  match r with
  | .ok (p, _) => p
  | .error _ => none

/-- The final grid state of a solver result (the input state on a throw,
since validation precedes any mutation). -/
def stateOf (m : Maze) (r : Except MazeErr (Option (List Position) × Maze)) : Maze :=
  match r with
  | .ok (_, m') => m'
  | .error _ => m

/-! ## Specification predicates used by the claims. -/

/-- The opposite cardinal direction. -/
def Direction.opposite : Direction → Direction
  | .up => .down
  | .down => .up
  | .left => .right
  | .right => .left

/-- One unit step from a position in a direction. -/
def stepPos (p : Position) (d : Direction) : Position := movePosition p d 1

/-- Manhattan-distance-one adjacency of raw positions (what
arePositionsAdjacent computes). -/
def posAdjacent (p q : Position) : Bool :=
  ((p.x - q.x).natAbs = 1 ∧ (p.y - q.y).natAbs = 0) ∨
  ((p.x - q.x).natAbs = 0 ∧ (p.y - q.y).natAbs = 1)

/-- The grid/cell-position invariant of C5: every slot holds a cell whose
stored position equals the slot coordinate. -/
def Coherent (m : Maze) : Prop := ∀ p : Position, (m.grid p).position = p

/-- The wall-symmetry invariant of C4: for every in-bounds cell and every
direction whose neighbor is in bounds, the two faces of the shared wall
agree. -/
def SymWalls (m : Maze) : Prop :=
  ∀ p : Position, ∀ d : Direction,
    m.isValidPositionObject p = true → m.isValidPositionObject (stepPos p d) = true →
    (m.grid p).isOpenInDirection d = (m.grid (stepPos p d)).isOpenInDirection d.opposite

/-- Maze states reachable through the public operations named by C4:
construction, generation, wall mutation between in-bounds cells obtained
from the grid, solving and the resets. -/
inductive ReachableW : Maze → Prop where
  | create (w h : Nat) (b : Bool) : ReachableW (Maze.create w h b)
  | removeWall {m m' : Maze} (pos1 pos2 : Position) : ReachableW m →
      m.removeWallBetweenPositions pos1 pos2 = .ok m' → ReachableW m'
  | addWall {m m' : Maze} (p q : Position) : ReachableW m →
      m.isValidPositionObject p = true → m.isValidPositionObject q = true →
      m.addWallBetweenAt p q = .ok m' → ReachableW m'
  | generate {m : Maze} (seed : Nat → Nat) (sx sy : Int) : ReachableW m →
      ReachableW (m.generateRecursiveBacktracking seed sx sy).2
  | solveDFS {m : Maze} (s e : Position) : ReachableW m →
      ReachableW (stateOf m (m.solveDFS s e))
  | solveBFS {m : Maze} (s e : Position) : ReachableW m →
      ReachableW (stateOf m (m.solveBFS s e))
  | resetVisited {m : Maze} : ReachableW m → ReachableW m.resetVisited
  | resetToFullyWalled {m : Maze} : ReachableW m → ReachableW m.resetToFullyWalled

/-- Maze states reachable through the public operations named by C5: the
operations of ReachableW plus setCell (which admits arbitrary well-placed
cells and is therefore excluded from the wall-symmetry claim). -/
inductive Reachable : Maze → Prop where
  | ofW {m : Maze} : ReachableW m → Reachable m
  | removeWall {m m' : Maze} (pos1 pos2 : Position) : Reachable m →
      m.removeWallBetweenPositions pos1 pos2 = .ok m' → Reachable m'
  | addWall {m m' : Maze} (p q : Position) : Reachable m →
      m.isValidPositionObject p = true → m.isValidPositionObject q = true →
      m.addWallBetweenAt p q = .ok m' → Reachable m'
  | generate {m : Maze} (seed : Nat → Nat) (sx sy : Int) : Reachable m →
      Reachable (m.generateRecursiveBacktracking seed sx sy).2
  | solveDFS {m : Maze} (s e : Position) : Reachable m →
      Reachable (stateOf m (m.solveDFS s e))
  | solveBFS {m : Maze} (s e : Position) : Reachable m →
      Reachable (stateOf m (m.solveBFS s e))
  | resetVisited {m : Maze} : Reachable m → Reachable m.resetVisited
  | resetToFullyWalled {m : Maze} : Reachable m → Reachable m.resetToFullyWalled
  | setCell {m m' : Maze} (x y : Int) (c : Cell) : Reachable m →
      m.setCell x y c = .ok m' → Reachable m'

/-- One legal solver move: the two positions are adjacent and the move
from the first to the second crosses no wall (canMoveBetween succeeds
with true). -/
def stepOK (m : Maze) (p q : Position) : Prop := m.canMoveBetween p q = .ok true

/-- A nonempty chain of E-steps from s to e. -/
def ChainPath (E : Position → Position → Prop) (l : List Position) (s e : Position) : Prop :=
  l.Chain' E ∧ l.head? = some s ∧ l.getLast? = some e

/-- At most one duplicate-free E-chain between any two endpoints. -/
def UniqueSimple (E : Position → Position → Prop) : Prop :=
  ∀ s e : Position, ∀ l1 l2 : List Position,
    ChainPath E l1 s e → l1.Nodup → ChainPath E l2 s e → l2.Nodup → l1 = l2

/-- A path in the sense of the solvers: a nonempty position sequence from
s to e each consecutive pair of which is a legal move. -/
def IsOpenPath (m : Maze) (l : List Position) (s e : Position) : Prop :=
  ChainPath (stepOK m) l s e

/-- A simple path: an open path without repeated positions. -/
def IsSimplePath (m : Maze) (l : List Position) (s e : Position) : Prop :=
  IsOpenPath m l s e ∧ l.Nodup

/-- The perfect-maze property: between any two positions there is at most
one simple path. -/
def UniquePaths (m : Maze) : Prop :=
  ∀ s e : Position, ∀ l1 l2 : List Position,
    IsSimplePath m l1 s e → IsSimplePath m l2 s e → l1 = l2

/-- Number of in-bounds cells currently unvisited. -/
def Maze.unvisitedCount (m : Maze) : Nat :=
  (allPositions m.width m.height).countP (fun p => ! (m.grid p).visited)

/-- Number of in-bounds cells currently visited. -/
def Maze.visitedCount (m : Maze) : Nat :=
  (allPositions m.width m.height).countP (fun p => (m.grid p).visited)

/-- The double cell update performed by a successful removeWallBetween on
the cells at p and one step in direction d: both facing walls go away. -/
def Maze.carvePassage (m : Maze) (p : Position) (d : Direction) : Maze :=
  (m.updateCell p (fun c => c.removeWallMutable d)).updateCell (stepPos p d)
    (fun c => c.removeWallMutable d.opposite)

/-- Total number of removed wall faces, summed cell by cell (this is what
getStatistics reports as removedWalls). -/
def Maze.removedFaces (m : Maze) : Nat :=
  ((allPositions m.width m.height).map (fun p => 4 - (m.grid p).getWallCount)).sum

/-- The generation loop invariant: stack cells are valid and visited, the
number of removed faces is exactly twice the number of visited cells less
two, every open face joins two visited in-bounds cells, every visited
cell is on the stack or fully explored, every visited cell is reachable
from the start through open passages, and simple paths are unique. -/
structure GenInv (start : Position) (m : Maze) (stack : List Position) : Prop where
  stackValid : ∀ p ∈ stack, m.isValidPositionObject p = true ∧ (m.grid p).visited = true
  counting : m.removedFaces + 2 = 2 * m.visitedCount
  openFaces : ∀ (p : Position) (d : Direction), m.isValidPositionObject p = true →
    (m.grid p).isOpenInDirection d = true →
    m.isValidPositionObject (stepPos p d) = true ∧ (m.grid p).visited = true ∧
      (m.grid (stepPos p d)).visited = true
  closure : ∀ p : Position, m.isValidPositionObject p = true → (m.grid p).visited = true →
    p ∈ stack ∨ ∀ d : Direction, m.isValidPositionObject (stepPos p d) = true →
      (m.grid (stepPos p d)).visited = true
  connects : ∀ p : Position, m.isValidPositionObject p = true → (m.grid p).visited = true →
    ∃ l : List Position, IsOpenPath m l start p
  uniq : UniqueSimple (stepOK m)
  startValid : m.isValidPositionObject start = true
  startVisited : (m.grid start).visited = true

/-- Two mazes with the same dimensions, wall states and stored positions
(they may differ in visited flags only). -/
def Maze.sameWalls (m m' : Maze) : Prop :=
  m.width = m'.width ∧ m.height = m'.height ∧
  ∀ p : Position, (m.grid p).walls = (m'.grid p).walls ∧
    (m.grid p).position = (m'.grid p).position

/-- The solveBFS while-loop invariant, with a ghost label function ℓ
recording the BFS depth at which each cell was marked visited: the walls
never change, every queue node carries a duplicate-free open path from the
search start whose length matches its label, queue node lengths form a
nondecreasing band of width one, no position is queued twice, every label
lower-bounds the length of every open path from the start to its cell,
every visited label is within one of the shallowest queued node, every
visited cell that has left the queue has all its neighbors visited at a
label at most one deeper, and the target can only leave the queue by being
returned. -/
structure BfsInv (m0 : Maze) (start end_ : Position) (m : Maze) (Q : List QNode)
    (lab : Position → Nat) : Prop where
  walls : m0.sameWalls m
  coh : Coherent m
  startVis : (m.grid start).visited = true
  nodes : ∀ pt ∈ Q, ChainPath (stepOK m0) ((pt.1 :: pt.2).reverse) start pt.1 ∧
    (pt.1 :: pt.2).Nodup ∧ (∀ z ∈ pt.1 :: pt.2, (m.grid z).visited = true) ∧
    lab pt.1 = pt.2.length + 1 ∧ m0.isValidPositionObject pt.1 = true
  band1 : List.Pairwise (fun a b => a ≤ b) (Q.map (fun pt => pt.2.length + 1))
  band2 : ∀ a ∈ Q.map (fun pt => pt.2.length + 1),
    ∀ b ∈ Q.map (fun pt => pt.2.length + 1), b ≤ a + 1
  qdist : (Q.map Prod.fst).Nodup
  lb : ∀ (z : Position) (q : List Position), ChainPath (stepOK m0) q start z →
    (m.grid z).visited = true → lab z ≤ q.length
  visBound : ∀ pt ∈ Q, ∀ z : Position, (m.grid z).visited = true →
    lab z ≤ pt.2.length + 2
  closedCells : ∀ z : Position, (m.grid z).visited = true →
    (∀ t : List Position, (z, t) ∉ Q) →
    ∀ z' : Position, stepOK m0 z z' → (m.grid z').visited = true ∧ lab z' ≤ lab z + 1
  endInQ : (m.grid end_).visited = true → ∃ t : List Position, (end_, t) ∈ Q

/-! ## Easy claims: C6, C7, C8, C9, C10, and the concrete counterexamples
for C1 and C3. -/

/-- C7: getCell fails with OutOfBounds exactly on coordinates outside
[0,width) x [0,height), and getCellSafe returns an absent result exactly
on those same inputs (and never fails, being total). -/
theorem claim_C7_getCell_bounds (m : Maze) (x y : Int) :
    (m.getCell x y = .error .outOfBounds ↔ m.isValidPosition x y = false) ∧
    (m.getCellSafe x y = none ↔ m.isValidPosition x y = false) := by
  cases h : m.isValidPosition x y <;>
    simp [Maze.getCell, Maze.getCellSafe, h]

/-- C8: removeWall and addWall are idempotent and total, removing an
absent wall or adding a present wall is a no-op, and the cell-level
mutators removeWallMutable/addWallMutable inherit all of this. -/
theorem claim_C8_wall_idempotence (w : Walls) (c : Cell) (d : Direction) :
    removeWall (removeWall w d) d = removeWall w d ∧
    addWall (addWall w d) d = addWall w d ∧
    (hasWall w d = false → removeWall w d = w) ∧
    (hasWall w d = true → addWall w d = w) ∧
    (c.removeWallMutable d).removeWallMutable d = c.removeWallMutable d ∧
    (c.addWallMutable d).addWallMutable d = c.addWallMutable d ∧
    (c.hasWallInDirection d = false → c.removeWallMutable d = c) ∧
    (c.hasWallInDirection d = true → c.addWallMutable d = c) := by
  obtain ⟨wu, wd, wl, wr⟩ := w
  obtain ⟨cp, ⟨cu, cd, cl, cr⟩, cv⟩ := c
  cases d <;>
    simp_all [removeWall, addWall, hasWall, Cell.removeWallMutable,
      Cell.addWallMutable, Cell.hasWallInDirection]

/-- C8 witness at a concrete wall set, cell and direction. -/
theorem claim_C8_wall_idempotence_witness :
    removeWall (removeWall createClosedWalls .up) .up = removeWall createClosedWalls .up ∧
    addWall (addWall createClosedWalls .up) .up = addWall createClosedWalls .up ∧
    (hasWall createClosedWalls .up = false → removeWall createClosedWalls .up = createClosedWalls) ∧
    (hasWall createClosedWalls .up = true → addWall createClosedWalls .up = createClosedWalls) ∧
    ((Cell.mkClosed 0 0).removeWallMutable .up).removeWallMutable .up
      = (Cell.mkClosed 0 0).removeWallMutable .up ∧
    ((Cell.mkClosed 0 0).addWallMutable .up).addWallMutable .up
      = (Cell.mkClosed 0 0).addWallMutable .up ∧
    ((Cell.mkClosed 0 0).hasWallInDirection .up = false
      → (Cell.mkClosed 0 0).removeWallMutable .up = Cell.mkClosed 0 0) ∧
    ((Cell.mkClosed 0 0).hasWallInDirection .up = true
      → (Cell.mkClosed 0 0).addWallMutable .up = Cell.mkClosed 0 0) :=
  claim_C8_wall_idempotence createClosedWalls (Cell.mkClosed 0 0) .up

/-- C6: for every maze and in-bounds position p, both solvers on
(start, end) = (p, p) succeed with the single-element path [p]. -/
theorem claim_C6_start_eq_end (m : Maze) (p : Position)
    (hv : m.isValidPositionObject p = true) :
    pathOf (m.solveDFS p p) = some [p] ∧ pathOf (m.solveBFS p p) = some [p] := by
  constructor
  · simp only [Maze.solveDFS, hv, Bool.not_true, Bool.false_eq_true, if_false]
    simp [Maze.dfsRec, pathOf]
  · simp only [Maze.solveBFS, hv, Bool.not_true, Bool.false_eq_true, if_false]
    simp [Maze.bfsLoop, pathOf]

/-- C6 witness: the 1x1 maze with both endpoints (0,0). -/
theorem claim_C6_start_eq_end_witness :
    pathOf ((Maze.create 1 1 true).solveDFS ⟨0, 0⟩ ⟨0, 0⟩) = some [⟨0, 0⟩] ∧
    pathOf ((Maze.create 1 1 true).solveBFS ⟨0, 0⟩ ⟨0, 0⟩) = some [⟨0, 0⟩] :=
  claim_C6_start_eq_end (Maze.create 1 1 true) ⟨0, 0⟩ (by decide)

/-- C9: for any pair of positions with at least one of them out of
bounds, canMoveBetween throws OutOfBounds whenever the pair is adjacent
(Manhattan distance one), and returns false without an error exactly when
the pair is not adjacent. -/
theorem claim_C9_canMoveBetween_oob (m : Maze) (from_ to_ : Position)
    (hob : ¬(m.isValidPositionObject from_ = true ∧ m.isValidPositionObject to_ = true)) :
    (m.arePositionsAdjacent from_ to_ = true →
      m.canMoveBetween from_ to_ = .error .outOfBounds) ∧
    (m.arePositionsAdjacent from_ to_ = false →
      m.canMoveBetween from_ to_ = .ok false) := by
  constructor
  · intro hadj
    simp only [Maze.canMoveBetween, hadj, Bool.not_true, Bool.false_eq_true, if_false]
    by_cases hf : m.isValidPositionObject from_ = true
    · have ht : m.isValidPositionObject to_ = false := by
        rcases Bool.eq_false_or_eq_true (m.isValidPositionObject to_) with h | h
        · exact absurd ⟨hf, h⟩ hob
        · exact h
      simp [Maze.getCellAt, Maze.getCell, Maze.isValidPositionObject] at hf ht ⊢
      simp [hf, ht, Bind.bind, Except.bind]
    · have hf' : m.isValidPositionObject from_ = false := by
        rcases Bool.eq_false_or_eq_true (m.isValidPositionObject from_) with h | h
        · exact absurd h hf
        · exact h
      simp [Maze.getCellAt, Maze.getCell, Maze.isValidPositionObject] at hf' ⊢
      simp [hf', Bind.bind, Except.bind]
  · intro hnadj
    simp [Maze.canMoveBetween, hnadj]

/-- C9 witness: on the 1x1 maze, from (0,0) the adjacent out-of-bounds
position (-1,0) raises OutOfBounds, and the non-adjacent out-of-bounds
position (5,5) yields false without an error. -/
theorem claim_C9_canMoveBetween_oob_witness :
    ((Maze.create 1 1 true).arePositionsAdjacent ⟨0, 0⟩ ⟨-1, 0⟩ = true →
      (Maze.create 1 1 true).canMoveBetween ⟨0, 0⟩ ⟨-1, 0⟩ = .error .outOfBounds) ∧
    ((Maze.create 1 1 true).arePositionsAdjacent ⟨0, 0⟩ ⟨-1, 0⟩ = false →
      (Maze.create 1 1 true).canMoveBetween ⟨0, 0⟩ ⟨-1, 0⟩ = .ok false) := by
  refine claim_C9_canMoveBetween_oob (Maze.create 1 1 true) ⟨0, 0⟩ ⟨-1, 0⟩ ?_
  decide

/-- C10: calling generateRecursiveBacktracking with an out-of-bounds
start raises OutOfBounds, but only after the whole grid has been reset to
the fully-walled all-unvisited state: every in-bounds slot of the state
at the throw point holds a fresh all-walled unvisited cell, so the prior
wall and visited state is discarded. -/
theorem claim_C10_generate_oob_not_atomic (m : Maze) (seed : Nat → Nat) (sx sy : Int)
    (hv : m.isValidPosition sx sy = false) :
    (m.generateRecursiveBacktracking seed sx sy).1 = some .outOfBounds ∧
    ∀ p : Position, m.isValidPositionObject p = true →
      (m.generateRecursiveBacktracking seed sx sy).2.grid p = Cell.mkClosed p.x p.y := by
  have hv2 : (m.resetToFullyWalled.resetVisited).isValidPosition sx sy = false := hv
  constructor
  · simp [Maze.generateRecursiveBacktracking, hv2]
  · intro p hp
    simp only [Maze.generateRecursiveBacktracking, hv2, Bool.false_eq_true, if_false]
    have hp1 : (m.resetToFullyWalled).isValidPositionObject p = true := hp
    simp [Maze.resetVisited, Maze.resetToFullyWalled, hp1,
      Maze.isValidPositionObject] at hp ⊢
    simp [hp, Cell.reset, Cell.mkClosed]

/-- C10 witness: the 2x1 maze with start (-1,0). -/
theorem claim_C10_generate_oob_not_atomic_witness :
    ((Maze.create 2 1 true).generateRecursiveBacktracking (fun _ => 0) (-1) 0).1
      = some .outOfBounds ∧
    ∀ p : Position, (Maze.create 2 1 true).isValidPositionObject p = true →
      ((Maze.create 2 1 true).generateRecursiveBacktracking (fun _ => 0) (-1) 0).2.grid p
        = Cell.mkClosed p.x p.y :=
  claim_C10_generate_oob_not_atomic (Maze.create 2 1 true) (fun _ => 0) (-1) 0 (by decide)

/-- C1 counterexample: on the 2x1 maze, generation (which is forced,
whatever the random stream does) carves the single passage by removing
one wall face from each of the two cells, so getStatistics reports
removedWalls = 2 while totalCells - 1 = 1. -/
theorem claim_C1_counterexample :
    ((Maze.create 2 1 true).generateRecursiveBacktracking (fun _ => 0) 0 0).2.getStatistics.removedWalls
      ≠ (Maze.create 2 1 true).totalCells - 1 := by
  decide

/-- C3 counterexample: generate the 2x2 maze with the all-zero random
stream (the carved tree is the path (0,0)-(0,1)-(1,1)-(1,0)) and solve
from (0,1) to (0,0).  DFS finds the target through its first open
direction and never visits (1,1), while BFS marks (1,1) visited when it
enqueues the siblings of the start cell, so the two solvers do not set
the visited flag on the identical set of cells. -/
theorem claim_C3_counterexample :
    ((stateOf ((Maze.create 2 2 true).generateRecursiveBacktracking (fun _ => 0) 0 0).2
        (((Maze.create 2 2 true).generateRecursiveBacktracking (fun _ => 0) 0 0).2.solveDFS
          ⟨0, 1⟩ ⟨0, 0⟩)).grid ⟨1, 1⟩).visited
      ≠ ((stateOf ((Maze.create 2 2 true).generateRecursiveBacktracking (fun _ => 0) 0 0).2
        (((Maze.create 2 2 true).generateRecursiveBacktracking (fun _ => 0) 0 0).2.solveBFS
          ⟨0, 1⟩ ⟨0, 0⟩)).grid ⟨1, 1⟩).visited := by
  decide

/-! ## Direction and adjacency basics. -/

theorem stepPos_opposite (p : Position) (d : Direction) :
    stepPos (stepPos p d) d.opposite = p := by
  obtain ⟨px, py⟩ := p
  cases d <;> simp [stepPos, movePosition, getDirectionOffset, Direction.opposite]

theorem stepPos_ne (p : Position) (d : Direction) : stepPos p d ≠ p := by
  obtain ⟨px, py⟩ := p
  cases d <;> simp [stepPos, movePosition, getDirectionOffset]

theorem stepPos_inj (p : Position) {d d' : Direction} (h : stepPos p d = stepPos p d') :
    d = d' := by
  obtain ⟨px, py⟩ := p
  cases d <;> cases d' <;> simp_all [stepPos, movePosition, getDirectionOffset]

theorem posAdjacent_step (p : Position) (d : Direction) :
    posAdjacent p (stepPos p d) = true := by
  obtain ⟨px, py⟩ := p
  cases d <;> simp [posAdjacent, stepPos, movePosition, getDirectionOffset]

theorem posAdjacent_symm (p q : Position) : posAdjacent p q = posAdjacent q p := by
  simp only [posAdjacent, decide_eq_decide]
  omega

theorem posAdjacent_iff_step (p q : Position) :
    posAdjacent p q = true ↔ ∃ d : Direction, stepPos p d = q := by
  obtain ⟨px, py⟩ := p
  obtain ⟨qx, qy⟩ := q
  constructor
  · intro h
    simp only [posAdjacent, decide_eq_true_eq] at h
    obtain ⟨hx, hy⟩ | ⟨hx, hy⟩ := h
    · rcases Int.natAbs_eq_iff.mp hx with h1 | h1
      · exact ⟨.left, by simp [stepPos, movePosition, getDirectionOffset]; omega⟩
      · exact ⟨.right, by simp [stepPos, movePosition, getDirectionOffset]; omega⟩
    · rcases Int.natAbs_eq_iff.mp hy with h1 | h1
      · exact ⟨.up, by simp [stepPos, movePosition, getDirectionOffset]; omega⟩
      · exact ⟨.down, by simp [stepPos, movePosition, getDirectionOffset]; omega⟩
  · rintro ⟨d, h⟩
    rw [← h]
    exact posAdjacent_step _ d

theorem areNeighbors_eq (m : Maze) (c1 c2 : Cell) :
    m.areNeighbors c1 c2 = posAdjacent c1.position c2.position := by
  simp only [Maze.areNeighbors, Cell.isAdjacentTo, Cell.manhattanDistanceTo, posAdjacent,
    decide_eq_decide]
  omega

theorem arePositionsAdjacent_eq (m : Maze) (p q : Position) :
    m.arePositionsAdjacent p q = posAdjacent p q := by
  simp only [Maze.arePositionsAdjacent, posAdjacent]

/-- getDirectionBetween on two cells whose positions are one step apart
returns exactly that step's direction. -/
theorem getDirectionBetween_step (m : Maze) (c1 c2 : Cell) (d : Direction)
    (hstep : stepPos c1.position d = c2.position) :
    m.getDirectionBetween c1 c2 = .ok d := by
  have hadj : m.areNeighbors c1 c2 = true := by
    rw [areNeighbors_eq, ← hstep]
    exact posAdjacent_step _ _
  simp only [Maze.getDirectionBetween, hadj, Bool.not_true, Bool.false_eq_true, if_false]
  rw [← hstep]
  cases d
  case up =>
    simp only [stepPos, movePosition, getDirectionOffset]
    rw [if_neg (by omega), if_neg (by omega), if_neg (by omega), if_pos (by omega)]
  case down =>
    simp only [stepPos, movePosition, getDirectionOffset]
    rw [if_neg (by omega), if_neg (by omega), if_pos (by omega)]
  case left =>
    simp only [stepPos, movePosition, getDirectionOffset]
    rw [if_neg (by omega), if_pos (by omega)]
  case right =>
    simp only [stepPos, movePosition, getDirectionOffset]
    rw [if_pos (by omega)]

/-! ## Update and projection basics. -/

theorem updateCell_grid (m : Maze) (p : Position) (f : Cell → Cell) (q : Position) :
    ((m.updateCell p f).grid q) = if q = p then f (m.grid q) else m.grid q := rfl

theorem updateCell_valid (m : Maze) (p : Position) (f : Cell → Cell) (x y : Int) :
    (m.updateCell p f).isValidPosition x y = m.isValidPosition x y := rfl

/-! ## Cell mutator effects. -/

theorem isOpen_removeWallMutable (c : Cell) (d d' : Direction) :
    (c.removeWallMutable d).isOpenInDirection d'
      = if d' = d then true else c.isOpenInDirection d' := by
  cases d <;> cases d' <;>
    simp [Cell.removeWallMutable, Cell.isOpenInDirection, Cell.hasWallInDirection,
      removeWall, hasWall]

theorem isOpen_addWallMutable (c : Cell) (d d' : Direction) :
    (c.addWallMutable d).isOpenInDirection d'
      = if d' = d then false else c.isOpenInDirection d' := by
  cases d <;> cases d' <;>
    simp [Cell.addWallMutable, Cell.isOpenInDirection, Cell.hasWallInDirection,
      addWall, hasWall]

theorem position_removeWallMutable (c : Cell) (d : Direction) :
    (c.removeWallMutable d).position = c.position := rfl

theorem position_addWallMutable (c : Cell) (d : Direction) :
    (c.addWallMutable d).position = c.position := rfl

theorem isOpen_congr_walls {c c' : Cell} (h : c.walls = c'.walls) (d : Direction) :
    c.isOpenInDirection d = c'.isOpenInDirection d := by
  simp [Cell.isOpenInDirection, Cell.hasWallInDirection, h]

/-! ## SymWalls preservation by a symmetric pair update. -/

/-- Round trip of opposite directions. -/
theorem opposite_opposite (d : Direction) : d.opposite.opposite = d := by
  cases d <;> rfl

theorem stepPos_inj_pos {p1 p2 : Position} (d : Direction) (h : stepPos p1 d = stepPos p2 d) :
    p1 = p2 := by
  obtain ⟨a1, b1⟩ := p1
  obtain ⟨a2, b2⟩ := p2
  cases d <;> simp_all [stepPos, movePosition, getDirectionOffset]

/-- Updating the two faces of one shared wall consistently (both set to
the same openness b) preserves the wall-symmetry invariant; this covers
both removeWallBetween and addWallBetween. -/
theorem symWalls_pairUpdate (m : Maze) (p : Position) (d : Direction) (b : Bool)
    (f : Direction → Cell → Cell)
    (hopen : ∀ (c : Cell) (dd d' : Direction),
      (f dd c).isOpenInDirection d' = if d' = dd then b else c.isOpenInDirection d')
    (hsym : SymWalls m) :
    SymWalls ((m.updateCell p (f d)).updateCell (stepPos p d) (f d.opposite)) := by
  intro p' d' hp' hq'
  have hvalid : ∀ r : Position,
      ((m.updateCell p (f d)).updateCell (stepPos p d) (f d.opposite)).isValidPositionObject r
        = m.isValidPositionObject r := fun _ => rfl
  rw [hvalid] at hp' hq'
  have hgrid : ∀ r : Position,
      ((m.updateCell p (f d)).updateCell (stepPos p d) (f d.opposite)).grid r
        = if r = stepPos p d then f d.opposite (m.grid r)
          else if r = p then f d (m.grid r) else m.grid r := by
    intro r
    by_cases h1 : r = stepPos p d <;> by_cases h2 : r = p <;>
      simp [Maze.updateCell, h1, h2, stepPos_ne p d, Ne.symm (stepPos_ne p d)]
  rw [hgrid, hgrid]
  by_cases hp1 : p' = stepPos p d <;> by_cases hq2 : stepPos p' d' = p
  · -- far end stepping back onto the near end: d' is the opposite of d
    have hd : d' = d.opposite := by
      apply stepPos_inj p'
      rw [hq2, hp1, stepPos_opposite]
    have hq1 : ¬ stepPos p' d' = stepPos p d := by
      rw [hq2]
      exact Ne.symm (stepPos_ne p d)
    rw [if_pos hp1, if_neg hq1, if_pos hq2, hopen, hopen, hd]
    rw [if_pos rfl, if_pos (opposite_opposite d)]
  · -- far end stepping elsewhere: d' is not the opposite of d
    have hd : ¬ d' = d.opposite := by
      intro he
      apply hq2
      rw [he, hp1, stepPos_opposite]
    have hq1 : ¬ stepPos p' d' = stepPos p d := by
      intro he
      rw [← hp1] at he
      exact stepPos_ne p' d' he
    rw [if_pos hp1, if_neg hq1, if_neg hq2, hopen, if_neg hd]
    exact hsym p' d' hp' hq'
  · -- an uninvolved cell stepping onto the near end
    have hp2 : ¬ p' = p := by
      intro he
      rw [he] at hq2
      rw [← he] at hq2
      exact stepPos_ne p' d' hq2
    have hq1 : ¬ stepPos p' d' = stepPos p d := by
      rw [hq2]
      exact Ne.symm (stepPos_ne p d)
    have hd : ¬ d'.opposite = d := by
      intro he
      apply hp1
      have h0 := stepPos_opposite p' d'
      rw [hq2, he] at h0
      exact h0.symm
    rw [if_neg hp1, if_neg hp2, if_neg hq1, if_pos hq2, hopen, if_neg hd]
    exact hsym p' d' hp' hq'
  · -- neither end of the step is the far slot of the carved pair
    by_cases hp2 : p' = p
    · by_cases hd : d' = d
      · have hq1 : stepPos p' d' = stepPos p d := by rw [hp2, hd]
        rw [if_neg hp1, if_pos hp2, if_pos hq1, hopen, hopen, hd]
        rw [if_pos rfl, if_pos rfl]
      · have hq1 : ¬ stepPos p' d' = stepPos p d := by
          intro he
          rw [hp2] at he
          exact hd (stepPos_inj p he)
        rw [if_neg hp1, if_pos hp2, if_neg hq1, if_neg hq2, hopen, if_neg hd]
        exact hsym p' d' hp' hq'
    · rw [if_neg hp1, if_neg hp2]
      by_cases hq1 : stepPos p' d' = stepPos p d
      · have hd : ¬ d'.opposite = d.opposite := by
          intro he
          have hdd : d' = d := by
            have := congrArg Direction.opposite he
            rwa [opposite_opposite, opposite_opposite] at this
          apply hp2
          rw [hdd] at hq1
          exact stepPos_inj_pos d hq1
        rw [if_pos hq1, hopen, if_neg hd]
        rw [hq1]
        have hq'2 : m.isValidPositionObject (stepPos p d) = true := by rwa [hq1] at hq'
        have := hsym p' d' hp' hq'
        rw [hq1] at this
        exact this
      · rw [if_neg hq1, if_neg hq2]
        exact hsym p' d' hp' hq'

/-! ## Shapes of the wall-mutation operations. -/

theorem removeWallBetweenAt_eq (m : Maze) (p : Position) (d : Direction)
    (h1 : (m.grid p).position = p)
    (h2 : (m.grid (stepPos p d)).position = stepPos p d) :
    m.removeWallBetweenAt p (stepPos p d)
      = .ok ((m.updateCell p (fun c => c.removeWallMutable d)).updateCell (stepPos p d)
          (fun c => c.removeWallMutable d.opposite)) := by
  have hadj : m.areNeighbors (m.grid p) (m.grid (stepPos p d)) = true := by
    rw [areNeighbors_eq, h1, h2]
    exact posAdjacent_step _ _
  have hd12 := getDirectionBetween_step m (m.grid p) (m.grid (stepPos p d)) d
    (by rw [h1, h2])
  have hd21 := getDirectionBetween_step m (m.grid (stepPos p d)) (m.grid p) d.opposite
    (by rw [h1, h2, stepPos_opposite])
  simp [Maze.removeWallBetweenAt, hadj, hd12, hd21, Bind.bind, Except.bind, pure, Except.pure]

theorem addWallBetweenAt_eq (m : Maze) (p : Position) (d : Direction)
    (h1 : (m.grid p).position = p)
    (h2 : (m.grid (stepPos p d)).position = stepPos p d) :
    m.addWallBetweenAt p (stepPos p d)
      = .ok ((m.updateCell p (fun c => c.addWallMutable d)).updateCell (stepPos p d)
          (fun c => c.addWallMutable d.opposite)) := by
  have hadj : m.areNeighbors (m.grid p) (m.grid (stepPos p d)) = true := by
    rw [areNeighbors_eq, h1, h2]
    exact posAdjacent_step _ _
  have hd12 := getDirectionBetween_step m (m.grid p) (m.grid (stepPos p d)) d
    (by rw [h1, h2])
  have hd21 := getDirectionBetween_step m (m.grid (stepPos p d)) (m.grid p) d.opposite
    (by rw [h1, h2, stepPos_opposite])
  simp [Maze.addWallBetweenAt, hadj, hd12, hd21, Bind.bind, Except.bind, pure, Except.pure]

/-- Inversion: a successful removeWallBetween on the cells at two slots of
a coherent grid identifies the step direction and the exact double
update performed. -/
theorem removeWallBetweenAt_ok_inv {m m' : Maze} {p q : Position}
    (hcoh : Coherent m) (h : m.removeWallBetweenAt p q = .ok m') :
    ∃ d : Direction, q = stepPos p d ∧
      m' = (m.updateCell p (fun c => c.removeWallMutable d)).updateCell (stepPos p d)
        (fun c => c.removeWallMutable d.opposite) := by
  have hadj : posAdjacent p q = true := by
    by_contra hn
    have hf : m.areNeighbors (m.grid p) (m.grid q) = false := by
      rw [areNeighbors_eq, hcoh p, hcoh q]
      exact Bool.eq_false_iff.mpr hn
    simp [Maze.removeWallBetweenAt, hf] at h
  obtain ⟨d, hd⟩ := (posAdjacent_iff_step p q).mp hadj
  refine ⟨d, hd.symm, ?_⟩
  rw [← hd] at h
  rw [removeWallBetweenAt_eq m p d (hcoh p) (hcoh (stepPos p d))] at h
  exact (Except.ok.injEq _ _).mp h |>.symm

theorem addWallBetweenAt_ok_inv {m m' : Maze} {p q : Position}
    (hcoh : Coherent m) (h : m.addWallBetweenAt p q = .ok m') :
    ∃ d : Direction, q = stepPos p d ∧
      m' = (m.updateCell p (fun c => c.addWallMutable d)).updateCell (stepPos p d)
        (fun c => c.addWallMutable d.opposite) := by
  have hadj : posAdjacent p q = true := by
    by_contra hn
    have hf : m.areNeighbors (m.grid p) (m.grid q) = false := by
      rw [areNeighbors_eq, hcoh p, hcoh q]
      exact Bool.eq_false_iff.mpr hn
    simp [Maze.addWallBetweenAt, hf] at h
  obtain ⟨d, hd⟩ := (posAdjacent_iff_step p q).mp hadj
  refine ⟨d, hd.symm, ?_⟩
  rw [← hd] at h
  rw [addWallBetweenAt_eq m p d (hcoh p) (hcoh (stepPos p d))] at h
  exact (Except.ok.injEq _ _).mp h |>.symm

theorem removeWallBetweenPositions_ok_inv {m m' : Maze} {p q : Position}
    (h : m.removeWallBetweenPositions p q = .ok m') :
    m.removeWallBetweenAt p q = .ok m' := by
  by_cases h1 : m.isValidPositionObject p = true
  · by_cases h2 : m.isValidPositionObject q = true
    · simpa [Maze.removeWallBetweenPositions, Maze.getCellAt, Maze.getCell,
        Maze.isValidPositionObject, Bind.bind, Except.bind,
        show m.isValidPosition p.x p.y = true from h1,
        show m.isValidPosition q.x q.y = true from h2] using h
    · have h2' : m.isValidPosition q.x q.y = false := by
        rcases Bool.eq_false_or_eq_true (m.isValidPosition q.x q.y) with hb | hb
        · exact absurd hb h2
        · exact hb
      simp [Maze.removeWallBetweenPositions, Maze.getCellAt, Maze.getCell,
        Maze.isValidPositionObject, Bind.bind, Except.bind, h2',
        show m.isValidPosition p.x p.y = true from h1] at h
  · have h1' : m.isValidPosition p.x p.y = false := by
      rcases Bool.eq_false_or_eq_true (m.isValidPosition p.x p.y) with hb | hb
      · exact absurd hb h1
      · exact hb
    simp [Maze.removeWallBetweenPositions, Maze.getCellAt, Maze.getCell,
      Maze.isValidPositionObject, Bind.bind, Except.bind, h1'] at h

/-! ## Coherence preservation. -/

theorem coherent_create (w h : Nat) (b : Bool) : Coherent (Maze.create w h b) := by
  intro p
  by_cases hb : b <;> simp [Maze.create, hb, Cell.mkClosed, Cell.createOpen]

theorem coherent_updateCell {m : Maze} {f : Cell → Cell} (p : Position)
    (hcoh : Coherent m) (hf : ∀ c : Cell, (f c).position = c.position) :
    Coherent (m.updateCell p f) := by
  intro q
  rw [updateCell_grid]
  by_cases hq : q = p
  · rw [if_pos hq, hf, hcoh]
  · rw [if_neg hq]
    exact hcoh q

theorem coherent_resetVisited {m : Maze} (hcoh : Coherent m) : Coherent m.resetVisited := by
  intro q
  simp only [Maze.resetVisited]
  by_cases hq : m.isValidPositionObject q = true <;> simp [hq, Cell.reset, hcoh q]

theorem coherent_resetToFullyWalled {m : Maze} (hcoh : Coherent m) :
    Coherent m.resetToFullyWalled := by
  intro q
  simp only [Maze.resetToFullyWalled]
  by_cases hq : m.isValidPositionObject q = true <;> simp [hq, Cell.mkClosed, hcoh q]

theorem coherent_setVisited {m : Maze} (p : Position) (b : Bool) (hcoh : Coherent m) :
    Coherent (m.setVisited p b) :=
  coherent_updateCell p hcoh (fun _ => rfl)

/-! ## sameWalls machinery: the solvers only touch visited flags. -/

theorem sameWalls_refl (m : Maze) : m.sameWalls m := ⟨rfl, rfl, fun _ => ⟨rfl, rfl⟩⟩

theorem sameWalls_trans {m1 m2 m3 : Maze} (h1 : m1.sameWalls m2) (h2 : m2.sameWalls m3) :
    m1.sameWalls m3 := by
  obtain ⟨hw1, hh1, hg1⟩ := h1
  obtain ⟨hw2, hh2, hg2⟩ := h2
  exact ⟨hw1.trans hw2, hh1.trans hh2,
    fun p => ⟨(hg1 p).1.trans (hg2 p).1, (hg1 p).2.trans (hg2 p).2⟩⟩

theorem sameWalls_setVisited (m : Maze) (p : Position) (b : Bool) :
    m.sameWalls (m.setVisited p b) := by
  refine ⟨rfl, rfl, fun q => ?_⟩
  simp only [Maze.setVisited, updateCell_grid]
  by_cases hq : q = p <;> simp [hq]

theorem sameWalls_resetVisited (m : Maze) : m.sameWalls m.resetVisited := by
  refine ⟨rfl, rfl, fun q => ?_⟩
  simp only [Maze.resetVisited]
  by_cases hq : m.isValidPositionObject q = true <;> simp [hq, Cell.reset]

theorem coherent_of_sameWalls {m m' : Maze} (hcoh : Coherent m) (hs : m.sameWalls m') :
    Coherent m' := by
  intro p
  rw [← hs.2.2 p |>.2]
  exact hcoh p

theorem symWalls_of_sameWalls {m m' : Maze} (hsym : SymWalls m) (hs : m.sameWalls m') :
    SymWalls m' := by
  intro p d hp hq
  obtain ⟨hw, hh, hg⟩ := hs
  have hvalid : ∀ r : Position, m'.isValidPositionObject r = m.isValidPositionObject r := by
    intro r
    simp [Maze.isValidPositionObject, Maze.isValidPosition, hw, hh]
  rw [hvalid] at hp hq
  rw [← isOpen_congr_walls (hg p).1, ← isOpen_congr_walls (hg (stepPos p d)).1]
  exact hsym p d hp hq

theorem dfsTry_sameWalls (rec : Maze → Position → Option (List Position) × Maze)
    (hrec : ∀ (m : Maze) (n : Position), m.sameWalls (rec m n).2) :
    ∀ (ns : List Position) (m : Maze), m.sameWalls (Maze.dfsTry rec m ns).2 := by
  intro ns
  induction ns with
  | nil => exact fun m => sameWalls_refl m
  | cons n ns ih =>
    intro m
    rw [Maze.dfsTry]
    by_cases hv : (m.grid n).visited = true
    · simp only [hv, if_true]
      exact ih m
    · rw [Bool.not_eq_true] at hv
      simp only [hv, Bool.false_eq_true, if_false]
      cases hrec0 : rec m n with
      | mk op m' =>
        have hw : m.sameWalls m' := by
          have := hrec m n
          rw [hrec0] at this
          exact this
        cases op with
        | some p => exact hw
        | none => exact sameWalls_trans hw (ih m')

theorem dfsRec_sameWalls (target : Position) :
    ∀ (fuel : Nat) (m : Maze) (c : Position), m.sameWalls (Maze.dfsRec target fuel m c).2 := by
  intro fuel
  induction fuel with
  | zero => exact fun m _ => sameWalls_refl m
  | succ fuel ih =>
    intro m c
    rw [Maze.dfsRec]
    by_cases ht : c = target
    · simp only [ht, if_true]
      exact sameWalls_setVisited m target true
    · simp only [ht, if_false]
      have hbase : m.sameWalls (m.setVisited c true) := sameWalls_setVisited m c true
      have htry := dfsTry_sameWalls (Maze.dfsRec target fuel) (fun m' n => ih m' n)
        ((m.setVisited c true).accessiblePositions c) (m.setVisited c true)
      cases htr : Maze.dfsTry (Maze.dfsRec target fuel) (m.setVisited c true)
          ((m.setVisited c true).accessiblePositions c) with
      | mk op m' =>
        rw [htr] at htry
        cases op <;> exact sameWalls_trans hbase htry

theorem bfsEnqueue_sameWalls (cur : Position) (tail : List Position) :
    ∀ (ns : List Position) (m : Maze) (acc : List QNode),
      m.sameWalls (Maze.bfsEnqueue cur tail m acc ns).1 := by
  intro ns
  induction ns with
  | nil => exact fun m _ => sameWalls_refl m
  | cons n ns ih =>
    intro m acc
    rw [Maze.bfsEnqueue]
    by_cases hv : (m.grid n).visited = true
    · simp only [hv, if_true]
      exact ih m acc
    · rw [Bool.not_eq_true] at hv
      simp only [hv, Bool.false_eq_true, if_false]
      exact sameWalls_trans (sameWalls_setVisited m n true) (ih _ _)

theorem bfsLoop_sameWalls (end_ : Position) :
    ∀ (fuel : Nat) (m : Maze) (q : List QNode), m.sameWalls (Maze.bfsLoop end_ fuel m q).2 := by
  intro fuel
  induction fuel with
  | zero => exact fun m _ => sameWalls_refl m
  | succ fuel ih =>
    intro m q
    cases q with
    | nil => exact sameWalls_refl m
    | cons node rest =>
      obtain ⟨cur, tail⟩ := node
      rw [Maze.bfsLoop]
      by_cases ht : cur = end_
      · simp only [ht, if_true]
        exact sameWalls_refl m
      · simp only [ht, if_false]
        exact sameWalls_trans (bfsEnqueue_sameWalls cur tail (m.accessiblePositions cur) m [])
          (ih _ _)

theorem solveDFS_sameWalls (m : Maze) (s e : Position) :
    m.sameWalls (stateOf m (m.solveDFS s e)) := by
  rw [Maze.solveDFS]
  by_cases hs : m.isValidPositionObject s = true
  · by_cases he : m.isValidPositionObject e = true
    · simp only [hs, he, Bool.not_true, Bool.false_eq_true, if_false, stateOf]
      exact sameWalls_trans (sameWalls_resetVisited m) (dfsRec_sameWalls e _ _ s)
    · rw [Bool.not_eq_true] at he
      simp [hs, he, stateOf]
      exact sameWalls_refl m
  · rw [Bool.not_eq_true] at hs
    simp [hs, stateOf]
    exact sameWalls_refl m

theorem solveBFS_sameWalls (m : Maze) (s e : Position) :
    m.sameWalls (stateOf m (m.solveBFS s e)) := by
  rw [Maze.solveBFS]
  by_cases hs : m.isValidPositionObject s = true
  · by_cases he : m.isValidPositionObject e = true
    · simp only [hs, he, Bool.not_true, Bool.false_eq_true, if_false, stateOf]
      exact sameWalls_trans (sameWalls_resetVisited m)
        (sameWalls_trans (sameWalls_setVisited _ s true) (bfsLoop_sameWalls e _ _ _))
    · rw [Bool.not_eq_true] at he
      simp [hs, he, stateOf]
      exact sameWalls_refl m
  · rw [Bool.not_eq_true] at hs
    simp [hs, stateOf]
    exact sameWalls_refl m

theorem isOpen_mkClosed (x y : Int) (d : Direction) :
    (Cell.mkClosed x y).isOpenInDirection d = false := by
  cases d <;> rfl

theorem symWalls_create (w h : Nat) (b : Bool) : SymWalls (Maze.create w h b) := by
  intro p d hp hq
  by_cases hb : b <;> cases d <;>
    simp [Maze.create, hb, Cell.mkClosed, Cell.createOpen, Cell.isOpenInDirection,
      Cell.hasWallInDirection, createClosedWalls, createOpenWalls, hasWall,
      Direction.opposite]

theorem symWalls_resetToFullyWalled (m : Maze) : SymWalls m.resetToFullyWalled := by
  intro p d hp hq
  have hp' : m.isValidPositionObject p = true := hp
  have hq' : m.isValidPositionObject (stepPos p d) = true := hq
  simp [Maze.resetToFullyWalled, hp', hq', isOpen_mkClosed]

theorem genLoop_inv (seed : Nat → Nat) :
    ∀ (fuel : Nat) (m : Maze) (k : Nat) (stack : List Position),
      Coherent m → SymWalls m →
      Coherent (Maze.genLoop seed fuel m k stack) ∧
        SymWalls (Maze.genLoop seed fuel m k stack) := by
  intro fuel
  induction fuel with
  | zero => exact fun m k stack hc hs => ⟨hc, hs⟩
  | succ fuel ih =>
    intro m k stack hc hs
    cases stack with
    | nil => exact ⟨hc, hs⟩
    | cons cur rest =>
      rw [Maze.genLoop]
      by_cases h : 0 < (m.getUnvisitedNeighbors (m.grid cur)).length
      · simp only [h, dif_pos]
        cases heq : m.removeWallBetweenAt cur
            ((m.getUnvisitedNeighbors (m.grid cur)).get
              ⟨seed k % (m.getUnvisitedNeighbors (m.grid cur)).length, Nat.mod_lt _ h⟩).position with
        | error e => exact ⟨hc, hs⟩
        | ok m1 =>
          obtain ⟨d, hd, hshape⟩ := removeWallBetweenAt_ok_inv hc heq
          have hc1 : Coherent m1 := by
            rw [hshape]
            exact coherent_updateCell _ (coherent_updateCell _ hc (fun c => rfl)) (fun c => rfl)
          have hs1 : SymWalls m1 := by
            rw [hshape]
            exact symWalls_pairUpdate m cur d true (fun dd c => c.removeWallMutable dd)
              isOpen_removeWallMutable hs
          exact ih _ _ _ (coherent_setVisited _ _ hc1)
            (symWalls_of_sameWalls hs1 (sameWalls_setVisited _ _ _))
      · simp only [h, dif_neg]
        exact ih _ _ _ hc hs

theorem generate_inv (m : Maze) (seed : Nat → Nat) (sx sy : Int) (hc : Coherent m) :
    Coherent (m.generateRecursiveBacktracking seed sx sy).2 ∧
      SymWalls (m.generateRecursiveBacktracking seed sx sy).2 := by
  rw [Maze.generateRecursiveBacktracking]
  have hc2 : Coherent m.resetToFullyWalled.resetVisited :=
    coherent_resetVisited (coherent_resetToFullyWalled hc)
  have hs2 : SymWalls m.resetToFullyWalled.resetVisited :=
    symWalls_of_sameWalls (symWalls_resetToFullyWalled m) (sameWalls_resetVisited _)
  by_cases hv : m.resetToFullyWalled.resetVisited.isValidPosition sx sy = true
  · simp only [hv, if_true]
    exact genLoop_inv seed _ _ _ _ (coherent_setVisited _ _ hc2)
      (symWalls_of_sameWalls hs2 (sameWalls_setVisited _ _ _))
  · rw [Bool.not_eq_true] at hv
    simp only [hv, Bool.false_eq_true, if_false]
    exact ⟨hc2, hs2⟩

/-- Every state reachable through the C4 operations is coherent and has
symmetric walls. -/
theorem reachableW_inv {m : Maze} (h : ReachableW m) : Coherent m ∧ SymWalls m := by
  induction h with
  | create w h b => exact ⟨coherent_create w h b, symWalls_create w h b⟩
  | removeWall pos1 pos2 hr hok ih =>
    obtain ⟨d, hd, hshape⟩ := removeWallBetweenAt_ok_inv ih.1
      (removeWallBetweenPositions_ok_inv hok)
    subst hshape
    exact ⟨coherent_updateCell _ (coherent_updateCell _ ih.1 (fun c => rfl)) (fun c => rfl),
      symWalls_pairUpdate _ _ d true (fun dd c => c.removeWallMutable dd)
        isOpen_removeWallMutable ih.2⟩
  | addWall p q hr hpv hqv hok ih =>
    obtain ⟨d, hd, hshape⟩ := addWallBetweenAt_ok_inv ih.1 hok
    subst hshape
    exact ⟨coherent_updateCell _ (coherent_updateCell _ ih.1 (fun c => rfl)) (fun c => rfl),
      symWalls_pairUpdate _ _ d false (fun dd c => c.addWallMutable dd)
        isOpen_addWallMutable ih.2⟩
  | generate seed sx sy hr ih => exact generate_inv _ seed sx sy ih.1
  | solveDFS s e hr ih =>
    exact ⟨coherent_of_sameWalls ih.1 (solveDFS_sameWalls _ s e),
      symWalls_of_sameWalls ih.2 (solveDFS_sameWalls _ s e)⟩
  | solveBFS s e hr ih =>
    exact ⟨coherent_of_sameWalls ih.1 (solveBFS_sameWalls _ s e),
      symWalls_of_sameWalls ih.2 (solveBFS_sameWalls _ s e)⟩
  | resetVisited hr ih =>
    exact ⟨coherent_resetVisited ih.1,
      symWalls_of_sameWalls ih.2 (sameWalls_resetVisited _)⟩
  | resetToFullyWalled hr ih =>
    exact ⟨coherent_resetToFullyWalled ih.1, symWalls_resetToFullyWalled _⟩

/-- Every state reachable through the C5 operations (including setCell)
is coherent. -/
theorem reachable_coherent {m : Maze} (h : Reachable m) : Coherent m := by
  induction h with
  | ofW hw => exact (reachableW_inv hw).1
  | removeWall pos1 pos2 hr hok ih =>
    obtain ⟨d, hd, hshape⟩ := removeWallBetweenAt_ok_inv ih
      (removeWallBetweenPositions_ok_inv hok)
    subst hshape
    exact coherent_updateCell _ (coherent_updateCell _ ih (fun c => rfl)) (fun c => rfl)
  | addWall p q hr hpv hqv hok ih =>
    obtain ⟨d, hd, hshape⟩ := addWallBetweenAt_ok_inv ih hok
    subst hshape
    exact coherent_updateCell _ (coherent_updateCell _ ih (fun c => rfl)) (fun c => rfl)
  | generate seed sx sy hr ih => exact (generate_inv _ seed sx sy ih).1
  | solveDFS s e hr ih => exact coherent_of_sameWalls ih (solveDFS_sameWalls _ s e)
  | solveBFS s e hr ih => exact coherent_of_sameWalls ih (solveBFS_sameWalls _ s e)
  | resetVisited hr ih => exact coherent_resetVisited ih
  | resetToFullyWalled hr ih => exact coherent_resetToFullyWalled ih
  | @setCell m0 m1 x y c hr hok ih =>
    intro q
    rw [Maze.setCell] at hok
    by_cases hv : m0.isValidPosition x y = true
    · simp only [hv, Bool.not_true, Bool.false_eq_true, if_false] at hok
      by_cases hpos : c.position.x ≠ x ∨ c.position.y ≠ y
      · simp [hpos] at hok
      · simp only [hpos, if_false] at hok
        push_neg at hpos
        have hm' := (Except.ok.injEq _ _).mp hok
        rw [← hm']
        by_cases hq : q = (⟨x, y⟩ : Position)
        · simp only [hq, if_pos]
          have hcpos : c.position = ⟨x, y⟩ := by
            have h1 : c.position = ⟨c.position.x, c.position.y⟩ := rfl
            rw [h1, hpos.1, hpos.2]
          simp [hcpos]
        · simp only [hq, if_neg, if_false]
          exact ih q
    · rw [Bool.not_eq_true] at hv
      simp [hv] at hok

/-- C4: in every maze state reachable through construction, generation,
removeWallBetween, addWallBetween, solving and resets, each shared wall
has two consistent faces: hasPassageBetween applied to the cells at two
adjacent in-bounds slots gives the same answer in both orders. -/
theorem claim_C4_passage_symmetry (m : Maze) (hr : ReachableW m) (a b : Position)
    (ha : m.isValidPositionObject a = true) (hb : m.isValidPositionObject b = true)
    (hadj : posAdjacent a b = true) :
    m.hasPassageBetweenAt a b = m.hasPassageBetweenAt b a := by
  obtain ⟨hcoh, hsym⟩ := reachableW_inv hr
  obtain ⟨d, hd⟩ := (posAdjacent_iff_step a b).mp hadj
  have hn1 : m.areNeighbors (m.grid a) (m.grid b) = true := by
    rw [areNeighbors_eq, hcoh a, hcoh b]
    exact hadj
  have hn2 : m.areNeighbors (m.grid b) (m.grid a) = true := by
    rw [areNeighbors_eq, hcoh a, hcoh b, posAdjacent_symm]
    exact hadj
  have hd1 : m.getDirectionBetween (m.grid a) (m.grid b) = .ok d :=
    getDirectionBetween_step m _ _ d (by rw [hcoh a, hcoh b]; exact hd)
  have hd2 : m.getDirectionBetween (m.grid b) (m.grid a) = .ok d.opposite :=
    getDirectionBetween_step m _ _ d.opposite
      (by rw [hcoh a, hcoh b, ← hd, stepPos_opposite])
  simp only [Maze.hasPassageBetweenAt, hn1, hn2, hd1, hd2, Bool.not_true,
    Bool.false_eq_true, if_false]
  have hstep := hsym a d ha (by rw [hd]; exact hb)
  rw [hd] at hstep
  exact hstep

/-- C4 witness: the freshly constructed 2x1 maze and its two cells. -/
theorem claim_C4_passage_symmetry_witness :
    (Maze.create 2 1 true).hasPassageBetweenAt ⟨0, 0⟩ ⟨1, 0⟩
      = (Maze.create 2 1 true).hasPassageBetweenAt ⟨1, 0⟩ ⟨0, 0⟩ :=
  claim_C4_passage_symmetry (Maze.create 2 1 true) (ReachableW.create 2 1 true)
    ⟨0, 0⟩ ⟨1, 0⟩ (by decide) (by decide) (by decide)

/-- C5: in every state reachable through the public operations (setCell
included), getCell returns a cell whose stored position is exactly the
requested coordinate, and setCell rejects with an error any cell whose
stored position differs from the target slot. -/
theorem claim_C5_position_invariant (m : Maze) (hr : Reachable m) (x y : Int) (c : Cell)
    (h : m.getCell x y = .ok c) :
    c.position = ⟨x, y⟩ ∧
      ∀ c' : Cell, c'.position ≠ (⟨x, y⟩ : Position) →
        m.setCell x y c' = .error .invalidPosition := by
  have hcoh := reachable_coherent hr
  rw [Maze.getCell] at h
  by_cases hv : m.isValidPosition x y = true
  · simp only [hv, if_true] at h
    constructor
    · rw [← (Except.ok.injEq _ _).mp h]
      exact hcoh _
    · intro c' hne
      have hor : c'.position.x ≠ x ∨ c'.position.y ≠ y := by
        by_contra hcon
        push_neg at hcon
        apply hne
        have h1 : c'.position = ⟨c'.position.x, c'.position.y⟩ := rfl
        rw [h1, hcon.1, hcon.2]
      simp [Maze.setCell, hv, hor]
  · rw [Bool.not_eq_true] at hv
    simp [hv] at h

/-- C5 witness: the 1x1 maze just after construction. -/
theorem claim_C5_position_invariant_witness :
    (Cell.mkClosed 0 0).position = (⟨0, 0⟩ : Position) ∧
      ∀ c' : Cell, c'.position ≠ (⟨0, 0⟩ : Position) →
        (Maze.create 1 1 true).setCell 0 0 c' = .error .invalidPosition :=
  claim_C5_position_invariant (Maze.create 1 1 true)
    (Reachable.ofW (ReachableW.create 1 1 true)) 0 0 (Cell.mkClosed 0 0) rfl

/-! ## Chains and the pendant-edge extension of unique-path graphs. -/

theorem chain'_of_mem_imp {R S : Position → Position → Prop} :
    ∀ {l : List Position}, (∀ a b, a ∈ l → b ∈ l → R a b → S a b) → l.Chain' R →
      l.Chain' S := by
  intro l
  induction l with
  | nil => intro _ _; exact List.chain'_nil
  | cons a t ih =>
    intro himp hc
    cases t with
    | nil => exact List.chain'_singleton a
    | cons b t' =>
      rw [List.chain'_cons] at hc ⊢
      refine ⟨himp a b (by simp) (by simp) hc.1, ih ?_ hc.2⟩
      intro x y hx hy hr
      exact himp x y (by simp [hx]) (by simp [hy]) hr

theorem chainPath_self_nodup {E : Position → Position → Prop} {l : List Position}
    {s : Position} (hp : ChainPath E l s s) (hnd : l.Nodup) : l = [s] := by
  obtain ⟨hc, hh, hl⟩ := hp
  cases l with
  | nil => simp at hh
  | cons a t =>
    simp only [List.head?_cons, Option.some.injEq] at hh
    subst hh
    cases t with
    | nil => rfl
    | cons b t' =>
      exfalso
      rw [List.getLast?_cons_cons] at hl
      have hmem : a ∈ b :: t' := by
        have := List.mem_of_mem_getLast? (l := b :: t') (by rw [hl]; exact rfl)
        exact this
      simp only [List.nodup_cons] at hnd
      exact hnd.1 hmem

/-- In a graph extended by the pendant edge u-v (v previously isolated), a
step into v comes from u and a step out of v goes to u. -/
theorem pendant_step {E E' : Position → Position → Prop} {u v : Position}
    (hEE' : ∀ a b, E' a b ↔ E a b ∨ (a = u ∧ b = v) ∨ (a = v ∧ b = u))
    (hiso : ∀ a : Position, ¬ E v a ∧ ¬ E a v) (huv : u ≠ v) :
    (∀ x, E' x v → x = u) ∧ (∀ y, E' v y → y = u) := by
  constructor
  · intro x hx
    rcases (hEE' x v).mp hx with h | ⟨h1, _⟩ | ⟨_, h2⟩
    · exact absurd h (hiso x).2
    · exact h1
    · exact absurd h2.symm huv
  · intro y hy
    rcases (hEE' v y).mp hy with h | ⟨h1, _⟩ | ⟨_, h2⟩
    · exact absurd h (hiso y).1
    · exact absurd h1.symm huv
    · exact h2

/-- In the extended graph, v occurs in a duplicate-free chain only as an
endpoint. -/
theorem pendant_not_interior {E E' : Position → Position → Prop} {u v : Position}
    (hEE' : ∀ a b, E' a b ↔ E a b ∨ (a = u ∧ b = v) ∨ (a = v ∧ b = u))
    (hiso : ∀ a : Position, ¬ E v a ∧ ¬ E a v) (huv : u ≠ v)
    {l : List Position} (hc : l.Chain' E') (hnd : l.Nodup) (hv : v ∈ l) :
    l.head? = some v ∨ l.getLast? = some v := by
  obtain ⟨l1, l2, rfl⟩ := List.append_of_mem hv
  cases l1 with
  | nil => exact Or.inl rfl
  | cons a1 t1 =>
    right
    cases l2 with
    | nil => exact List.getLast?_concat _
    | cons b l2' =>
      exfalso
      rw [List.chain'_append] at hc
      obtain ⟨hc1, hc2, hlink⟩ := hc
      have hlast : ∃ x, (a1 :: t1).getLast? = some x := by
        cases h : (a1 :: t1).getLast? with
        | none => simp at h
        | some x => exact ⟨x, rfl⟩
      obtain ⟨x, hx⟩ := hlast
      have hxv : E' x v := hlink x hx v rfl
      have hxu : x = u := (pendant_step hEE' hiso huv).1 x hxv
      have hvb : E' v b := (List.chain'_cons.mp hc2).1
      have hbu : b = u := (pendant_step hEE' hiso huv).2 b hvb
      rw [List.nodup_append] at hnd
      have hul1 : u ∈ a1 :: t1 := by
        rw [← hxu]
        exact List.mem_of_mem_getLast? hx
      have hul2 : u ∈ v :: b :: l2' := by
        rw [← hbu]
        exact List.mem_cons_of_mem _ (List.mem_cons_self _ _)
      exact hnd.2.2 hul1 hul2

/-- Adding a pendant edge from u to a previously isolated vertex v
preserves uniqueness of duplicate-free chains. -/
theorem uniqueSimple_extend {E E' : Position → Position → Prop} {u v : Position}
    (hEE' : ∀ a b, E' a b ↔ E a b ∨ (a = u ∧ b = v) ∨ (a = v ∧ b = u))
    (hiso : ∀ a : Position, ¬ E v a ∧ ¬ E a v) (huv : u ≠ v)
    (huniq : UniqueSimple E) : UniqueSimple E' := by
  have hEback : ∀ a b, E' a b → a ≠ v → b ≠ v → E a b := by
    intro a b hab hav hbv
    rcases (hEE' a b).mp hab with h | ⟨_, h2⟩ | ⟨h1, _⟩
    · exact h
    · exact absurd h2 hbv
    · exact absurd h1 hav
  have hchainE : ∀ (l : List Position), l.Chain' E' → v ∉ l → l.Chain' E := by
    intro l hc hv
    refine chain'_of_mem_imp (fun a b ha hb hr => ?_) hc
    exact hEback a b hr (fun h => hv (h ▸ ha)) (fun h => hv (h ▸ hb))
  -- peeling the pendant vertex off the head of a chain ending elsewhere
  have hpeelHead : ∀ (e : Position) (l : List Position), ChainPath E' l v e → l.Nodup →
      e ≠ v → ∃ t, l = v :: t ∧ ChainPath E' t u e ∧ t.Nodup ∧ v ∉ t := by
    intro e l hp hnd hev
    obtain ⟨hc, hh, hl⟩ := hp
    cases l with
    | nil => simp at hh
    | cons a t =>
      have hav : a = v := by simpa using hh
      cases t with
      | nil =>
        exfalso
        have h1 : a = e := by
          have h0 : ([a] : List Position).getLast? = some a := rfl
          rw [h0] at hl
          injection hl
        exact hev (h1.symm.trans hav)
      | cons b t' =>
        have hvb : E' v b := by
          have h2 := (List.chain'_cons.mp hc).1
          rwa [hav] at h2
        have hbu : b = u := (pendant_step hEE' hiso huv).2 b hvb
        rw [List.nodup_cons] at hnd
        refine ⟨b :: t', by rw [hav], ⟨(List.chain'_cons.mp hc).2, by simp [hbu], ?_⟩,
          hnd.2, ?_⟩
        · rw [List.getLast?_cons_cons] at hl
          exact hl
        · rw [← hav]
          exact hnd.1
  -- peeling the pendant vertex off the tail of a chain starting elsewhere
  have hpeelLast : ∀ (s : Position) (l : List Position), ChainPath E' l s v → l.Nodup →
      s ≠ v → ∃ t, l = t ++ [v] ∧ ChainPath E' t s u ∧ t.Nodup ∧ v ∉ t := by
    intro s l hp hnd hsv
    obtain ⟨hc, hh, hl⟩ := hp
    have hlne : l ≠ [] := by
      intro h
      rw [h] at hh
      simp at hh
    have hsplit : l.dropLast ++ [l.getLast hlne] = l := List.dropLast_append_getLast hlne
    have hlastv : l.getLast hlne = v := by
      have h0 := List.getLast?_eq_getLast l hlne
      rw [h0] at hl
      injection hl
    set t := l.dropLast with ht
    have hlv : l = t ++ [v] := by rw [← hlastv, hsplit]
    have htne : t ≠ [] := by
      intro h
      rw [h] at hlv
      simp only [List.nil_append] at hlv
      rw [hlv] at hh
      simp at hh
      exact hsv hh.symm
    rw [hlv] at hc hnd hh
    rw [List.chain'_append] at hc
    obtain ⟨hc1, _, hlink⟩ := hc
    have hlast : ∃ x, t.getLast? = some x := by
      cases h : t.getLast? with
      | none => rw [List.getLast?_eq_none_iff] at h; exact absurd h htne
      | some x => exact ⟨x, rfl⟩
    obtain ⟨x, hx⟩ := hlast
    have hxu : x = u := (pendant_step hEE' hiso huv).1 x (hlink x hx v rfl)
    rw [List.nodup_append] at hnd
    have hvt : v ∉ t := by
      intro hmem
      exact hnd.2.2 hmem (List.mem_singleton.mpr rfl)
    refine ⟨t, hlv, ⟨hc1, ?_, by rw [← hxu]; exact hx⟩, hnd.1, hvt⟩
    rw [List.head?_append_of_ne_nil _ htne] at hh
    exact hh
  intro s e l1 l2 hp1 hn1 hp2 hn2
  by_cases hsv : s = v
  · subst hsv
    by_cases hev : e = s
    · subst hev
      rw [chainPath_self_nodup hp1 hn1, chainPath_self_nodup hp2 hn2]
    · have hev' : e ≠ s := hev
      obtain ⟨t1, hl1, hp1', hn1', hv1⟩ := hpeelHead e l1 hp1 hn1 hev'
      obtain ⟨t2, hl2, hp2', hn2', hv2⟩ := hpeelHead e l2 hp2 hn2 hev'
      have ht : t1 = t2 :=
        huniq u e t1 t2 ⟨hchainE t1 hp1'.1 hv1, hp1'.2⟩ hn1'
          ⟨hchainE t2 hp2'.1 hv2, hp2'.2⟩ hn2'
      rw [hl1, hl2, ht]
  · by_cases hev : e = v
    · subst hev
      obtain ⟨t1, hl1, hp1', hn1', hv1⟩ := hpeelLast s l1 hp1 hn1 hsv
      obtain ⟨t2, hl2, hp2', hn2', hv2⟩ := hpeelLast s l2 hp2 hn2 hsv
      have ht : t1 = t2 :=
        huniq s u t1 t2 ⟨hchainE t1 hp1'.1 hv1, hp1'.2⟩ hn1'
          ⟨hchainE t2 hp2'.1 hv2, hp2'.2⟩ hn2'
      rw [hl1, hl2, ht]
    · have hv1 : v ∉ l1 := by
        intro hv
        rcases pendant_not_interior hEE' hiso huv hp1.1 hn1 hv with h | h
        · rw [hp1.2.1] at h
          exact hsv (by injection h)
        · rw [hp1.2.2] at h
          exact hev (by injection h)
      have hv2 : v ∉ l2 := by
        intro hv
        rcases pendant_not_interior hEE' hiso huv hp2.1 hn2 hv with h | h
        · rw [hp2.2.1] at h
          exact hsv (by injection h)
        · rw [hp2.2.2] at h
          exact hev (by injection h)
      exact huniq s e l1 l2 ⟨hchainE l1 hp1.1 hv1, hp1.2⟩ hn1
        ⟨hchainE l2 hp2.1 hv2, hp2.2⟩ hn2

/-! ## The position enumeration and counting utilities. -/

theorem mem_allPositions (w h : Nat) (p : Position) :
    p ∈ allPositions w h ↔ 0 ≤ p.x ∧ p.x < (w : Int) ∧ 0 ≤ p.y ∧ p.y < (h : Int) := by
  obtain ⟨px, py⟩ := p
  simp only [allPositions, List.mem_flatMap, List.mem_map, List.mem_range]
  constructor
  · rintro ⟨y, hy, x, hx, heq⟩
    simp only [Position.mk.injEq] at heq
    omega
  · rintro ⟨h1, h2, h3, h4⟩
    exact ⟨py.toNat, by omega, px.toNat, by omega, by simp only [Position.mk.injEq]; omega⟩

theorem length_allPositions (w h : Nat) : (allPositions w h).length = h * w := by
  rw [allPositions, List.length_flatMap]
  have hmap : List.map (List.length ∘ fun (y : Nat) =>
      (List.range w).map (fun (x : Nat) => Position.mk (x : Int) (y : Int))) (List.range h)
      = List.map (fun _ => w) (List.range h) := by
    apply List.map_congr_left
    intro a _
    simp
  rw [hmap, List.map_const', List.sum_replicate, List.length_range, smul_eq_mul]

theorem nodup_allPositions (w h : Nat) : (allPositions w h).Nodup := by
  rw [allPositions, List.nodup_flatMap]
  constructor
  · intro y hy
    refine List.Nodup.map ?_ (List.nodup_range w)
    intro a b hab
    simp only [Position.mk.injEq] at hab
    omega
  · have hpw := List.pairwise_lt_range h
    refine hpw.imp ?_
    intro a b hab
    intro p hpa hpb
    simp only [List.mem_map, List.mem_range] at hpa hpb
    obtain ⟨xa, _, ha⟩ := hpa
    obtain ⟨xb, _, hb⟩ := hpb
    rw [← hb] at ha
    simp only [Position.mk.injEq] at ha
    omega

theorem valid_iff_mem_allPositions (m : Maze) (p : Position) :
    m.isValidPositionObject p = true ↔ p ∈ allPositions m.width m.height := by
  rw [mem_allPositions]
  simp only [Maze.isValidPositionObject, Maze.isValidPosition, Bool.and_eq_true,
    decide_eq_true_eq]
  omega

/-- Change of a map-sum under a pointwise change at one position of a
duplicate-free list. -/
theorem sum_map_update {l : List Position} (hnd : l.Nodup) {p : Position} (hp : p ∈ l)
    (f g : Position → Nat) (hfg : ∀ q, q ≠ p → g q = f q) :
    (l.map g).sum + f p = (l.map f).sum + g p := by
  induction l with
  | nil => cases hp
  | cons a t ih =>
    rw [List.nodup_cons] at hnd
    rcases List.mem_cons.mp hp with heq | hp'
    · subst heq
      have ht : t.map g = t.map f := by
        apply List.map_congr_left
        intro x hx
        exact hfg x (fun hxp => hnd.1 (hxp ▸ hx))
      simp only [List.map_cons, List.sum_cons, ht]
      omega
    · have ha : a ≠ p := fun h => hnd.1 (h ▸ hp')
      have ihh := ih hnd.2 hp'
      simp only [List.map_cons, List.sum_cons, hfg a ha]
      omega

/-- Change of a countP under a pointwise change at one position of a
duplicate-free list. -/
theorem countP_update {l : List Position} (hnd : l.Nodup) {p : Position} (hp : p ∈ l)
    (f g : Position → Bool) (hfg : ∀ q, q ≠ p → g q = f q) :
    l.countP g + (if f p then 1 else 0) = l.countP f + (if g p then 1 else 0) := by
  induction l with
  | nil => cases hp
  | cons a t ih =>
    rw [List.nodup_cons] at hnd
    rcases List.mem_cons.mp hp with heq | hp'
    · subst heq
      have ht : t.countP g = t.countP f := by
        apply List.countP_congr
        intro x hx
        rw [hfg x (fun hxp => hnd.1 (hxp ▸ hx))]
      simp only [List.countP_cons, ht]
      omega
    · have ha : a ≠ p := fun h => hnd.1 (h ▸ hp')
      have ihh := ih hnd.2 hp'
      simp only [List.countP_cons, hfg a ha]
      omega

/-- A countP is unchanged when the predicate agrees on all members. -/
theorem countP_congr_mem {l : List Position} (f g : Position → Bool)
    (hfg : ∀ q ∈ l, g q = f q) : l.countP g = l.countP f := by
  apply List.countP_congr
  intro x hx
  rw [hfg x hx]

/-- A map-sum is unchanged when the function agrees on all members. -/
theorem sum_map_congr_mem {l : List Position} (f g : Position → Nat)
    (hfg : ∀ q ∈ l, g q = f q) : (l.map g).sum = (l.map f).sum := by
  rw [List.map_congr_left hfg]

/-! ## Characterization of a legal solver move. -/

theorem stepOK_iff {m : Maze} (hcoh : Coherent m) (a b : Position) :
    stepOK m a b ↔ ∃ d : Direction, stepPos a d = b ∧
      m.isValidPositionObject a = true ∧ m.isValidPositionObject b = true ∧
      (m.grid a).isOpenInDirection d = true := by
  unfold stepOK Maze.canMoveBetween
  by_cases hadj : posAdjacent a b = true
  · have hadj' : m.arePositionsAdjacent a b = true := by
      rw [arePositionsAdjacent_eq]
      exact hadj
    simp only [hadj', Bool.not_true, Bool.false_eq_true, if_false]
    obtain ⟨d0, hd0⟩ := (posAdjacent_iff_step a b).mp hadj
    by_cases hva : m.isValidPositionObject a = true
    · by_cases hvb : m.isValidPositionObject b = true
      · have hga : m.getCellAt a = .ok (m.grid a) := by
          simp [Maze.getCellAt, Maze.getCell, Maze.isValidPositionObject] at hva ⊢
          simp [hva]
        have hgb : m.getCellAt b = .ok (m.grid b) := by
          simp [Maze.getCellAt, Maze.getCell, Maze.isValidPositionObject] at hvb ⊢
          simp [hvb]
        have hn : m.areNeighbors (m.grid a) (m.grid b) = true := by
          rw [areNeighbors_eq, hcoh a, hcoh b]
          exact hadj
        have hd : m.getDirectionBetween (m.grid a) (m.grid b) = .ok d0 :=
          getDirectionBetween_step m _ _ d0 (by rw [hcoh a, hcoh b]; exact hd0)
        rw [hga, hgb]
        simp only [Bind.bind, Except.bind, hn, Bool.not_true, Bool.false_eq_true, if_false,
          hd, Functor.map, Except.map]
        constructor
        · intro h
          refine ⟨d0, hd0, hva, hvb, ?_⟩
          have hinj := (Except.ok.injEq _ _).mp h
          simp only [Cell.isOpenInDirection]
          rw [hinj]
        · rintro ⟨d, hd', _, _, hopen⟩
          have hdd : d = d0 := stepPos_inj a (hd'.trans hd0.symm)
          subst hdd
          simp only [Cell.isOpenInDirection] at hopen
          rw [hopen]
          rfl
      · have hvb' : m.isValidPositionObject b = false := by
          rcases Bool.eq_false_or_eq_true (m.isValidPositionObject b) with hx | hx
          · exact absurd hx hvb
          · exact hx
        have hga : m.getCellAt a = .ok (m.grid a) := by
          simp [Maze.getCellAt, Maze.getCell, Maze.isValidPositionObject] at hva ⊢
          simp [hva]
        have hgb : m.getCellAt b = .error .outOfBounds := by
          simp [Maze.getCellAt, Maze.getCell, Maze.isValidPositionObject] at hvb' ⊢
          simp [hvb']
        rw [hga, hgb]
        simp only [Bind.bind, Except.bind]
        constructor
        · intro h
          cases h
        · rintro ⟨d, _, _, hvb2, _⟩
          rw [hvb2] at hvb'
          cases hvb'
    · have hva' : m.isValidPositionObject a = false := by
        rcases Bool.eq_false_or_eq_true (m.isValidPositionObject a) with hx | hx
        · exact absurd hx hva
        · exact hx
      have hga : m.getCellAt a = .error .outOfBounds := by
        simp [Maze.getCellAt, Maze.getCell, Maze.isValidPositionObject] at hva' ⊢
        simp [hva']
      rw [hga]
      simp only [Bind.bind, Except.bind]
      constructor
      · intro h
        cases h
      · rintro ⟨d, _, hva2, _, _⟩
        rw [hva2] at hva'
        cases hva'
  · have hadj' : m.arePositionsAdjacent a b = false := by
      rw [arePositionsAdjacent_eq]
      rcases Bool.eq_false_or_eq_true (posAdjacent a b) with hx | hx
      · exact absurd hx hadj
      · exact hx
    simp only [hadj', Bool.not_false, if_true]
    constructor
    · intro h
      cases h
    · rintro ⟨d, hd, _, _, _⟩
      rw [← hd] at hadj
      exact absurd (posAdjacent_step a d) hadj

/-- A legal move is insensitive to visited flags. -/
theorem stepOK_congr {m m' : Maze} (hcoh : Coherent m) (hcoh' : Coherent m')
    (hs : m.sameWalls m') (a b : Position) : stepOK m a b ↔ stepOK m' a b := by
  rw [stepOK_iff hcoh, stepOK_iff hcoh']
  obtain ⟨hw, hh, hg⟩ := hs
  have hv : ∀ r : Position, m'.isValidPositionObject r = m.isValidPositionObject r := by
    intro r
    simp [Maze.isValidPositionObject, Maze.isValidPosition, hw, hh]
  constructor
  · rintro ⟨d, h1, h2, h3, h4⟩
    exact ⟨d, h1, by rw [hv]; exact h2, by rw [hv]; exact h3,
      by rw [← isOpen_congr_walls (hg a).1]; exact h4⟩
  · rintro ⟨d, h1, h2, h3, h4⟩
    exact ⟨d, h1, by rw [← hv]; exact h2, by rw [← hv]; exact h3,
      by rw [isOpen_congr_walls (hg a).1]; exact h4⟩

/-! ## Effects of carving one passage. -/

theorem carvePassage_grid (m : Maze) (p : Position) (d : Direction) (r : Position) :
    (m.carvePassage p d).grid r
      = if r = stepPos p d then (m.grid r).removeWallMutable d.opposite
        else if r = p then (m.grid r).removeWallMutable d else m.grid r := by
  by_cases h1 : r = stepPos p d <;> by_cases h2 : r = p <;>
    simp [Maze.carvePassage, Maze.updateCell, h1, h2, stepPos_ne p d,
      Ne.symm (stepPos_ne p d)]

theorem carvePassage_visited (m : Maze) (p : Position) (d : Direction) (r : Position) :
    ((m.carvePassage p d).grid r).visited = (m.grid r).visited := by
  rw [carvePassage_grid]
  by_cases h1 : r = stepPos p d <;> by_cases h2 : r = p <;>
    simp [h1, h2, Cell.removeWallMutable, stepPos_ne p d, Ne.symm (stepPos_ne p d)]

theorem carvePassage_position (m : Maze) (p : Position) (d : Direction) (r : Position) :
    ((m.carvePassage p d).grid r).position = (m.grid r).position := by
  rw [carvePassage_grid]
  by_cases h1 : r = stepPos p d <;> by_cases h2 : r = p <;>
    simp [h1, h2, Cell.removeWallMutable, stepPos_ne p d, Ne.symm (stepPos_ne p d)]

theorem carvePassage_valid (m : Maze) (p : Position) (d : Direction) (r : Position) :
    (m.carvePassage p d).isValidPositionObject r = m.isValidPositionObject r := rfl

theorem carvePassage_isOpen (m : Maze) (p : Position) (d : Direction)
    (r : Position) (dd : Direction) :
    (((m.carvePassage p d).grid r).isOpenInDirection dd = true) ↔
      ((m.grid r).isOpenInDirection dd = true ∨ (r = p ∧ dd = d) ∨
        (r = stepPos p d ∧ dd = d.opposite)) := by
  rw [carvePassage_grid]
  by_cases h1 : r = stepPos p d
  · have h2 : ¬ r = p := by
      rw [h1]
      exact stepPos_ne p d
    rw [if_pos h1, isOpen_removeWallMutable]
    by_cases h3 : dd = d.opposite <;>
      simp [h1, h2, h3, stepPos_ne p d, Ne.symm (stepPos_ne p d)]
  · rw [if_neg h1]
    by_cases h2 : r = p
    · rw [if_pos h2, isOpen_removeWallMutable]
      by_cases h3 : dd = d <;>
        simp [h1, h2, h3, stepPos_ne p d, Ne.symm (stepPos_ne p d)]
    · rw [if_neg h2]
      simp [h1, h2]

theorem getWallCount_le_four (c : Cell) : c.getWallCount ≤ 4 := by
  have h := List.length_filter_le (fun d => c.hasWallInDirection d) ALL_DIRECTIONS
  simpa [Cell.getWallCount, Cell.getWalledDirections, ALL_DIRECTIONS] using h

theorem getWallCount_removeWallMutable (c : Cell) (d : Direction)
    (hclosed : c.isOpenInDirection d = false) :
    (c.removeWallMutable d).getWallCount + 1 = c.getWallCount := by
  obtain ⟨pos, ⟨wu, wd, wl, wr⟩, vis⟩ := c
  cases d <;> cases wu <;> cases wd <;> cases wl <;> cases wr <;>
    simp_all [Cell.getWallCount, Cell.getWalledDirections, ALL_DIRECTIONS,
      Cell.hasWallInDirection, hasWall, Cell.removeWallMutable, removeWall,
      Cell.isOpenInDirection]

theorem getWallCount_congr {c c' : Cell} (h : c.walls = c'.walls) :
    c.getWallCount = c'.getWallCount := by
  simp [Cell.getWallCount, Cell.getWalledDirections, Cell.hasWallInDirection, h]

/-! ## Counting effects. -/

theorem removedFaces_congr {m m' : Maze} (hw : m.width = m'.width)
    (hh : m.height = m'.height) (hg : ∀ p : Position, (m.grid p).walls = (m'.grid p).walls) :
    m.removedFaces = m'.removedFaces := by
  unfold Maze.removedFaces
  rw [← hw, ← hh]
  apply sum_map_congr_mem
  intro q _
  rw [getWallCount_congr (hg q)]

theorem visitedCount_congr {m m' : Maze} (hw : m.width = m'.width)
    (hh : m.height = m'.height)
    (hg : ∀ p : Position, (m.grid p).visited = (m'.grid p).visited) :
    m.visitedCount = m'.visitedCount := by
  unfold Maze.visitedCount
  rw [← hw, ← hh]
  apply countP_congr_mem
  intro q _
  rw [hg q]

theorem removedFaces_carvePassage (m : Maze) (p : Position) (d : Direction)
    (hvp : m.isValidPositionObject p = true)
    (hvq : m.isValidPositionObject (stepPos p d) = true)
    (hc1 : (m.grid p).isOpenInDirection d = false)
    (hc2 : (m.grid (stepPos p d)).isOpenInDirection d.opposite = false) :
    (m.carvePassage p d).removedFaces = m.removedFaces + 2 := by
  set q := stepPos p d with hq
  have hne : q ≠ p := stepPos_ne p d
  have hmem_p : p ∈ allPositions m.width m.height := (valid_iff_mem_allPositions m p).mp hvp
  have hmem_q : q ∈ allPositions m.width m.height := (valid_iff_mem_allPositions m q).mp hvq
  have hnd := nodup_allPositions m.width m.height
  -- first update at p
  have step1 : ((allPositions m.width m.height).map
      (fun r => 4 - ((m.updateCell p (fun c => c.removeWallMutable d)).grid r).getWallCount)).sum
      = ((allPositions m.width m.height).map (fun r => 4 - (m.grid r).getWallCount)).sum + 1 := by
    have hupdate := sum_map_update hnd hmem_p
      (fun r => 4 - (m.grid r).getWallCount)
      (fun r => 4 - ((m.updateCell p (fun c => c.removeWallMutable d)).grid r).getWallCount)
      (fun r hr => by simp only [updateCell_grid, if_neg hr])
    have hg : ((m.updateCell p (fun c => c.removeWallMutable d)).grid p).getWallCount + 1
        = (m.grid p).getWallCount := by
      rw [updateCell_grid, if_pos rfl]
      exact getWallCount_removeWallMutable _ _ hc1
    have hle := getWallCount_le_four (m.grid p)
    beta_reduce at hupdate
    omega
  -- second update at q
  have step2 : ((allPositions m.width m.height).map
      (fun r => 4 - ((m.carvePassage p d).grid r).getWallCount)).sum
      = ((allPositions m.width m.height).map
        (fun r => 4 - ((m.updateCell p (fun c => c.removeWallMutable d)).grid r).getWallCount)).sum
        + 1 := by
    set m1 := m.updateCell p (fun c => c.removeWallMutable d) with hm1
    have hupdate := sum_map_update hnd hmem_q
      (fun r => 4 - (m1.grid r).getWallCount)
      (fun r => 4 - ((m.carvePassage p d).grid r).getWallCount)
      (fun r hr => by
        simp only [show (m.carvePassage p d)
            = m1.updateCell q (fun c => c.removeWallMutable d.opposite) from rfl,
          updateCell_grid, if_neg hr])
    have hq1 : (m1.grid q) = m.grid q := by
      rw [hm1, updateCell_grid, if_neg hne]
    have hg : ((m.carvePassage p d).grid q).getWallCount + 1 = (m1.grid q).getWallCount := by
      rw [show (m.carvePassage p d) = m1.updateCell q (fun c => c.removeWallMutable d.opposite)
        from rfl, updateCell_grid, if_pos rfl, hq1]
      exact getWallCount_removeWallMutable _ _ hc2
    have hle := getWallCount_le_four (m1.grid q)
    beta_reduce at hupdate
    omega
  unfold Maze.removedFaces
  have hwidth : (m.carvePassage p d).width = m.width := rfl
  have hheight : (m.carvePassage p d).height = m.height := rfl
  rw [hwidth, hheight]
  omega

theorem visitedCount_setVisited_true (m : Maze) (p : Position)
    (hv : m.isValidPositionObject p = true) (hunv : (m.grid p).visited = false) :
    (m.setVisited p true).visitedCount = m.visitedCount + 1 := by
  have hmem : p ∈ allPositions m.width m.height := (valid_iff_mem_allPositions m p).mp hv
  have hnd := nodup_allPositions m.width m.height
  have hupdate := countP_update hnd hmem
    (fun r => (m.grid r).visited)
    (fun r => ((m.setVisited p true).grid r).visited)
    (fun r hr => by
      simp only [Maze.setVisited, updateCell_grid, if_neg hr])
  have hp : ((m.setVisited p true).grid p).visited = true := by
    simp [Maze.setVisited, updateCell_grid]
  unfold Maze.visitedCount
  have hwidth : (m.setVisited p true).width = m.width := rfl
  have hheight : (m.setVisited p true).height = m.height := rfl
  rw [hwidth, hheight]
  beta_reduce at hupdate
  rw [hp, hunv] at hupdate
  simp at hupdate
  omega

theorem unvisitedCount_setVisited_true (m : Maze) (p : Position)
    (hv : m.isValidPositionObject p = true) (hunv : (m.grid p).visited = false) :
    (m.setVisited p true).unvisitedCount + 1 = m.unvisitedCount := by
  have hmem : p ∈ allPositions m.width m.height := (valid_iff_mem_allPositions m p).mp hv
  have hnd := nodup_allPositions m.width m.height
  have hupdate := countP_update hnd hmem
    (fun r => ! (m.grid r).visited)
    (fun r => ! ((m.setVisited p true).grid r).visited)
    (fun r hr => by
      simp only [Maze.setVisited, updateCell_grid, if_neg hr])
  have hp : ((m.setVisited p true).grid p).visited = true := by
    simp [Maze.setVisited, updateCell_grid]
  unfold Maze.unvisitedCount
  have hwidth : (m.setVisited p true).width = m.width := rfl
  have hheight : (m.setVisited p true).height = m.height := rfl
  rw [hwidth, hheight]
  beta_reduce at hupdate
  rw [hp, hunv] at hupdate
  simp at hupdate
  omega

theorem unvisitedCount_congr {m m' : Maze} (hw : m.width = m'.width)
    (hh : m.height = m'.height)
    (hg : ∀ p : Position, (m.grid p).visited = (m'.grid p).visited) :
    m.unvisitedCount = m'.unvisitedCount := by
  unfold Maze.unvisitedCount
  rw [← hw, ← hh]
  apply countP_congr_mem
  intro q _
  rw [hg q]

/-! ## Connectivity of the grid graph. -/

theorem isValidPositionObject_iff (m : Maze) (p : Position) :
    m.isValidPositionObject p = true ↔
      0 ≤ p.x ∧ p.x < (m.width : Int) ∧ 0 ≤ p.y ∧ p.y < (m.height : Int) := by
  simp only [Maze.isValidPositionObject, Maze.isValidPosition, Bool.and_eq_true,
    decide_eq_true_eq]
  omega

/-- Any predicate on in-bounds positions that holds at one in-bounds
position and propagates to in-bounds neighbors holds everywhere on the
grid. -/
theorem gridClosure {m : Maze} (start : Position) (P : Position → Prop)
    (hs : m.isValidPositionObject start = true) (hps : P start)
    (hcl : ∀ p : Position, m.isValidPositionObject p = true → P p →
      ∀ d : Direction, m.isValidPositionObject (stepPos p d) = true → P (stepPos p d)) :
    ∀ p : Position, m.isValidPositionObject p = true → P p := by
  obtain ⟨hb1, hb2, hb3, hb4⟩ := (isValidPositionObject_iff m start).mp hs
  have hrow : ∀ k : Nat, ∀ x : Int, (x = start.x + k ∨ x = start.x - k) →
      0 ≤ x → x < (m.width : Int) → P ⟨x, start.y⟩ := by
    intro k
    induction k with
    | zero =>
      intro x hx h0 hw
      have hxx : x = start.x := by omega
      have heta : (⟨x, start.y⟩ : Position) = start := by
        rw [hxx]
      rw [heta]
      exact hps
    | succ k ih =>
      intro x hx h0 hw
      rcases hx with hx | hx
      · have hprev : P ⟨start.x + k, start.y⟩ :=
          ih (start.x + k) (Or.inl rfl) (by omega) (by omega)
        have hstep : stepPos ⟨start.x + k, start.y⟩ .right = ⟨x, start.y⟩ := by
          simp only [stepPos, movePosition, getDirectionOffset, Position.mk.injEq]
          omega
        have hv1 : m.isValidPositionObject ⟨start.x + k, start.y⟩ = true :=
          (isValidPositionObject_iff m _).mpr (by simp only; omega)
        have hv2 : m.isValidPositionObject ⟨x, start.y⟩ = true :=
          (isValidPositionObject_iff m _).mpr (by simp only; omega)
        have := hcl _ hv1 hprev .right (by rw [hstep]; exact hv2)
        rwa [hstep] at this
      · have hprev : P ⟨start.x - k, start.y⟩ :=
          ih (start.x - k) (Or.inr rfl) (by omega) (by omega)
        have hstep : stepPos ⟨start.x - k, start.y⟩ .left = ⟨x, start.y⟩ := by
          simp only [stepPos, movePosition, getDirectionOffset, Position.mk.injEq]
          omega
        have hv1 : m.isValidPositionObject ⟨start.x - k, start.y⟩ = true :=
          (isValidPositionObject_iff m _).mpr (by simp only; omega)
        have hv2 : m.isValidPositionObject ⟨x, start.y⟩ = true :=
          (isValidPositionObject_iff m _).mpr (by simp only; omega)
        have := hcl _ hv1 hprev .left (by rw [hstep]; exact hv2)
        rwa [hstep] at this
  have hcol : ∀ x : Int, 0 ≤ x → x < (m.width : Int) →
      ∀ k : Nat, ∀ y : Int, (y = start.y + k ∨ y = start.y - k) →
      0 ≤ y → y < (m.height : Int) → P ⟨x, y⟩ := by
    intro x hx0 hxw k
    induction k with
    | zero =>
      intro y hy h0 hh
      have hyy : y = start.y := by omega
      subst hyy
      rcases le_or_lt start.x x with hle | hlt
      · exact hrow (x - start.x).toNat x (Or.inl (by omega)) hx0 hxw
      · exact hrow (start.x - x).toNat x (Or.inr (by omega)) hx0 hxw
    | succ k ih =>
      intro y hy h0 hh
      rcases hy with hy | hy
      · have hprev : P ⟨x, start.y + k⟩ := ih (start.y + k) (Or.inl rfl) (by omega) (by omega)
        have hstep : stepPos ⟨x, start.y + k⟩ .down = ⟨x, y⟩ := by
          simp only [stepPos, movePosition, getDirectionOffset, Position.mk.injEq]
          omega
        have hv1 : m.isValidPositionObject ⟨x, start.y + k⟩ = true :=
          (isValidPositionObject_iff m _).mpr (by simp only; omega)
        have hv2 : m.isValidPositionObject ⟨x, y⟩ = true :=
          (isValidPositionObject_iff m _).mpr (by simp only; omega)
        have := hcl _ hv1 hprev .down (by rw [hstep]; exact hv2)
        rwa [hstep] at this
      · have hprev : P ⟨x, start.y - k⟩ := ih (start.y - k) (Or.inr rfl) (by omega) (by omega)
        have hstep : stepPos ⟨x, start.y - k⟩ .up = ⟨x, y⟩ := by
          simp only [stepPos, movePosition, getDirectionOffset, Position.mk.injEq]
          omega
        have hv1 : m.isValidPositionObject ⟨x, start.y - k⟩ = true :=
          (isValidPositionObject_iff m _).mpr (by simp only; omega)
        have hv2 : m.isValidPositionObject ⟨x, y⟩ = true :=
          (isValidPositionObject_iff m _).mpr (by simp only; omega)
        have := hcl _ hv1 hprev .up (by rw [hstep]; exact hv2)
        rwa [hstep] at this
  intro p hp
  obtain ⟨hp1, hp2, hp3, hp4⟩ := (isValidPositionObject_iff m p).mp hp
  have hres : P ⟨p.x, p.y⟩ := by
    rcases le_or_lt start.y p.y with hle | hlt
    · exact hcol p.x hp1 hp2 (p.y - start.y).toNat p.y (Or.inl (by omega)) hp3 hp4
    · exact hcol p.x hp1 hp2 (start.y - p.y).toNat p.y (Or.inr (by omega)) hp3 hp4
  have heta : (⟨p.x, p.y⟩ : Position) = p := rfl
  rwa [heta] at hres

/-! ## Neighbor list membership and path helpers. -/

theorem setVisited_grid (m : Maze) (p : Position) (b : Bool) (r : Position) :
    (m.setVisited p b).grid r
      = if r = p then { m.grid r with visited := b } else m.grid r := by
  simp [Maze.setVisited, updateCell_grid]

theorem mem_getUnvisitedNeighbors {m : Maze} (hcoh : Coherent m) (cur : Position) (n : Cell)
    (h : n ∈ m.getUnvisitedNeighbors (m.grid cur)) :
    ∃ d : Direction, n = m.grid (stepPos cur d) ∧
      m.isValidPositionObject (stepPos cur d) = true ∧ n.visited = false := by
  unfold Maze.getUnvisitedNeighbors at h
  rw [List.mem_filter] at h
  obtain ⟨hmem, hunv⟩ := h
  unfold Maze.getNeighbors at hmem
  rw [List.mem_filterMap] at hmem
  obtain ⟨d, _, hd⟩ := hmem
  refine ⟨d, ?_, ?_, by simpa using hunv⟩
  all_goals
    have hpos : (m.grid cur).getNeighborPosition d = stepPos cur d := by
      unfold Cell.getNeighborPosition stepPos
      rw [hcoh cur]
    rw [hpos] at hd
    unfold Maze.getCellSafeAt Maze.getCellSafe at hd
  · by_cases hv : m.isValidPosition (stepPos cur d).x (stepPos cur d).y = true
    · rw [if_pos hv] at hd
      exact (Option.some.injEq _ _ ▸ hd).symm
    · rw [if_neg hv] at hd
      cases hd
  · by_cases hv : m.isValidPosition (stepPos cur d).x (stepPos cur d).y = true
    · exact hv
    · rw [if_neg hv] at hd
      cases hd

theorem getUnvisitedNeighbors_nil {m : Maze} (hcoh : Coherent m) (cur : Position)
    (hnil : m.getUnvisitedNeighbors (m.grid cur) = []) :
    ∀ d : Direction, m.isValidPositionObject (stepPos cur d) = true →
      (m.grid (stepPos cur d)).visited = true := by
  intro d hv
  rcases Bool.eq_false_or_eq_true ((m.grid (stepPos cur d)).visited) with hnv | hnv
  · exact hnv
  · exfalso
    have hmem : m.grid (stepPos cur d) ∈ m.getUnvisitedNeighbors (m.grid cur) := by
      unfold Maze.getUnvisitedNeighbors
      rw [List.mem_filter]
      constructor
      · unfold Maze.getNeighbors
        rw [List.mem_filterMap]
        refine ⟨d, by cases d <;> simp [ALL_DIRECTIONS], ?_⟩
        have hpos : (m.grid cur).getNeighborPosition d = stepPos cur d := by
          unfold Cell.getNeighborPosition stepPos
          rw [hcoh cur]
        rw [hpos]
        unfold Maze.getCellSafeAt Maze.getCellSafe
        rw [if_pos (show m.isValidPosition (stepPos cur d).x (stepPos cur d).y = true from hv)]
      · simp [hnv]
    rw [hnil] at hmem
    cases hmem

theorem chainPath_mono {E F : Position → Position → Prop}
    (himp : ∀ a b : Position, E a b → F a b) {l : List Position} {s e : Position}
    (h : ChainPath E l s e) : ChainPath F l s e :=
  ⟨h.1.imp himp, h.2.1, h.2.2⟩

theorem chainPath_snoc {E : Position → Position → Prop} {l : List Position}
    {s e v : Position} (h : ChainPath E l s e) (hev : E e v) :
    ChainPath E (l ++ [v]) s v := by
  obtain ⟨hc, hh, hl⟩ := h
  have hlne : l ≠ [] := by
    intro hn
    rw [hn] at hh
    cases hh
  refine ⟨?_, ?_, List.getLast?_concat _⟩
  · rw [List.chain'_append]
    refine ⟨hc, List.chain'_singleton _, ?_⟩
    intro x hx y hy
    rw [hl] at hx
    simp only [List.head?_cons, Option.mem_def, Option.some.injEq] at hx hy
    subst hx
    subst hy
    exact hev
  · rw [List.head?_append_of_ne_nil _ hlne]
    exact hh

theorem chainPath_singleton {E : Position → Position → Prop} (p : Position) :
    ChainPath E [p] p p :=
  ⟨List.chain'_singleton p, rfl, rfl⟩

theorem uniqueSimple_of_no_edges {E : Position → Position → Prop}
    (hE : ∀ a b : Position, ¬ E a b) : UniqueSimple E := by
  intro s e l1 l2 hp1 _ hp2 _
  have hsing : ∀ l : List Position, ChainPath E l s e → l = [s] := by
    intro l hp
    obtain ⟨hc, hh, hl⟩ := hp
    cases l with
    | nil => cases hh
    | cons a t =>
      simp only [List.head?_cons, Option.some.injEq] at hh
      subst hh
      cases t with
      | nil => rfl
      | cons b t' =>
        exact absurd (List.chain'_cons.mp hc).1 (hE _ _)
  rw [hsing l1 hp1, hsing l2 hp2]

/-! ## The generation loop establishes the spanning-tree facts. -/

theorem genLoop_master (seed : Nat → Nat) (start : Position) :
    ∀ (fuel : Nat) (m : Maze) (k : Nat) (stack : List Position),
      Coherent m → GenInv start m stack →
      2 * m.unvisitedCount + stack.length < fuel →
      Coherent (Maze.genLoop seed fuel m k stack) ∧
        GenInv start (Maze.genLoop seed fuel m k stack) [] := by
  intro fuel
  induction fuel with
  | zero =>
    intro m k stack _ _ hf
    exact absurd hf (Nat.not_lt_zero _)
  | succ fuel ih =>
    intro m k stack hcoh hinv hf
    cases stack with
    | nil => exact ⟨hcoh, hinv⟩
    | cons cur rest =>
      obtain ⟨hcv, hcvis⟩ := hinv.stackValid cur (List.mem_cons_self _ _)
      rw [Maze.genLoop]
      by_cases h : 0 < (m.getUnvisitedNeighbors (m.grid cur)).length
      · simp only [h, dif_pos]
        generalize hnxtdef : (m.getUnvisitedNeighbors (m.grid cur)).get
          ⟨seed k % (m.getUnvisitedNeighbors (m.grid cur)).length, Nat.mod_lt _ h⟩ = nxt
        have hmem : nxt ∈ m.getUnvisitedNeighbors (m.grid cur) := by
          rw [← hnxtdef]
          exact List.get_mem _ _ _
        obtain ⟨d0, hcell, hval0, hunv0⟩ := mem_getUnvisitedNeighbors hcoh cur nxt hmem
        have hposn : nxt.position = stepPos cur d0 := by
          rw [hcell, hcoh]
        have hunvN : (m.grid (stepPos cur d0)).visited = false := by
          rw [← hcell]
          exact hunv0
        have hc1 : (m.grid cur).isOpenInDirection d0 = false := by
          rcases Bool.eq_false_or_eq_true ((m.grid cur).isOpenInDirection d0) with hb | hb
          · have hx := (hinv.openFaces cur d0 hcv hb).2.2
            rw [hx] at hunvN
            cases hunvN
          · exact hb
        have hc2 : (m.grid (stepPos cur d0)).isOpenInDirection d0.opposite = false := by
          rcases Bool.eq_false_or_eq_true
            ((m.grid (stepPos cur d0)).isOpenInDirection d0.opposite) with hb | hb
          · have hx := (hinv.openFaces (stepPos cur d0) d0.opposite hval0 hb).2.1
            rw [hx] at hunvN
            cases hunvN
          · exact hb
        have heq : m.removeWallBetweenAt cur nxt.position = .ok (m.carvePassage cur d0) := by
          rw [hposn]
          exact removeWallBetweenAt_eq m cur d0 (hcoh cur) (hcoh _)
        rw [heq, hposn]
        have hgoal : ∀ r : Position,
            (((m.carvePassage cur d0).setVisited (stepPos cur d0) true).grid r).visited
              = if r = stepPos cur d0 then true else (m.grid r).visited := by
          intro r
          rw [setVisited_grid]
          by_cases hr : r = stepPos cur d0
          · simp [hr]
          · rw [if_neg hr, if_neg hr, carvePassage_visited]
        have hwalls2 : ∀ r : Position,
            (((m.carvePassage cur d0).setVisited (stepPos cur d0) true).grid r).walls
              = ((m.carvePassage cur d0).grid r).walls := by
          intro r
          rw [setVisited_grid]
          by_cases hr : r = stepPos cur d0
          · simp [hr]
          · rw [if_neg hr]
        have hopen2 : ∀ (r : Position) (dd : Direction),
            ((((m.carvePassage cur d0).setVisited (stepPos cur d0) true).grid
                r).isOpenInDirection dd = true) ↔
              ((m.grid r).isOpenInDirection dd = true ∨ (r = cur ∧ dd = d0) ∨
                (r = stepPos cur d0 ∧ dd = d0.opposite)) := by
          intro r dd
          rw [isOpen_congr_walls (hwalls2 r) dd]
          exact carvePassage_isOpen m cur d0 r dd
        have hvalid2 : ∀ r : Position,
            ((m.carvePassage cur d0).setVisited (stepPos cur d0)
              true).isValidPositionObject r = m.isValidPositionObject r := fun _ => rfl
        have hcoh2 : Coherent ((m.carvePassage cur d0).setVisited (stepPos cur d0) true) := by
          intro r
          rw [setVisited_grid]
          by_cases hr : r = stepPos cur d0
          · simp only [hr, if_pos]
            show ((m.carvePassage cur d0).grid (stepPos cur d0)).position = stepPos cur d0
            rw [carvePassage_position]
            exact hcoh _
          · rw [if_neg hr, carvePassage_position]
            exact hcoh r
        have hne_curnp : cur ≠ stepPos cur d0 := Ne.symm (stepPos_ne cur d0)
        have hmono : ∀ a b : Position, stepOK m a b →
            stepOK ((m.carvePassage cur d0).setVisited (stepPos cur d0) true) a b := by
          intro a b hab
          obtain ⟨d, h1, h2, h3, h4⟩ := (stepOK_iff hcoh a b).mp hab
          exact (stepOK_iff hcoh2 a b).mpr
            ⟨d, h1, h2, h3, (hopen2 a d).mpr (Or.inl h4)⟩
        have hEE' : ∀ a b : Position,
            stepOK ((m.carvePassage cur d0).setVisited (stepPos cur d0) true) a b ↔
              stepOK m a b ∨ (a = cur ∧ b = stepPos cur d0) ∨
                (a = stepPos cur d0 ∧ b = cur) := by
          intro a b
          constructor
          · intro hab
            obtain ⟨d, h1, h2, h3, h4⟩ := (stepOK_iff hcoh2 a b).mp hab
            rcases (hopen2 a d).mp h4 with hold | ⟨ha, hd⟩ | ⟨ha, hd⟩
            · exact Or.inl ((stepOK_iff hcoh a b).mpr ⟨d, h1, h2, h3, hold⟩)
            · refine Or.inr (Or.inl ⟨ha, ?_⟩)
              rw [← h1, ha, hd]
            · refine Or.inr (Or.inr ⟨ha, ?_⟩)
              rw [← h1, ha, hd, stepPos_opposite]
          · intro hab
            rcases hab with hold | ⟨ha, hb⟩ | ⟨ha, hb⟩
            · exact hmono a b hold
            · rw [ha, hb]
              exact (stepOK_iff hcoh2 cur (stepPos cur d0)).mpr
                ⟨d0, rfl, hcv, hval0, (hopen2 cur d0).mpr (Or.inr (Or.inl ⟨rfl, rfl⟩))⟩
            · rw [ha, hb]
              exact (stepOK_iff hcoh2 (stepPos cur d0) cur).mpr
                ⟨d0.opposite, stepPos_opposite cur d0, hval0, hcv,
                  (hopen2 (stepPos cur d0) d0.opposite).mpr (Or.inr (Or.inr ⟨rfl, rfl⟩))⟩
        have hiso : ∀ a : Position,
            ¬ stepOK m (stepPos cur d0) a ∧ ¬ stepOK m a (stepPos cur d0) := by
          intro a
          constructor
          · intro hab
            obtain ⟨d, h1, h2, h3, h4⟩ := (stepOK_iff hcoh (stepPos cur d0) a).mp hab
            have hx := (hinv.openFaces (stepPos cur d0) d h2 h4).2.1
            rw [hx] at hunvN
            cases hunvN
          · intro hab
            obtain ⟨d, h1, h2, h3, h4⟩ := (stepOK_iff hcoh a (stepPos cur d0)).mp hab
            have hx := (hinv.openFaces a d h2 h4).2.2
            rw [h1] at hx
            rw [hx] at hunvN
            cases hunvN
        have hinv2 : GenInv start ((m.carvePassage cur d0).setVisited (stepPos cur d0) true)
            (stepPos cur d0 :: cur :: rest) := by
          refine ⟨?_, ?_, ?_, ?_, ?_, ?_, ?_, ?_⟩
          · intro p hp
            rcases List.mem_cons.mp hp with hp1 | hp2
            · subst hp1
              refine ⟨hval0, by rw [hgoal]; simp⟩
            · obtain ⟨hv1, hv2⟩ := hinv.stackValid p hp2
              refine ⟨hv1, ?_⟩
              rw [hgoal]
              by_cases hpn : p = stepPos cur d0 <;> simp [hpn, hv2]
          · have hrm : ((m.carvePassage cur d0).setVisited (stepPos cur d0)
                true).removedFaces = m.removedFaces + 2 := by
              have hstep1 : ((m.carvePassage cur d0).setVisited (stepPos cur d0)
                  true).removedFaces = (m.carvePassage cur d0).removedFaces :=
                removedFaces_congr rfl rfl (fun p => hwalls2 p)
              rw [hstep1]
              exact removedFaces_carvePassage m cur d0 hcv hval0 hc1 hc2
            have hvc : ((m.carvePassage cur d0).setVisited (stepPos cur d0)
                true).visitedCount = m.visitedCount + 1 := by
              have hcarve_unv : ((m.carvePassage cur d0).grid (stepPos cur d0)).visited
                  = false := by
                rw [carvePassage_visited]
                exact hunvN
              have hstep2 := visitedCount_setVisited_true (m.carvePassage cur d0)
                (stepPos cur d0) hval0 hcarve_unv
              have hstep3 : (m.carvePassage cur d0).visitedCount = m.visitedCount :=
                visitedCount_congr rfl rfl (fun p => carvePassage_visited m cur d0 p)
              rw [hstep2, ← hstep3]
            rw [hrm, hvc]
            have hcount := hinv.counting
            omega
          · intro p dd hpv hpopen
            rcases (hopen2 p dd).mp hpopen with hold | ⟨hp1, hd1⟩ | ⟨hp1, hd1⟩
            · obtain ⟨hv1, hv2, hv3⟩ := hinv.openFaces p dd hpv hold
              refine ⟨hv1, ?_, ?_⟩
              · rw [hgoal]
                by_cases hpn : p = stepPos cur d0 <;> simp [hpn, hv2]
              · rw [hgoal]
                by_cases hpn : stepPos p dd = stepPos cur d0 <;> simp [hpn, hv3]
            · subst hp1
              subst hd1
              refine ⟨hval0, ?_, ?_⟩
              · rw [hgoal, if_neg hne_curnp]
                exact hcvis
              · rw [hgoal, if_pos rfl]
            · subst hp1
              subst hd1
              refine ⟨by rw [stepPos_opposite]; exact hcv, ?_, ?_⟩
              · rw [hgoal, if_pos rfl]
              · rw [hgoal, stepPos_opposite, if_neg hne_curnp]
                exact hcvis
          · intro p hpv hpvis
            rw [hgoal] at hpvis
            by_cases hpn : p = stepPos cur d0
            · exact Or.inl (by rw [hpn]; exact List.mem_cons_self _ _)
            · rw [if_neg hpn] at hpvis
              rcases hinv.closure p hpv hpvis with hin | hall
              · exact Or.inl (List.mem_cons_of_mem _ hin)
              · refine Or.inr ?_
                intro d hd
                rw [hgoal]
                by_cases hsn : stepPos p d = stepPos cur d0
                · simp [hsn]
                · rw [if_neg hsn]
                  exact hall d hd
          · intro p hpv hpvis
            rw [hgoal] at hpvis
            by_cases hpn : p = stepPos cur d0
            · obtain ⟨l, hl⟩ := hinv.connects cur hcv hcvis
              refine ⟨l ++ [stepPos cur d0], ?_⟩
              rw [hpn]
              exact chainPath_snoc (chainPath_mono hmono hl)
                ((hEE' cur (stepPos cur d0)).mpr (Or.inr (Or.inl ⟨rfl, rfl⟩)))
            · rw [if_neg hpn] at hpvis
              obtain ⟨l, hl⟩ := hinv.connects p hpv hpvis
              exact ⟨l, chainPath_mono hmono hl⟩
          · exact uniqueSimple_extend hEE' hiso hne_curnp hinv.uniq
          · exact hinv.startValid
          · rw [hgoal]
            by_cases hsn : start = stepPos cur d0 <;> simp [hsn, hinv.startVisited]
        have hmeasure : 2 * ((m.carvePassage cur d0).setVisited (stepPos cur d0)
            true).unvisitedCount + (stepPos cur d0 :: cur :: rest).length < fuel := by
          have hu1 : ((m.carvePassage cur d0).setVisited (stepPos cur d0)
              true).unvisitedCount + 1 = (m.carvePassage cur d0).unvisitedCount :=
            unvisitedCount_setVisited_true (m.carvePassage cur d0) (stepPos cur d0) hval0
              (by rw [carvePassage_visited]; exact hunvN)
          have hu2 : (m.carvePassage cur d0).unvisitedCount = m.unvisitedCount :=
            unvisitedCount_congr rfl rfl (fun p => carvePassage_visited m cur d0 p)
          simp only [List.length_cons] at hf ⊢
          omega
        exact ih ((m.carvePassage cur d0).setVisited (stepPos cur d0) true) (k + 1)
          (stepPos cur d0 :: cur :: rest) hcoh2 hinv2 hmeasure
      · simp only [h, dif_neg]
        have hnil : m.getUnvisitedNeighbors (m.grid cur) = [] := by
          rcases hx : m.getUnvisitedNeighbors (m.grid cur) with _ | ⟨a, t⟩
          · rfl
          · rw [hx] at h
            simp at h
        have hinv2 : GenInv start m rest := by
          refine ⟨?_, hinv.counting, hinv.openFaces, ?_, hinv.connects, hinv.uniq,
            hinv.startValid, hinv.startVisited⟩
          · intro p hp
            exact hinv.stackValid p (List.mem_cons_of_mem _ hp)
          · intro p hpv hpvis
            rcases hinv.closure p hpv hpvis with hin | hall
            · rcases List.mem_cons.mp hin with hp1 | hp2
              · subst hp1
                exact Or.inr (getUnvisitedNeighbors_nil hcoh p hnil)
              · exact Or.inl hp2
            · exact Or.inr hall
        apply ih m k rest hcoh hinv2
        simp only [List.length_cons] at hf
        omega

theorem isOpen_closedWalls (pos : Position) (b : Bool) (d : Direction) :
    (Cell.mk pos createClosedWalls b).isOpenInDirection d = false := by
  cases d <;> rfl

theorem countP_eq_one_of_nodup_mem {l : List Position} (hnd : l.Nodup) {a : Position}
    (ha : a ∈ l) : l.countP (fun r => decide (r = a)) = 1 := by
  induction l with
  | nil => cases ha
  | cons b t ih =>
    rw [List.nodup_cons] at hnd
    rw [List.countP_cons]
    rcases List.mem_cons.mp ha with hb | ht
    · have hterm : t.countP (fun r => decide (r = a)) = 0 := by
        rw [List.countP_eq_zero]
        intro x hx
        simp only [decide_eq_true_eq]
        intro hxa
        have hxt : a ∈ t := hxa ▸ hx
        rw [hb] at hxt
        exact hnd.1 hxt
      rw [hterm]
      simp [hb]
    · have hba : ¬ b = a := by
        intro hb
        exact hnd.1 (hb ▸ ht)
      simp [ih hnd.2 ht, hba]

theorem countP_not_add {l : List Position} (f : Position → Bool) :
    l.countP (fun r => ! f r) + l.countP f = l.length := by
  induction l with
  | nil => rfl
  | cons b t ih =>
    rw [List.countP_cons, List.countP_cons, List.length_cons]
    rcases Bool.eq_false_or_eq_true (f b) with hb | hb <;> simp [hb] <;> omega

/-- The state just before entering the generation loop satisfies the
invariant, and the loop therefore finishes with it (empty stack). -/
theorem generate_master (m : Maze) (seed : Nat → Nat) (sx sy : Int)
    (hcoh : Coherent m) (hv : m.isValidPosition sx sy = true) :
    (m.generateRecursiveBacktracking seed sx sy).1 = none ∧
      Coherent (m.generateRecursiveBacktracking seed sx sy).2 ∧
      GenInv ⟨sx, sy⟩ (m.generateRecursiveBacktracking seed sx sy).2 [] := by
  have hv2 : (m.resetToFullyWalled.resetVisited).isValidPosition sx sy = true := hv
  rw [Maze.generateRecursiveBacktracking]
  simp only [hv2, if_true]
  refine ⟨trivial, ?_⟩
  set start : Position := ⟨sx, sy⟩ with hstart
  set m3 := (m.resetToFullyWalled.resetVisited).setVisited start true with hm3
  have hcoh3 : Coherent m3 :=
    coherent_setVisited _ _ (coherent_resetVisited (coherent_resetToFullyWalled hcoh))
  have hvalid3 : ∀ r : Position, m3.isValidPositionObject r = m.isValidPositionObject r :=
    fun _ => rfl
  have hsv : m3.isValidPositionObject start = true := hv
  have hg3 : ∀ r : Position, m3.isValidPositionObject r = true →
      m3.grid r = Cell.mk r createClosedWalls (decide (r = start)) := by
    intro r hr
    have hr2 : m.resetToFullyWalled.isValidPositionObject r = true := hr
    have hr3 : m.isValidPositionObject r = true := hr
    rw [hm3, setVisited_grid]
    have hbase : (m.resetToFullyWalled.resetVisited).grid r
        = Cell.mk r createClosedWalls false := by
      have h1 : (m.resetToFullyWalled.resetVisited).grid r
          = ((m.resetToFullyWalled).grid r).reset := by
        simp only [Maze.resetVisited]
        rw [if_pos hr2]
      have h2 : (m.resetToFullyWalled).grid r = Cell.mkClosed r.x r.y := by
        simp only [Maze.resetToFullyWalled]
        rw [if_pos hr3]
      rw [h1, h2]
      rfl
    by_cases hreq : r = start
    · rw [if_pos hreq, hbase]
      simp [hreq, Cell.reset]
    · rw [if_neg hreq, hbase]
      simp [hreq]
  have hopen3 : ∀ (r : Position) (d : Direction), m3.isValidPositionObject r = true →
      (m3.grid r).isOpenInDirection d = false := by
    intro r d hr
    rw [hg3 r hr]
    exact isOpen_closedWalls _ _ _
  have hvis3 : ∀ r : Position, m3.isValidPositionObject r = true →
      (m3.grid r).visited = decide (r = start) := by
    intro r hr
    rw [hg3 r hr]
  have hvc3 : m3.visitedCount = 1 := by
    unfold Maze.visitedCount
    rw [countP_congr_mem (fun r => decide (r = start))
      (fun r => (m3.grid r).visited) ?_]
    · exact countP_eq_one_of_nodup_mem (nodup_allPositions _ _)
        ((valid_iff_mem_allPositions m3 start).mp hsv)
    · intro q hq
      exact hvis3 q ((valid_iff_mem_allPositions m3 q).mpr hq)
  have hrf3 : m3.removedFaces = 0 := by
    unfold Maze.removedFaces
    apply List.sum_eq_zero
    intro x hx
    rw [List.mem_map] at hx
    obtain ⟨q, hq, hqx⟩ := hx
    have hqv : m3.isValidPositionObject q = true := (valid_iff_mem_allPositions m3 q).mpr hq
    rw [hg3 q hqv] at hqx
    rw [← hqx]
    rfl
  have hinv3 : GenInv start m3 [start] := by
    refine ⟨?_, ?_, ?_, ?_, ?_, ?_, hsv, ?_⟩
    · intro p hp
      rcases List.mem_cons.mp hp with hp1 | hp2
      · refine ⟨by rw [hp1]; exact hsv, ?_⟩
        rw [hp1, hvis3 start hsv]
        simp
      · cases hp2
    · rw [hrf3, hvc3]
    · intro p d hp hopen
      rw [hopen3 p d hp] at hopen
      cases hopen
    · intro p hp hvis
      rw [hvis3 p hp] at hvis
      simp only [decide_eq_true_eq] at hvis
      exact Or.inl (by rw [hvis]; exact List.mem_cons_self _ _)
    · intro p hp hvis
      rw [hvis3 p hp] at hvis
      simp only [decide_eq_true_eq] at hvis
      rw [hvis]
      exact ⟨[start], chainPath_singleton start⟩
    · apply uniqueSimple_of_no_edges
      intro a b hab
      obtain ⟨d, h1, h2, h3, h4⟩ := (stepOK_iff hcoh3 a b).mp hab
      rw [hopen3 a d h2] at h4
      cases h4
    · rw [hvis3 start hsv]
      simp
  have hm3u : m3.unvisitedCount + 1 = m.height * m.width := by
    have hsum := countP_not_add (l := allPositions m3.width m3.height)
      (fun r => (m3.grid r).visited)
    have hlen : (allPositions m3.width m3.height).length = m.height * m.width :=
      length_allPositions _ _
    have hvc := hvc3
    unfold Maze.visitedCount at hvc
    unfold Maze.unvisitedCount
    omega
  have hwh1 : 1 ≤ m.height * m.width := by
    obtain ⟨h1, h2, h3, h4⟩ := (isValidPositionObject_iff m ⟨sx, sy⟩).mp hv
    simp only at h1 h2 h3 h4
    have hw1 : 1 ≤ m.width := by omega
    have hh1 : 1 ≤ m.height := by omega
    exact Nat.one_le_iff_ne_zero.mpr (by positivity)
  have hmeasure : 2 * m3.unvisitedCount + ([start] : List Position).length
      < 2 * m.width * m.height + 1 := by
    have hrw : 2 * m.width * m.height = 2 * (m.height * m.width) := by
      rw [Nat.mul_assoc, Nat.mul_comm m.width m.height]
    rw [hrw]
    simp only [List.length_singleton]
    omega
  have := genLoop_master seed start (2 * m.width * m.height + 1) m3 0 [start]
    hcoh3 hinv3 hmeasure
  exact this

theorem getStatistics_removedWalls (m : Maze) :
    m.getStatistics.removedWalls = m.removedFaces := by
  simp only [Maze.getStatistics, Maze.removedFaces, List.map_map]
  rfl

theorem removeWallBetweenAt_dims {m m' : Maze} {p q : Position}
    (h : m.removeWallBetweenAt p q = .ok m') : m'.width = m.width ∧ m'.height = m.height := by
  unfold Maze.removeWallBetweenAt at h
  by_cases hn : m.areNeighbors (m.grid p) (m.grid q) = true
  · simp only [hn, Bool.not_true, Bool.false_eq_true, if_false] at h
    rcases hd1 : m.getDirectionBetween (m.grid p) (m.grid q) with e1 | d1
    · rw [hd1] at h
      simp [Bind.bind, Except.bind] at h
    · rw [hd1] at h
      rcases hd2 : m.getDirectionBetween (m.grid q) (m.grid p) with e2 | d2
      · rw [hd2] at h
        simp [Bind.bind, Except.bind] at h
      · rw [hd2] at h
        simp only [Bind.bind, Except.bind, pure, Except.pure, Except.ok.injEq] at h
        rw [← h]
        exact ⟨rfl, rfl⟩
  · have hn' : m.areNeighbors (m.grid p) (m.grid q) = false := by
      rcases Bool.eq_false_or_eq_true (m.areNeighbors (m.grid p) (m.grid q)) with hx | hx
      · exact absurd hx hn
      · exact hx
    simp only [hn', Bool.not_false, if_true] at h
    simp at h

theorem genLoop_dims (seed : Nat → Nat) :
    ∀ (fuel : Nat) (mm : Maze) (k : Nat) (st : List Position),
      (Maze.genLoop seed fuel mm k st).width = mm.width ∧
        (Maze.genLoop seed fuel mm k st).height = mm.height := by
  intro fuel
  induction fuel with
  | zero => exact fun mm k st => ⟨rfl, rfl⟩
  | succ fuel ih =>
    intro mm k st
    cases st with
    | nil => exact ⟨rfl, rfl⟩
    | cons cur rest =>
      rw [Maze.genLoop]
      by_cases h : 0 < (mm.getUnvisitedNeighbors (mm.grid cur)).length
      · simp only [h, dif_pos]
        cases heq : mm.removeWallBetweenAt cur
            ((mm.getUnvisitedNeighbors (mm.grid cur)).get
              ⟨seed k % (mm.getUnvisitedNeighbors (mm.grid cur)).length,
                Nat.mod_lt _ h⟩).position with
        | error e => exact ⟨rfl, rfl⟩
        | ok m1 =>
          have hone := removeWallBetweenAt_dims heq
          have hrec := ih
            (m1.setVisited
              ((mm.getUnvisitedNeighbors (mm.grid cur)).get
                ⟨seed k % (mm.getUnvisitedNeighbors (mm.grid cur)).length,
                  Nat.mod_lt _ h⟩).position true) (k + 1)
            (((mm.getUnvisitedNeighbors (mm.grid cur)).get
                ⟨seed k % (mm.getUnvisitedNeighbors (mm.grid cur)).length,
                  Nat.mod_lt _ h⟩).position :: cur :: rest)
          exact ⟨hrec.1.trans hone.1, hrec.2.trans hone.2⟩
      · simp only [h, dif_neg]
        exact ih mm k rest

theorem generate_dims (m : Maze) (seed : Nat → Nat) (sx sy : Int) :
    (m.generateRecursiveBacktracking seed sx sy).2.width = m.width ∧
      (m.generateRecursiveBacktracking seed sx sy).2.height = m.height := by
  rw [Maze.generateRecursiveBacktracking]
  by_cases hb : (m.resetToFullyWalled.resetVisited).isValidPosition sx sy = true
  · simp only [hb, if_true]
    exact genLoop_dims seed _ _ _ _
  · have hb' : (m.resetToFullyWalled.resetVisited).isValidPosition sx sy = false := by
      rcases Bool.eq_false_or_eq_true
        ((m.resetToFullyWalled.resetVisited).isValidPosition sx sy) with hx | hx
      · exact absurd hx hb
      · exact hx
    simp only [hb', Bool.false_eq_true, if_false]
    exact ⟨rfl, rfl⟩

/-- C1 as amended: for every coherent maze and every in-bounds start,
after generateRecursiveBacktracking every in-bounds cell is visited and
getStatistics reports removedWalls = 2 * (totalCells - 1) — each of the
totalCells - 1 carved passages removes one wall face from each of its two
cells, so the face count is twice the tree edge count, not the tree edge
count itself. -/
theorem claim_C1_amended (m : Maze) (seed : Nat → Nat) (sx sy : Int)
    (hcoh : Coherent m) (hv : m.isValidPosition sx sy = true) :
    (m.generateRecursiveBacktracking seed sx sy).2.getStatistics.removedWalls
        = 2 * (m.totalCells - 1) ∧
      ∀ p : Position,
        (m.generateRecursiveBacktracking seed sx sy).2.isValidPositionObject p = true →
        ((m.generateRecursiveBacktracking seed sx sy).2.grid p).visited = true := by
  obtain ⟨hnone, hcohF, hinvF⟩ := generate_master m seed sx sy hcoh hv
  set mf := (m.generateRecursiveBacktracking seed sx sy).2 with hmf
  have hall : ∀ p : Position, mf.isValidPositionObject p = true →
      (mf.grid p).visited = true := by
    apply gridClosure ⟨sx, sy⟩ (fun p => (mf.grid p).visited = true)
      hinvF.startValid hinvF.startVisited
    intro p hp hvis d hd
    rcases hinvF.closure p hp hvis with hin | hnb
    · cases hin
    · exact hnb d hd
  refine ⟨?_, hall⟩
  have hvc : mf.visitedCount = (allPositions mf.width mf.height).length := by
    unfold Maze.visitedCount
    rw [List.countP_eq_length]
    intro p hp
    exact hall p ((valid_iff_mem_allPositions mf p).mpr hp)
  have hdim := generate_dims m seed sx sy
  rw [← hmf] at hdim
  have hcount := hinvF.counting
  rw [hvc, length_allPositions, hdim.1, hdim.2] at hcount
  rw [getStatistics_removedWalls]
  have htot : m.totalCells = m.height * m.width := Nat.mul_comm _ _
  rw [htot]
  obtain ⟨A, hA⟩ : ∃ A : Nat, m.height * m.width = A := ⟨_, rfl⟩
  rw [hA] at hcount ⊢
  omega

/-- C1 amended witness: on the concrete 2x1 maze the generated statistics
report removedWalls = 2 = 2 * (totalCells - 1), and both cells are
visited. -/
theorem claim_C1_amended_witness :
    ((Maze.create 2 1 true).generateRecursiveBacktracking (fun _ => 0) 0 0).2.getStatistics.removedWalls
        = 2 * ((Maze.create 2 1 true).totalCells - 1) ∧
      ∀ p : Position,
        ((Maze.create 2 1 true).generateRecursiveBacktracking
          (fun _ => 0) 0 0).2.isValidPositionObject p = true →
        (((Maze.create 2 1 true).generateRecursiveBacktracking
          (fun _ => 0) 0 0).2.grid p).visited = true :=
  claim_C1_amended (Maze.create 2 1 true) (fun _ => 0) 0 0
    (coherent_create 2 1 true) (by decide)

/-! ## Solver path toolkit: accessible neighbors, chain-path algebra. -/

theorem visited_resetVisited (m : Maze) (p : Position)
    (hv : m.isValidPositionObject p = true) :
    ((m.resetVisited).grid p).visited = false := by
  simp [Maze.resetVisited, hv, Cell.reset]

theorem valid_of_sameWalls {m m' : Maze} (hs : m.sameWalls m') (p : Position) :
    m.isValidPositionObject p = m'.isValidPositionObject p := by
  obtain ⟨hw, hh, _⟩ := hs
  simp [Maze.isValidPositionObject, Maze.isValidPosition, hw, hh]

theorem visited_setVisited_true (m : Maze) (p z : Position)
    (h : (m.grid z).visited = true) :
    ((m.setVisited p true).grid z).visited = true := by
  rw [setVisited_grid]
  by_cases hz : z = p
  · simp [hz]
  · simp [hz, h]

theorem unvisitedCount_mono {m m' : Maze} (hw : m.width = m'.width)
    (hh : m.height = m'.height)
    (hmono : ∀ z : Position, (m.grid z).visited = true → (m'.grid z).visited = true) :
    m'.unvisitedCount ≤ m.unvisitedCount := by
  unfold Maze.unvisitedCount
  rw [← hw, ← hh]
  apply List.countP_mono_left
  intro p _
  simp only [Bool.not_eq_eq_eq_not, Bool.not_true]
  intro h1
  rcases Bool.eq_false_or_eq_true ((m.grid p).visited) with hx | hx
  · rw [hmono p hx] at h1
    cases h1
  · exact hx

theorem mem_accessiblePositions {m : Maze} (hcoh : Coherent m) (cur : Position)
    (hvcur : m.isValidPositionObject cur = true) (n : Position) :
    n ∈ m.accessiblePositions cur ↔ stepOK m cur n := by
  rw [stepOK_iff hcoh]
  unfold Maze.accessiblePositions Maze.getAccessibleNeighbors
  simp only [List.mem_map, List.mem_filterMap]
  constructor
  · rintro ⟨c, ⟨d, hd, hc⟩, hpos⟩
    have hstep : (m.grid cur).getNeighborPosition d = stepPos cur d := by
      unfold Cell.getNeighborPosition stepPos
      rw [hcoh cur]
    rw [hstep] at hc
    unfold Maze.getCellSafeAt Maze.getCellSafe at hc
    by_cases hvb : m.isValidPosition (stepPos cur d).x (stepPos cur d).y = true
    · rw [if_pos hvb] at hc
      have hceq : c = m.grid (stepPos cur d) := by
        cases hc
        rfl
      have hneq : n = stepPos cur d := by rw [← hpos, hceq, hcoh]
      refine ⟨d, hneq.symm, hvcur, ?_, ?_⟩
      · rw [hneq]
        exact hvb
      · unfold Cell.getOpenDirections at hd
        rw [List.mem_filter] at hd
        simpa [Cell.isOpenInDirection] using hd.2
    · rw [if_neg hvb] at hc
      cases hc
  · rintro ⟨d, hstep, _, hvb, hopen⟩
    have hvb' : m.isValidPosition (stepPos cur d).x (stepPos cur d).y = true := by
      rw [hstep]
      exact hvb
    refine ⟨m.grid (stepPos cur d), ⟨d, ?_, ?_⟩, by rw [hcoh, hstep]⟩
    · unfold Cell.getOpenDirections
      rw [List.mem_filter]
      refine ⟨by cases d <;> simp [ALL_DIRECTIONS], ?_⟩
      simpa [Cell.isOpenInDirection] using hopen
    · have hstep' : (m.grid cur).getNeighborPosition d = stepPos cur d := by
        unfold Cell.getNeighborPosition stepPos
        rw [hcoh cur]
      rw [hstep']
      unfold Maze.getCellSafeAt Maze.getCellSafe
      rw [if_pos hvb']

theorem chainPath_cons_cons {E : Position → Position → Prop} {a b : Position}
    {t : List Position} {s z : Position} (h : ChainPath E (a :: b :: t) s z) :
    s = a ∧ E a b ∧ ChainPath E (b :: t) b z := by
  obtain ⟨hc, hh, hl⟩ := h
  rw [List.chain'_cons] at hc
  simp only [List.head?_cons, Option.some.injEq] at hh
  refine ⟨hh.symm, hc.1, hc.2, rfl, ?_⟩
  rw [← hl, List.getLast?_cons_cons]

theorem chainPath_cons_of_edge {E : Position → Position → Prop} {l : List Position}
    {s e a : Position} (hE : E a s) (h : ChainPath E l s e) :
    ChainPath E (a :: l) a e := by
  obtain ⟨hc, hh, hl⟩ := h
  cases l with
  | nil => cases hh
  | cons x t =>
    simp only [List.head?_cons, Option.some.injEq] at hh
    subst hh
    exact ⟨List.chain'_cons.mpr ⟨hE, hc⟩, rfl, by rw [List.getLast?_cons_cons]; exact hl⟩

theorem chainPath_closure {E : Position → Position → Prop} {P : Position → Prop}
    (hstep : ∀ a b : Position, P a → E a b → P b) :
    ∀ (q : List Position) (s z : Position), ChainPath E q s z → P s → P z := by
  intro q
  induction q with
  | nil =>
    intro s z h _
    cases h.2.1
  | cons a t ih =>
    intro s z h hPs
    cases t with
    | nil =>
      obtain ⟨_, hh, hl⟩ := h
      simp only [List.head?_cons, Option.some.injEq] at hh
      simp only [List.getLast?_singleton, Option.some.injEq] at hl
      rw [← hl]
      rw [hh]
      exact hPs
    | cons b t' =>
      obtain ⟨hsa, hab, hrest⟩ := chainPath_cons_cons h
      exact ih b z hrest (hstep a b (hsa ▸ hPs) hab)

theorem chainPath_length_pos {E : Position → Position → Prop} {q : List Position}
    {s z : Position} (h : ChainPath E q s z) : 1 ≤ q.length := by
  cases q with
  | nil => cases h.2.1
  | cons a t => simp

theorem pairwise_le_of_const {l : List Nat} {c : Nat} (h : ∀ a ∈ l, a = c) :
    l.Pairwise (fun a b => a ≤ b) := by
  induction l with
  | nil => exact List.Pairwise.nil
  | cons x t ih =>
    refine List.Pairwise.cons ?_ (ih (fun a ha => h a (List.mem_cons_of_mem x ha)))
    intro b hb
    rw [h x (List.mem_cons_self x t), h b (List.mem_cons_of_mem x hb)]

theorem stepOK_symm {m : Maze} (hcoh : Coherent m) (hsym : SymWalls m)
    {a b : Position} (h : stepOK m a b) : stepOK m b a := by
  rw [stepOK_iff hcoh] at h ⊢
  obtain ⟨d, hstep, hva, hvb, hopen⟩ := h
  refine ⟨d.opposite, ?_, hvb, hva, ?_⟩
  · rw [← hstep, stepPos_opposite]
  · have := hsym a d hva (by rw [hstep]; exact hvb)
    rw [hstep] at this
    rw [← this]
    exact hopen

theorem chainPath_reverse {E : Position → Position → Prop}
    (hsymm : ∀ a b : Position, E a b → E b a) {l : List Position} {s e : Position}
    (h : ChainPath E l s e) : ChainPath E l.reverse e s := by
  obtain ⟨hc, hh, hl⟩ := h
  refine ⟨?_, ?_, ?_⟩
  · rw [List.chain'_reverse]
    refine List.Chain'.imp ?_ hc
    intro x y hxy
    exact hsymm x y hxy
  · rw [List.head?_reverse]
    exact hl
  · rw [List.getLast?_reverse]
    exact hh

theorem chainPath_append {E : Position → Position → Prop} {l1 l2 : List Position}
    {a b c : Position} (h1 : ChainPath E l1 a b) (h2 : ChainPath E l2 b c) :
    ChainPath E (l1 ++ l2.tail) a c := by
  obtain ⟨hc2, hh2, hl2⟩ := h2
  cases l2 with
  | nil => cases hh2
  | cons x t =>
    simp only [List.head?_cons, Option.some.injEq] at hh2
    subst hh2
    cases t with
    | nil =>
      simp only [List.getLast?_singleton, Option.some.injEq] at hl2
      subst hl2
      simpa using h1
    | cons y t' =>
      simp only [List.tail_cons]
      obtain ⟨hc1, hh1, hl1⟩ := h1
      have hl1ne : l1 ≠ [] := by
        intro hn
        rw [hn] at hh1
        cases hh1
      rw [List.chain'_cons] at hc2
      refine ⟨?_, ?_, ?_⟩
      · rw [List.chain'_append]
        refine ⟨hc1, hc2.2, ?_⟩
        intro u hu v hv
        rw [Option.mem_def, hl1, Option.some.injEq] at hu
        rw [Option.mem_def, List.head?_cons, Option.some.injEq] at hv
        rw [← hu, ← hv]
        exact hc2.1
      · rw [List.head?_append_of_ne_nil _ hl1ne]
        exact hh1
      · rw [List.getLast?_append_of_ne_nil _ (by simp)]
        rw [← hl2, List.getLast?_cons_cons]

/-! ## The enqueue loop of solveBFS, characterized. -/

theorem bfsEnqueue_grid (cur : Position) (tail : List Position) :
    ∀ (ns : List Position) (m : Maze) (acc : List QNode) (p : Position),
      (Maze.bfsEnqueue cur tail m acc ns).1.grid p
        = if (m.grid p).visited = false ∧ p ∈ ns then { m.grid p with visited := true }
          else m.grid p := by
  intro ns
  induction ns with
  | nil =>
    intro m acc p
    rw [Maze.bfsEnqueue]
    simp
  | cons n ns ih =>
    intro m acc p
    rw [Maze.bfsEnqueue]
    by_cases hv : (m.grid n).visited = true
    · rw [if_pos hv, ih]
      by_cases hp : p = n
      · rcases Bool.eq_false_or_eq_true ((m.grid p).visited) with hx | hx
        · simp [hx]
        · rw [hp] at hx
          rw [hx] at hv
          cases hv
      · simp [List.mem_cons, hp]
    · have hv' : (m.grid n).visited = false := by
        rcases Bool.eq_false_or_eq_true ((m.grid n).visited) with hx | hx
        · exact absurd hx hv
        · exact hx
      rw [hv']
      simp only [Bool.false_eq_true, if_false]
      rw [ih]
      by_cases hp : p = n
      · rw [hp]
        simp [setVisited_grid, hv']
      · simp [setVisited_grid, hp, List.mem_cons]

theorem bfsEnqueue_visited (cur : Position) (tail : List Position)
    (ns : List Position) (m : Maze) (acc : List QNode) (p : Position) :
    ((Maze.bfsEnqueue cur tail m acc ns).1.grid p).visited = true ↔
      (m.grid p).visited = true ∨ p ∈ ns := by
  rw [bfsEnqueue_grid]
  by_cases hc : (m.grid p).visited = false ∧ p ∈ ns
  · rw [if_pos hc]
    simp [hc.2]
  · rw [if_neg hc]
    constructor
    · intro h
      exact Or.inl h
    · intro h
      rcases h with h | h
      · exact h
      · rcases Bool.eq_false_or_eq_true ((m.grid p).visited) with hx | hx
        · exact hx
        · exact absurd ⟨hx, h⟩ hc

theorem bfsEnqueue_acc (cur : Position) (tail : List Position) :
    ∀ (ns : List Position) (m : Maze) (acc : List QNode), ∃ new : List QNode,
      (Maze.bfsEnqueue cur tail m acc ns).2 = acc ++ new ∧
      (∀ node ∈ new, node.2 = cur :: tail ∧ node.1 ∈ ns ∧
        (m.grid node.1).visited = false) ∧
      ((∀ n ∈ ns, m.isValidPositionObject n = true) →
        (Maze.bfsEnqueue cur tail m acc ns).1.unvisitedCount + new.length
          = m.unvisitedCount) := by
  intro ns
  induction ns with
  | nil =>
    intro m acc
    refine ⟨[], by rw [Maze.bfsEnqueue]; simp, by simp, ?_⟩
    intro _
    rw [Maze.bfsEnqueue]
    simp
  | cons n ns ih =>
    intro m acc
    by_cases hv : (m.grid n).visited = true
    · obtain ⟨new, heq, hprops, hcount⟩ := ih m acc
      refine ⟨new, ?_, ?_, ?_⟩
      · rw [Maze.bfsEnqueue, if_pos hv]
        exact heq
      · intro node hnode
        obtain ⟨h1, h2, h3⟩ := hprops node hnode
        exact ⟨h1, List.mem_cons_of_mem n h2, h3⟩
      · intro hval
        rw [Maze.bfsEnqueue, if_pos hv]
        exact hcount (fun n' hn' => hval n' (List.mem_cons_of_mem n hn'))
    · have hv' : (m.grid n).visited = false := by
        rcases Bool.eq_false_or_eq_true ((m.grid n).visited) with hx | hx
        · exact absurd hx hv
        · exact hx
      obtain ⟨new, heq, hprops, hcount⟩ := ih (m.setVisited n true) (acc ++ [(n, cur :: tail)])
      refine ⟨(n, cur :: tail) :: new, ?_, ?_, ?_⟩
      · rw [Maze.bfsEnqueue, hv']
        simp only [Bool.false_eq_true, if_false]
        rw [heq, List.append_assoc]
        rfl
      · intro node hnode
        rcases List.mem_cons.mp hnode with h | h
        · rw [h]
          exact ⟨rfl, List.mem_cons_self n ns, hv'⟩
        · obtain ⟨h1, h2, h3⟩ := hprops node h
          have hne : node.1 ≠ n := by
            intro hcontra
            rw [hcontra, setVisited_grid, if_pos rfl] at h3
            cases h3
          refine ⟨h1, List.mem_cons_of_mem n h2, ?_⟩
          rw [setVisited_grid, if_neg hne] at h3
          exact h3
      · intro hval
        have hvaln : (m.setVisited n true).isValidPositionObject n = true := hval n (List.mem_cons_self n ns)
        have hstep := unvisitedCount_setVisited_true m n (hval n (List.mem_cons_self n ns)) hv'
        have hrec := hcount (fun n' hn' => hval n' (List.mem_cons_of_mem n hn'))
        rw [Maze.bfsEnqueue, hv']
        simp only [Bool.false_eq_true, if_false, List.length_cons]
        omega

theorem bfsEnqueue_mem (cur : Position) (tail : List Position) :
    ∀ (ns : List Position) (m : Maze) (acc : List QNode) (n : Position),
      n ∈ ns → (m.grid n).visited = false →
      (n, cur :: tail) ∈ (Maze.bfsEnqueue cur tail m acc ns).2 := by
  intro ns
  induction ns with
  | nil =>
    intro m acc n hmem _
    cases hmem
  | cons n0 ns ih =>
    intro m acc n hmem hvis
    rw [Maze.bfsEnqueue]
    by_cases hv : (m.grid n0).visited = true
    · rw [if_pos hv]
      rcases List.mem_cons.mp hmem with h | h
      · rw [h] at hvis
        rw [hvis] at hv
        cases hv
      · exact ih m acc n h hvis
    · have hv' : (m.grid n0).visited = false := by
        rcases Bool.eq_false_or_eq_true ((m.grid n0).visited) with hx | hx
        · exact absurd hx hv
        · exact hx
      rw [hv']
      simp only [Bool.false_eq_true, if_false]
      by_cases hn : n = n0
      · obtain ⟨new, heq, _, _⟩ := bfsEnqueue_acc cur tail ns (m.setVisited n0 true)
          (acc ++ [(n0, cur :: tail)])
        rw [heq, hn]
        exact List.mem_append_left _ (List.mem_append_right _ (List.mem_singleton.mpr rfl))
      · refine ih (m.setVisited n0 true) _ n ?_ ?_
        · rcases List.mem_cons.mp hmem with h | h
          · exact absurd h hn
          · exact h
        · rw [setVisited_grid, if_neg hn]
          exact hvis

theorem bfsEnqueue_nodup (cur : Position) (tail : List Position) :
    ∀ (ns : List Position) (m : Maze) (acc : List QNode),
      (∀ node ∈ acc, (m.grid node.1).visited = true) → (acc.map Prod.fst).Nodup →
      ((Maze.bfsEnqueue cur tail m acc ns).2.map Prod.fst).Nodup ∧
      ∀ node ∈ (Maze.bfsEnqueue cur tail m acc ns).2,
        ((Maze.bfsEnqueue cur tail m acc ns).1.grid node.1).visited = true := by
  intro ns
  induction ns with
  | nil =>
    intro m acc hvis hnd
    rw [Maze.bfsEnqueue]
    exact ⟨hnd, hvis⟩
  | cons n ns ih =>
    intro m acc hvis hnd
    rw [Maze.bfsEnqueue]
    by_cases hv : (m.grid n).visited = true
    · rw [if_pos hv]
      exact ih m acc hvis hnd
    · have hv' : (m.grid n).visited = false := by
        rcases Bool.eq_false_or_eq_true ((m.grid n).visited) with hx | hx
        · exact absurd hx hv
        · exact hx
      rw [hv']
      simp only [Bool.false_eq_true, if_false]
      refine ih (m.setVisited n true) (acc ++ [(n, cur :: tail)]) ?_ ?_
      · intro node hnode
        rcases List.mem_append.mp hnode with h | h
        · exact visited_setVisited_true m n node.1 (hvis node h)
        · rw [List.mem_singleton.mp h]
          rw [setVisited_grid, if_pos rfl]
      · rw [List.map_append]
        rw [List.nodup_append]
        refine ⟨hnd, List.nodup_singleton _, ?_⟩
        intro x hx
        simp only [List.map_cons, List.map_nil, List.mem_singleton]
        intro hxn
        rw [List.mem_map] at hx
        obtain ⟨node, hnode, hfst⟩ := hx
        have := hvis node hnode
        rw [hfst, hxn] at this
        rw [this] at hv'
        cases hv'

/-- The frontier-crossing bound: if every visited cell is either still
queued (with label at least the front depth L) or has propagated
visitation to all its neighbors, then any open path from a visited cell
with small label to an unvisited cell is long. -/
theorem bfs_crossing {m0 m : Maze} {Q : List QNode} {lab : Position → Nat} {L : Nat}
    (h1 : ∀ v : Position, (m.grid v).visited = true →
      (∃ t : List Position, (v, t) ∈ Q) ∨
        ∀ z' : Position, stepOK m0 v z' →
          (m.grid z').visited = true ∧ lab z' ≤ lab v + 1)
    (h2 : ∀ (v : Position) (t : List Position), (v, t) ∈ Q → L ≤ lab v) :
    ∀ (q : List Position) (s z : Position) (k : Nat), ChainPath (stepOK m0) q s z →
      (m.grid s).visited = true → lab s ≤ k + 1 → (m.grid z).visited = false →
      L + 1 ≤ k + q.length := by
  intro q
  induction q with
  | nil =>
    intro s z k h _ _ _
    cases h.2.1
  | cons a t ih =>
    intro s z k h hvs hls hvz
    cases t with
    | nil =>
      obtain ⟨_, hh, hl⟩ := h
      simp only [List.head?_cons, Option.some.injEq] at hh
      simp only [List.getLast?_singleton, Option.some.injEq] at hl
      rw [← hh] at hvs
      rw [← hl] at hvz
      rw [hvs] at hvz
      cases hvz
    | cons b t' =>
      obtain ⟨hsa, hab, hrest⟩ := chainPath_cons_cons h
      rw [hsa] at hvs hls
      rcases h1 a hvs with ⟨tq, htq⟩ | hclosed
      · have := h2 a tq htq
        simp only [List.length_cons]
        omega
      · obtain ⟨hvb, hlb⟩ := hclosed b hab
        have := ih b z (k + 1) hrest hvb (by omega) hvz
        simp only [List.length_cons] at this ⊢
        omega

/-- The solveBFS loop, verified: under the queue invariant with enough
fuel, a returned path is a duplicate-free open path from start to the
target of minimal length among all open paths, and a none return means no
open path from start to the target exists at all. -/
theorem bfsLoop_master {m0 : Maze} (hcoh0 : Coherent m0) (start end_ : Position) :
    ∀ (fuel : Nat) (m : Maze) (Q : List QNode) (lab : Position → Nat),
      BfsInv m0 start end_ m Q lab →
      2 * m.unvisitedCount + Q.length < fuel →
      (∀ l : List Position, (Maze.bfsLoop end_ fuel m Q).1 = some l →
        ChainPath (stepOK m0) l start end_ ∧ l.Nodup ∧
        ∀ q : List Position, ChainPath (stepOK m0) q start end_ → l.length ≤ q.length) ∧
      ((Maze.bfsLoop end_ fuel m Q).1 = none →
        ∀ q : List Position, ¬ ChainPath (stepOK m0) q start end_) := by
  intro fuel
  induction fuel with
  | zero =>
    intro m Q lab hinv hfuel
    exact absurd hfuel (by omega)
  | succ fuel ih =>
    intro m Q lab hinv hfuel
    cases Q with
    | nil =>
      have hred : Maze.bfsLoop end_ (fuel + 1) m [] = (none, m) := by
        rw [Maze.bfsLoop]
      rw [hred]
      constructor
      · intro l hl
        cases hl
      · intro _ q hq
        have hstep : ∀ a b : Position, (m.grid a).visited = true → stepOK m0 a b →
            (m.grid b).visited = true :=
          fun a b hPa hab =>
            (hinv.closedCells a hPa (fun t ht => List.not_mem_nil _ ht) b hab).1
        have hPe := chainPath_closure hstep q start end_ hq hinv.startVis
        obtain ⟨t, ht⟩ := hinv.endInQ hPe
        exact List.not_mem_nil _ ht
    | cons node rest =>
      obtain ⟨cur, tail⟩ := node
      obtain ⟨hch0, hnd0, hvis0, hlab0, hval0⟩ :=
        hinv.nodes (cur, tail) (List.mem_cons_self _ _)
      dsimp only at hch0 hnd0 hvis0 hlab0 hval0
      by_cases hhit : cur = end_
      · have hred : Maze.bfsLoop end_ (fuel + 1) m ((cur, tail) :: rest)
            = (some ((cur :: tail).reverse), m) := by
          rw [Maze.bfsLoop, if_pos hhit]
        rw [hred]
        constructor
        · intro l hl
          have hleq : (cur :: tail).reverse = l := Option.some.inj hl
          subst hleq
          refine ⟨by rw [← hhit]; exact hch0, List.nodup_reverse.mpr hnd0, ?_⟩
          intro q hq
          have hvend : (m.grid end_).visited = true := by
            rw [← hhit]
            exact hvis0 cur (List.mem_cons_self _ _)
          have hlbq := hinv.lb end_ q hq hvend
          have hlabend : lab end_ = tail.length + 1 := by
            rw [← hhit]
            exact hlab0
          simp only [List.length_reverse, List.length_cons]
          omega
        · intro hl
          cases hl
      · have hred : Maze.bfsLoop end_ (fuel + 1) m ((cur, tail) :: rest)
            = Maze.bfsLoop end_ fuel
                (Maze.bfsEnqueue cur tail m [] (m.accessiblePositions cur)).1
                (rest ++ (Maze.bfsEnqueue cur tail m [] (m.accessiblePositions cur)).2) := by
          rw [Maze.bfsLoop, if_neg hhit]
        have hveq : ∀ r : Position, m.isValidPositionObject r = m0.isValidPositionObject r :=
          fun r => (valid_of_sameWalls hinv.walls r).symm
        have hacc : ∀ n : Position, n ∈ m.accessiblePositions cur ↔ stepOK m0 cur n := by
          intro n
          rw [mem_accessiblePositions hinv.coh cur (by rw [hveq]; exact hval0) n]
          exact (stepOK_congr hcoh0 hinv.coh hinv.walls cur n).symm
        have haccval : ∀ n ∈ m.accessiblePositions cur, m.isValidPositionObject n = true := by
          intro n hn
          rw [hveq]
          obtain ⟨d, _, _, hv, _⟩ := (stepOK_iff hcoh0 cur n).mp ((hacc n).mp hn)
          exact hv
        obtain ⟨new, hneweq, hnewprops, hnewcount⟩ :=
          bfsEnqueue_acc cur tail (m.accessiblePositions cur) m []
        rw [List.nil_append] at hneweq
        have hwalls' : m0.sameWalls (Maze.bfsEnqueue cur tail m [] (m.accessiblePositions cur)).1 :=
          sameWalls_trans hinv.walls (bfsEnqueue_sameWalls cur tail _ m [])
        have hcoh' : Coherent (Maze.bfsEnqueue cur tail m [] (m.accessiblePositions cur)).1 :=
          coherent_of_sameWalls hcoh0 hwalls'
        have hvis' : ∀ p : Position,
            (((Maze.bfsEnqueue cur tail m [] (m.accessiblePositions cur)).1.grid p).visited = true ↔
              (m.grid p).visited = true ∨ p ∈ m.accessiblePositions cur) :=
          fun p => bfsEnqueue_visited cur tail (m.accessiblePositions cur) m [] p
        have hmono : ∀ p : Position, (m.grid p).visited = true →
            (((Maze.bfsEnqueue cur tail m [] (m.accessiblePositions cur)).1.grid p).visited = true) :=
          fun p h => (hvis' p).mpr (Or.inl h)
        have hmem3 : ∀ n : Position, n ∈ m.accessiblePositions cur →
            (m.grid n).visited = false → (n, cur :: tail) ∈ new := by
          intro n hn hnv
          have := bfsEnqueue_mem cur tail (m.accessiblePositions cur) m [] n hn hnv
          rw [hneweq] at this
          exact this
        have hnd4 := bfsEnqueue_nodup cur tail (m.accessiblePositions cur) m []
          (by intro node h; cases h) List.nodup_nil
        rw [hneweq] at hnd4
        have hb1 := hinv.band1
        rw [List.map_cons] at hb1
        obtain ⟨hfrontle, hrestpw⟩ := List.pairwise_cons.mp hb1
        dsimp only at hfrontle
        have hnewlen : ∀ a ∈ new.map (fun pt : QNode => pt.2.length + 1),
            a = tail.length + 2 := by
          intro a ha
          rw [List.mem_map] at ha
          obtain ⟨nd, hn, hlen⟩ := ha
          obtain ⟨h2eq, _, _⟩ := hnewprops nd hn
          rw [← hlen, h2eq]
          rfl
        have hrange : ∀ c ∈ (rest ++ new).map (fun pt : QNode => pt.2.length + 1),
            tail.length + 1 ≤ c ∧ c ≤ tail.length + 2 := by
          intro c hc
          rw [List.map_append, List.mem_append] at hc
          rcases hc with hc | hc
          · refine ⟨hfrontle c hc, ?_⟩
            exact hinv.band2 (tail.length + 1)
              (by rw [List.map_cons]; exact List.mem_cons_self _ _) c
              (by rw [List.map_cons]; exact List.mem_cons_of_mem _ hc)
          · rw [hnewlen c hc]
            omega
        have hlabcur : lab cur = tail.length + 1 := hlab0
        have hcross2 : ∀ (v : Position) (t : List Position), (v, t) ∈ (cur, tail) :: rest →
            tail.length + 1 ≤ lab v := by
          intro v t hvt
          rcases List.mem_cons.mp hvt with he | hr
          · obtain ⟨hv1, ht1⟩ := Prod.mk.injEq .. |>.mp he
            rw [hv1, hlabcur]
          · obtain ⟨_, _, _, hlabv, _⟩ := hinv.nodes (v, t) (List.mem_cons_of_mem _ hr)
            dsimp only at hlabv
            have hm : t.length + 1 ∈ rest.map (fun pt : QNode => pt.2.length + 1) :=
              List.mem_map_of_mem (fun pt : QNode => pt.2.length + 1) hr
            have := hfrontle _ hm
            rw [hlabv]
            omega
        have hlabstart : lab start ≤ 1 := by
          have := hinv.lb start [start] (chainPath_singleton start) hinv.startVis
          simpa using this
        have hinv' : BfsInv m0 start end_
            (Maze.bfsEnqueue cur tail m [] (m.accessiblePositions cur)).1 (rest ++ new)
            (fun p => if (m.grid p).visited = true then lab p else tail.length + 2) := by
          refine ⟨hwalls', hcoh', hmono start hinv.startVis, ?_, ?_, ?_, ?_, ?_, ?_, ?_, ?_⟩
          · -- nodes
            intro pt hpt
            rcases List.mem_append.mp hpt with hrest | hnew
            · obtain ⟨c1, c2, c3, c4, c5⟩ := hinv.nodes pt (List.mem_cons_of_mem _ hrest)
              refine ⟨c1, c2, fun z hz => hmono z (c3 z hz), ?_, c5⟩
              rw [if_pos (c3 pt.1 (List.mem_cons_self _ _))]
              exact c4
            · obtain ⟨h2eq, h1mem, h1vis⟩ := hnewprops pt hnew
              obtain ⟨pn, ptl⟩ := pt
              dsimp only at h2eq h1mem h1vis ⊢
              subst h2eq
              have hstep : stepOK m0 cur pn := (hacc pn).mp h1mem
              refine ⟨?_, ?_, ?_, ?_, ?_⟩
              · rw [List.reverse_cons]
                exact chainPath_snoc hch0 hstep
              · rw [List.nodup_cons]
                refine ⟨?_, hnd0⟩
                intro hmem
                rw [hvis0 pn hmem] at h1vis
                cases h1vis
              · intro z hz
                rcases List.mem_cons.mp hz with hz | hz
                · rw [hz]
                  exact (hvis' pn).mpr (Or.inr h1mem)
                · exact hmono z (hvis0 z hz)
              · simp [h1vis]
              · obtain ⟨d, _, _, hv, _⟩ := (stepOK_iff hcoh0 cur pn).mp hstep
                exact hv
          · -- band1
            rw [List.map_append, List.pairwise_append]
            refine ⟨hrestpw, pairwise_le_of_const hnewlen, ?_⟩
            intro a ha b hb
            have h1 := hinv.band2 (tail.length + 1)
              (by rw [List.map_cons]; exact List.mem_cons_self _ _) a
              (by rw [List.map_cons]; exact List.mem_cons_of_mem _ ha)
            rw [hnewlen b hb]
            omega
          · -- band2
            intro a ha b hb
            have h1 := hrange a ha
            have h2 := hrange b hb
            omega
          · -- qdist
            rw [List.map_append, List.nodup_append]
            refine ⟨(List.nodup_cons.mp hinv.qdist).2, hnd4.1, ?_⟩
            intro x hx
            rw [List.mem_map] at hx
            obtain ⟨nd, hn, hfst⟩ := hx
            obtain ⟨_, _, c3, _, _⟩ := hinv.nodes nd (List.mem_cons_of_mem _ hn)
            intro hx2
            rw [List.mem_map] at hx2
            obtain ⟨nd', hn', hfst'⟩ := hx2
            obtain ⟨_, _, h1vis'⟩ := hnewprops nd' hn'
            have hvisx : (m.grid x).visited = true := by
              rw [← hfst]
              exact c3 nd.1 (List.mem_cons_self _ _)
            rw [← hfst'] at hvisx
            rw [hvisx] at h1vis'
            cases h1vis'
          · -- lb
            intro z q hq hvz'
            rcases Bool.eq_false_or_eq_true ((m.grid z).visited) with hx | hx
            · rw [if_pos hx]
              exact hinv.lb z q hq hx
            · have hzmem : z ∈ m.accessiblePositions cur := by
                rcases (hvis' z).mp hvz' with h | h
                · rw [h] at hx
                  cases hx
                · exact h
              rw [if_neg (by rw [hx]; exact fun h => by cases h)]
              have hcr := @bfs_crossing m0 m ((cur, tail) :: rest)
                lab (tail.length + 1) ?_ hcross2 q start z 0 hq
                hinv.startVis (by omega) hx
              · omega
              · intro v hv
                by_cases hvq : ∃ t : List Position, (v, t) ∈ (cur, tail) :: rest
                · exact Or.inl hvq
                · refine Or.inr ?_
                  intro z' hz'
                  exact hinv.closedCells v hv
                    (fun t ht => hvq ⟨t, ht⟩) z' hz'
          · -- visBound
            intro pt hpt z hvz'
            have hlow : tail.length ≤ pt.2.length := by
              have := hrange (pt.2.length + 1)
                (List.mem_map_of_mem (fun pt : QNode => pt.2.length + 1) hpt)
              omega
            rcases Bool.eq_false_or_eq_true ((m.grid z).visited) with hx | hx
            · rw [if_pos hx]
              have := hinv.visBound (cur, tail) (List.mem_cons_self _ _) z hx
              dsimp only at this
              omega
            · rw [if_neg (by rw [hx]; exact fun h => by cases h)]
              omega
          · -- closedCells
            intro z hvz' hznotin z' hstepz
            rcases Bool.eq_false_or_eq_true ((m.grid z).visited) with hx | hx
            · by_cases hzcur : z = cur
              · have hz'mem : z' ∈ m.accessiblePositions cur :=
                  (hacc z').mpr (by rw [← hzcur]; exact hstepz)
                refine ⟨(hvis' z').mpr (Or.inr hz'mem), ?_⟩
                rw [if_pos hx, hzcur, hlabcur]
                rcases Bool.eq_false_or_eq_true ((m.grid z').visited) with hy | hy
                · rw [if_pos hy]
                  have := hinv.visBound (cur, tail) (List.mem_cons_self _ _) z' hy
                  dsimp only at this
                  omega
                · rw [if_neg (by rw [hy]; exact fun h => by cases h)]
              · have hznotold : ∀ t : List Position, (z, t) ∉ (cur, tail) :: rest := by
                  intro t ht
                  rcases List.mem_cons.mp ht with he | hr
                  · obtain ⟨hv1, _⟩ := Prod.mk.injEq .. |>.mp he
                    exact hzcur hv1
                  · exact hznotin t (List.mem_append_left new hr)
                obtain ⟨hvz'', hlabz'⟩ := hinv.closedCells z hx hznotold z' hstepz
                refine ⟨hmono z' hvz'', ?_⟩
                rw [if_pos hvz'', if_pos hx]
                exact hlabz'
            · have hzmem : z ∈ m.accessiblePositions cur := by
                rcases (hvis' z).mp hvz' with h | h
                · rw [h] at hx
                  cases hx
                · exact h
              exact absurd (List.mem_append_right rest (hmem3 z hzmem hx))
                (hznotin (cur :: tail))
          · -- endInQ
            intro hvend'
            by_cases hvm : (m.grid end_).visited = true
            · obtain ⟨t, ht⟩ := hinv.endInQ hvm
              rcases List.mem_cons.mp ht with he | hr
              · obtain ⟨hv1, _⟩ := Prod.mk.injEq .. |>.mp he
                exact absurd hv1.symm hhit
              · exact ⟨t, List.mem_append_left new hr⟩
            · have hvmf : (m.grid end_).visited = false := by
                rcases Bool.eq_false_or_eq_true ((m.grid end_).visited) with hy | hy
                · exact absurd hy hvm
                · exact hy
              have hzmem : end_ ∈ m.accessiblePositions cur := by
                rcases (hvis' end_).mp hvend' with h | h
                · exact absurd h hvm
                · exact h
              exact ⟨cur :: tail, List.mem_append_right rest (hmem3 end_ hzmem hvmf)⟩
        have hmeasure :
            2 * (Maze.bfsEnqueue cur tail m [] (m.accessiblePositions cur)).1.unvisitedCount
              + (rest ++ new).length < fuel := by
          have hcount := hnewcount haccval
          rw [List.length_append]
          simp only [List.length_cons] at hfuel
          omega
        have hgoal := ih (Maze.bfsEnqueue cur tail m [] (m.accessiblePositions cur)).1
          (rest ++ new)
          (fun p => if (m.grid p).visited = true then lab p else tail.length + 2)
          hinv' hmeasure
        rw [← hneweq] at hgoal
        rw [hred]
        exact hgoal

/-- solveBFS with valid endpoints: a returned path is a shortest
duplicate-free open path, and a none return means no open path exists. -/
theorem solveBFS_correct (m : Maze) (hcoh : Coherent m) (s e : Position)
    (hs : m.isValidPositionObject s = true) (he : m.isValidPositionObject e = true) :
    (∀ l : List Position, pathOf (m.solveBFS s e) = some l →
      IsOpenPath m l s e ∧ l.Nodup ∧
        ∀ q : List Position, IsOpenPath m q s e → l.length ≤ q.length) ∧
    (pathOf (m.solveBFS s e) = none → ∀ q : List Position, ¬ IsOpenPath m q s e) := by
  have hred : m.solveBFS s e
      = .ok (Maze.bfsLoop e (2 * m.width * m.height + 1)
          ((m.resetVisited).setVisited s true) [(s, [])]) := by
    rw [Maze.solveBFS]
    simp only [hs, he, Bool.not_true, Bool.false_eq_true, if_false]
  have hpath : pathOf (m.solveBFS s e)
      = (Maze.bfsLoop e (2 * m.width * m.height + 1)
          ((m.resetVisited).setVisited s true) [(s, [])]).1 := by
    rw [hred]
    rfl
  have hw1 : m.sameWalls ((m.resetVisited).setVisited s true) :=
    sameWalls_trans (sameWalls_resetVisited m) (sameWalls_setVisited _ s true)
  have hcoh1 : Coherent ((m.resetVisited).setVisited s true) :=
    coherent_of_sameWalls hcoh hw1
  have hsvis : (((m.resetVisited).setVisited s true).grid s).visited = true := by
    rw [setVisited_grid, if_pos rfl]
  have hvis1 : ∀ z : Position, z ≠ s → m.isValidPositionObject z = true →
      (((m.resetVisited).setVisited s true).grid z).visited = false := by
    intro z hz hvz
    rw [setVisited_grid, if_neg hz]
    exact visited_resetVisited m z hvz
  have hinv : BfsInv m s e ((m.resetVisited).setVisited s true) [(s, [])]
      (fun _ => 1) := by
    refine ⟨hw1, hcoh1, hsvis, ?_, ?_, ?_, ?_, ?_, ?_, ?_, ?_⟩
    · intro pt hpt
      rw [List.mem_singleton] at hpt
      subst hpt
      refine ⟨?_, ?_, ?_, rfl, hs⟩
      · simp only [List.reverse_singleton]
        exact chainPath_singleton s
      · exact List.nodup_singleton s
      · intro z hz
        rw [List.mem_singleton] at hz
        rw [hz]
        exact hsvis
    · simp
    · intro a ha b hb
      simp only [List.map_cons, List.map_nil, List.mem_singleton] at ha hb
      omega
    · simp
    · intro z q hq _
      exact chainPath_length_pos hq
    · intro pt hpt z _
      omega
    · intro z hvz hznotin z' hstepz
      by_cases hzs : z = s
      · exact absurd (by rw [hzs]; exact List.mem_singleton.mpr rfl) (hznotin [])
      · obtain ⟨d, _, hvz2, _, _⟩ := (stepOK_iff hcoh z z').mp hstepz
        rw [hvis1 z hzs hvz2] at hvz
        cases hvz
    · intro hvend
      by_cases hes : e = s
      · exact ⟨[], by rw [hes]; exact List.mem_singleton.mpr rfl⟩
      · rw [hvis1 e hes he] at hvend
        cases hvend
  have hmeasure : 2 * ((m.resetVisited).setVisited s true).unvisitedCount
      + ([(s, [])] : List QNode).length < 2 * m.width * m.height + 1 := by
    have hsplit : (allPositions m.width m.height).countP
            (fun p => ! (((m.resetVisited).setVisited s true).grid p).visited)
          + (allPositions m.width m.height).countP
            (fun p => (((m.resetVisited).setVisited s true).grid p).visited)
        = (allPositions m.width m.height).length :=
      countP_not_add _
    have hpos : 0 < (allPositions m.width m.height).countP
        (fun p => (((m.resetVisited).setVisited s true).grid p).visited) := by
      rw [List.countP_pos]
      exact ⟨s, (valid_iff_mem_allPositions m s).mp hs, by simpa using hsvis⟩
    have huc : ((m.resetVisited).setVisited s true).unvisitedCount
        = (allPositions m.width m.height).countP
            (fun p => ! (((m.resetVisited).setVisited s true).grid p).visited) := rfl
    have hlen := length_allPositions m.width m.height
    have hcomm : m.height * m.width = m.width * m.height := Nat.mul_comm _ _
    have hassoc : 2 * m.width * m.height = 2 * (m.width * m.height) :=
      Nat.mul_assoc 2 _ _
    simp only [List.length_cons, List.length_nil]
    obtain ⟨A, hA⟩ : ∃ A : Nat, m.width * m.height = A := ⟨_, rfl⟩
    rw [hassoc, hA]
    rw [hlen, hcomm, hA] at hsplit
    omega
  have hmain := bfsLoop_master hcoh s e (2 * m.width * m.height + 1)
    ((m.resetVisited).setVisited s true) [(s, [])] (fun _ => 1) hinv hmeasure
  rw [hpath]
  exact hmain

/-- C2: on any coherent maze, a path returned by solveBFS is an open
path between the requested endpoints, has no repeated positions, and its
length is at most the length of every open path between the same
endpoints (BFS shortest-path optimality, independent of the maze being a
tree). -/
theorem claim_C2_bfs_shortest (m : Maze) (hcoh : Coherent m) (s e : Position)
    (l : List Position) (hl : pathOf (m.solveBFS s e) = some l) :
    IsOpenPath m l s e ∧ l.Nodup ∧
      ∀ q : List Position, IsOpenPath m q s e → l.length ≤ q.length := by
  by_cases hs : m.isValidPositionObject s = true
  · by_cases he : m.isValidPositionObject e = true
    · exact (solveBFS_correct m hcoh s e hs he).1 l hl
    · exfalso
      have he' : m.isValidPositionObject e = false := by
        rcases Bool.eq_false_or_eq_true (m.isValidPositionObject e) with hy | hy
        · exact absurd hy he
        · exact hy
      have : m.solveBFS s e = .error .invalidPosition := by
        rw [Maze.solveBFS]
        simp [hs, he']
      rw [this] at hl
      cases hl
  · exfalso
    have hs' : m.isValidPositionObject s = false := by
      rcases Bool.eq_false_or_eq_true (m.isValidPositionObject s) with hy | hy
      · exact absurd hy hs
      · exact hy
    have : m.solveBFS s e = .error .invalidPosition := by
      rw [Maze.solveBFS]
      simp [hs']
    rw [this] at hl
    cases hl

/-- C2 witness: on the 1x1 open maze solveBFS from the sole cell to
itself returns the singleton path, and the theorem applies to it. -/
theorem claim_C2_bfs_shortest_witness :
    IsOpenPath (Maze.create 1 1 true) [⟨0, 0⟩] ⟨0, 0⟩ ⟨0, 0⟩ ∧
      ([(⟨0, 0⟩ : Position)]).Nodup ∧
      ∀ q : List Position, IsOpenPath (Maze.create 1 1 true) q ⟨0, 0⟩ ⟨0, 0⟩ →
        ([(⟨0, 0⟩ : Position)]).length ≤ q.length :=
  claim_C2_bfs_shortest (Maze.create 1 1 true) (coherent_create 1 1 true)
    ⟨0, 0⟩ ⟨0, 0⟩ [⟨0, 0⟩] rfl

/-! ## The DFS solver, verified. -/

theorem dfsRec_mono (target : Position) :
    ∀ (fuel : Nat) (m : Maze) (cur z : Position), (m.grid z).visited = true →
      (((Maze.dfsRec target fuel m cur).2).grid z).visited = true := by
  intro fuel
  induction fuel with
  | zero =>
    intro m cur z h
    exact h
  | succ fuel ih =>
    intro m cur z h
    rw [Maze.dfsRec]
    have h1 : ((m.setVisited cur true).grid z).visited = true :=
      visited_setVisited_true m cur z h
    by_cases ht : cur = target
    · rw [if_pos ht]
      exact h1
    · rw [if_neg ht]
      have htry : ∀ (ns : List Position) (mm : Maze), (mm.grid z).visited = true →
          (((Maze.dfsTry (Maze.dfsRec target fuel) mm ns).2).grid z).visited = true := by
        intro ns
        induction ns with
        | nil =>
          intro mm hm
          exact hm
        | cons n ns ihn =>
          intro mm hm
          rw [Maze.dfsTry]
          by_cases hv : (mm.grid n).visited = true
          · rw [if_pos hv]
            exact ihn mm hm
          · rw [if_neg hv]
            cases hrec : Maze.dfsRec target fuel mm n with
            | mk op m2 =>
              have h2 : (m2.grid z).visited = true := by
                have := ih mm n z hm
                rw [hrec] at this
                exact this
              cases op with
              | some p => exact h2
              | none => exact ihn m2 h2
      cases htr : Maze.dfsTry (Maze.dfsRec target fuel) (m.setVisited cur true)
          ((m.setVisited cur true).accessiblePositions cur) with
      | mk op m2 =>
        have h2 := htry ((m.setVisited cur true).accessiblePositions cur)
          (m.setVisited cur true) h1
        rw [htr] at h2
        cases op with
        | some p => exact h2
        | none => exact h2

theorem dfsRec_some {m0 : Maze} (hcoh0 : Coherent m0) (target : Position) :
    ∀ (fuel : Nat) (m : Maze) (cur : Position) (p : List Position) (m' : Maze),
      m0.sameWalls m → m0.isValidPositionObject cur = true →
      Maze.dfsRec target fuel m cur = (some p, m') →
      ChainPath (stepOK m0) p cur target ∧ p.Nodup ∧
        ∀ z ∈ p, (m.grid z).visited = false ∨ z = cur := by
  intro fuel
  induction fuel with
  | zero =>
    intro m cur p m' _ _ h
    simp [Maze.dfsRec] at h
  | succ fuel ih =>
    intro m cur p m' hw hvc h
    rw [Maze.dfsRec] at h
    by_cases ht : cur = target
    · rw [if_pos ht] at h
      obtain ⟨hp, _⟩ := Prod.mk.injEq .. |>.mp h
      have hp' : [cur] = p := Option.some.inj hp
      rw [← hp']
      refine ⟨⟨List.chain'_singleton _, rfl, by simp [ht]⟩, List.nodup_singleton _, ?_⟩
      intro z hz
      rw [List.mem_singleton] at hz
      exact Or.inr hz
    · rw [if_neg ht] at h
      have hw1 : m0.sameWalls (m.setVisited cur true) :=
        sameWalls_trans hw (sameWalls_setVisited m cur true)
      have hcoh1 : Coherent (m.setVisited cur true) := coherent_of_sameWalls hcoh0 hw1
      have hvc1 : (m.setVisited cur true).isValidPositionObject cur = true := by
        rw [← valid_of_sameWalls hw1 cur]
        exact hvc
      have hcurvis : ((m.setVisited cur true).grid cur).visited = true := by
        rw [setVisited_grid, if_pos rfl]
      have htry : ∀ (ns : List Position) (mm : Maze) (p2 : List Position) (m2 : Maze),
          m0.sameWalls mm → (∀ n ∈ ns, m0.isValidPositionObject n = true) →
          Maze.dfsTry (Maze.dfsRec target fuel) mm ns = (some p2, m2) →
          ∃ n ∈ ns, (mm.grid n).visited = false ∧ ChainPath (stepOK m0) p2 n target ∧
            p2.Nodup ∧ ∀ z ∈ p2, (mm.grid z).visited = false := by
        intro ns
        induction ns with
        | nil =>
          intro mm p2 m2 _ _ htr
          simp [Maze.dfsTry] at htr
        | cons n ns ihn =>
          intro mm p2 m2 hwm hval htr
          rw [Maze.dfsTry] at htr
          by_cases hv : (mm.grid n).visited = true
          · rw [if_pos hv] at htr
            obtain ⟨n', hn', props⟩ :=
              ihn mm p2 m2 hwm (fun x hx => hval x (List.mem_cons_of_mem n hx)) htr
            exact ⟨n', List.mem_cons_of_mem n hn', props⟩
          · rw [if_neg hv] at htr
            have hv' : (mm.grid n).visited = false := by
              rcases Bool.eq_false_or_eq_true ((mm.grid n).visited) with hy | hy
              · exact absurd hy hv
              · exact hy
            cases hrec : Maze.dfsRec target fuel mm n with
            | mk op mr =>
              rw [hrec] at htr
              cases op with
              | some p1 =>
                obtain ⟨hpe, hme⟩ := Prod.mk.injEq .. |>.mp htr
                have hpe' := Option.some.inj hpe
                obtain ⟨hchain, hnd, hunv⟩ :=
                  ih mm n p1 mr hwm (hval n (List.mem_cons_self n ns)) hrec
                rw [hpe'] at hchain hnd hunv
                refine ⟨n, List.mem_cons_self n ns, hv', hchain, hnd, ?_⟩
                intro z hz
                rcases hunv z hz with hzz | hzz
                · exact hzz
                · rw [hzz]
                  exact hv'
              | none =>
                have hwmr : m0.sameWalls mr := by
                  have := dfsRec_sameWalls target fuel mm n
                  rw [hrec] at this
                  exact sameWalls_trans hwm this
                obtain ⟨n', hn', hn'vis, hchain, hnd, hunv⟩ :=
                  ihn mr p2 m2 hwmr (fun x hx => hval x (List.mem_cons_of_mem n hx)) htr
                have hback : ∀ z : Position, (mr.grid z).visited = false →
                    (mm.grid z).visited = false := by
                  intro z hz
                  rcases Bool.eq_false_or_eq_true ((mm.grid z).visited) with hy | hy
                  · have := dfsRec_mono target fuel mm n z hy
                    rw [hrec] at this
                    rw [this] at hz
                    cases hz
                  · exact hy
                exact ⟨n', List.mem_cons_of_mem n hn', hback n' hn'vis, hchain, hnd,
                  fun z hz => hback z (hunv z hz)⟩
      cases htr : Maze.dfsTry (Maze.dfsRec target fuel) (m.setVisited cur true)
          ((m.setVisited cur true).accessiblePositions cur) with
      | mk op m2 =>
        rw [htr] at h
        cases op with
        | none => simp at h
        | some p2 =>
          obtain ⟨hpe, hme⟩ := Prod.mk.injEq .. |>.mp h
          have hpe' := Option.some.inj hpe
          rw [← hpe']
          have haccval : ∀ n ∈ (m.setVisited cur true).accessiblePositions cur,
              m0.isValidPositionObject n = true := by
            intro n hn
            have hstep1 := (mem_accessiblePositions hcoh1 cur hvc1 n).mp hn
            have hstep0 := (stepOK_congr hcoh0 hcoh1 hw1 cur n).mpr hstep1
            obtain ⟨d, _, _, hvn, _⟩ := (stepOK_iff hcoh0 cur n).mp hstep0
            exact hvn
          obtain ⟨n, hnmem, hnvis, hchain, hnd, hunv⟩ := htry _ _ p2 m2 hw1 haccval htr
          have hstepn : stepOK m0 cur n := by
            have := (mem_accessiblePositions hcoh1 cur hvc1 n).mp hnmem
            exact (stepOK_congr hcoh0 hcoh1 hw1 cur n).mpr this
          have hcurnot : cur ∉ p2 := by
            intro hmem
            rw [hunv cur hmem] at hcurvis
            cases hcurvis
          refine ⟨chainPath_cons_of_edge hstepn hchain, List.nodup_cons.mpr ⟨hcurnot, hnd⟩, ?_⟩
          intro z hz
          rcases List.mem_cons.mp hz with hzz | hzz
          · exact Or.inr hzz
          · have hzfalse := hunv z hzz
            have hzc : z ≠ cur := by
              intro hzcur
              rw [hzcur] at hzfalse
              rw [hzfalse] at hcurvis
              cases hcurvis
            rw [setVisited_grid, if_neg hzc] at hzfalse
            exact Or.inl hzfalse

theorem dfsRec_none {m0 : Maze} (hcoh0 : Coherent m0) (target : Position) :
    ∀ (fuel : Nat) (m : Maze) (cur : Position) (m' : Maze),
      m0.sameWalls m → m0.isValidPositionObject cur = true →
      (m.grid cur).visited = false → m.unvisitedCount < fuel →
      Maze.dfsRec target fuel m cur = (none, m') →
      (m'.grid cur).visited = true ∧
        ∀ z : Position, (m'.grid z).visited = true → (m.grid z).visited = false →
          z ≠ target ∧ ∀ z' : Position, stepOK m0 z z' → (m'.grid z').visited = true := by
  intro fuel
  induction fuel with
  | zero =>
    intro m cur m' _ _ _ hfuel _
    exact absurd hfuel (by omega)
  | succ fuel ih =>
    intro m cur m' hw hvc hunvis hfuel h
    rw [Maze.dfsRec] at h
    by_cases ht : cur = target
    · rw [if_pos ht] at h
      simp at h
    · rw [if_neg ht] at h
      have hw1 : m0.sameWalls (m.setVisited cur true) :=
        sameWalls_trans hw (sameWalls_setVisited m cur true)
      have hcoh1 : Coherent (m.setVisited cur true) := coherent_of_sameWalls hcoh0 hw1
      have hvc1 : (m.setVisited cur true).isValidPositionObject cur = true := by
        rw [← valid_of_sameWalls hw1 cur]
        exact hvc
      have hcurvis : ((m.setVisited cur true).grid cur).visited = true := by
        rw [setVisited_grid, if_pos rfl]
      have hvalm : m.isValidPositionObject cur = true := by
        rw [← valid_of_sameWalls hw cur]
        exact hvc
      have hm1count := unvisitedCount_setVisited_true m cur hvalm hunvis
      have htry : ∀ (ns : List Position) (mm : Maze) (m2 : Maze),
          m0.sameWalls mm → (∀ n ∈ ns, m0.isValidPositionObject n = true) →
          mm.unvisitedCount < fuel →
          Maze.dfsTry (Maze.dfsRec target fuel) mm ns = (none, m2) →
          (∀ z : Position, (mm.grid z).visited = true → (m2.grid z).visited = true) ∧
          (∀ n ∈ ns, (m2.grid n).visited = true) ∧
          (∀ z : Position, (m2.grid z).visited = true → (mm.grid z).visited = false →
            z ≠ target ∧ ∀ z' : Position, stepOK m0 z z' → (m2.grid z').visited = true) := by
        intro ns
        induction ns with
        | nil =>
          intro mm m2 _ _ _ htr
          rw [Maze.dfsTry] at htr
          obtain ⟨_, hm2⟩ := Prod.mk.injEq .. |>.mp htr
          rw [← hm2]
          refine ⟨fun z h => h, fun n hn => absurd hn (List.not_mem_nil n), ?_⟩
          intro z h1 h2
          rw [h2] at h1
          cases h1
        | cons n ns ihn =>
          intro mm m2 hwm hval hfm htr
          rw [Maze.dfsTry] at htr
          by_cases hv : (mm.grid n).visited = true
          · rw [if_pos hv] at htr
            obtain ⟨hmono2, hns2, hcl2⟩ :=
              ihn mm m2 hwm (fun x hx => hval x (List.mem_cons_of_mem n hx)) hfm htr
            refine ⟨hmono2, ?_, hcl2⟩
            intro x hx
            rcases List.mem_cons.mp hx with hxx | hxx
            · rw [hxx]
              exact hmono2 n hv
            · exact hns2 x hxx
          · rw [if_neg hv] at htr
            have hv' : (mm.grid n).visited = false := by
              rcases Bool.eq_false_or_eq_true ((mm.grid n).visited) with hy | hy
              · exact absurd hy hv
              · exact hy
            cases hrec : Maze.dfsRec target fuel mm n with
            | mk op mr =>
              rw [hrec] at htr
              cases op with
              | some p1 => simp at htr
              | none =>
                obtain ⟨hmarkn, hclsub⟩ :=
                  ih mm n mr hwm (hval n (List.mem_cons_self n ns)) hv' hfm hrec
                have hmonosub : ∀ z : Position, (mm.grid z).visited = true →
                    (mr.grid z).visited = true := by
                  intro z hz
                  have := dfsRec_mono target fuel mm n z hz
                  rw [hrec] at this
                  exact this
                have hwr : m0.sameWalls mr := by
                  have := dfsRec_sameWalls target fuel mm n
                  rw [hrec] at this
                  exact sameWalls_trans hwm this
                have hfr : mr.unvisitedCount < fuel := by
                  have hle := unvisitedCount_mono
                    (by rw [← hwm.1, ← hwr.1]) (by rw [← hwm.2.1, ← hwr.2.1]) hmonosub
                  omega
                obtain ⟨hmono2, hns2, hcl2⟩ :=
                  ihn mr m2 hwr (fun x hx => hval x (List.mem_cons_of_mem n hx)) hfr htr
                refine ⟨fun z hz => hmono2 z (hmonosub z hz), ?_, ?_⟩
                · intro x hx
                  rcases List.mem_cons.mp hx with hxx | hxx
                  · rw [hxx]
                    exact hmono2 n hmarkn
                  · exact hns2 x hxx
                · intro z hz1 hz2
                  rcases Bool.eq_false_or_eq_true ((mr.grid z).visited) with hzr | hzr
                  · obtain ⟨hznt, hzsucc⟩ := hclsub z hzr hz2
                    exact ⟨hznt, fun z' hs' => hmono2 z' (hzsucc z' hs')⟩
                  · exact hcl2 z hz1 hzr
      cases htr : Maze.dfsTry (Maze.dfsRec target fuel) (m.setVisited cur true)
          ((m.setVisited cur true).accessiblePositions cur) with
      | mk op m2 =>
        rw [htr] at h
        cases op with
        | some p2 => simp at h
        | none =>
          obtain ⟨_, hme⟩ := Prod.mk.injEq .. |>.mp h
          rw [← hme]
          have haccval : ∀ n ∈ (m.setVisited cur true).accessiblePositions cur,
              m0.isValidPositionObject n = true := by
            intro n hn
            have hstep1 := (mem_accessiblePositions hcoh1 cur hvc1 n).mp hn
            have hstep0 := (stepOK_congr hcoh0 hcoh1 hw1 cur n).mpr hstep1
            obtain ⟨d, _, _, hvn, _⟩ := (stepOK_iff hcoh0 cur n).mp hstep0
            exact hvn
          have hfm1 : (m.setVisited cur true).unvisitedCount < fuel := by omega
          obtain ⟨hmono2, hns2, hcl2⟩ := htry _ _ _ hw1 haccval hfm1 htr
          refine ⟨hmono2 cur hcurvis, ?_⟩
          intro z hz1 hz2
          by_cases hzc : z = cur
          · refine ⟨by rw [hzc]; exact ht, ?_⟩
            intro z' hs'
            have hz'mem : z' ∈ (m.setVisited cur true).accessiblePositions cur := by
              rw [mem_accessiblePositions hcoh1 cur hvc1 z']
              refine (stepOK_congr hcoh0 hcoh1 hw1 cur z').mp ?_
              rw [← hzc]
              exact hs'
            exact hns2 z' hz'mem
          · have hz2' : ((m.setVisited cur true).grid z).visited = false := by
              rw [setVisited_grid, if_neg hzc]
              exact hz2
            exact hcl2 z hz1 hz2'

/-- solveDFS with valid endpoints: a returned path is a duplicate-free
open path between the endpoints, and a none return means no open path
exists. -/
theorem solveDFS_correct (m : Maze) (hcoh : Coherent m) (s e : Position)
    (hs : m.isValidPositionObject s = true) (he : m.isValidPositionObject e = true) :
    (∀ l : List Position, pathOf (m.solveDFS s e) = some l →
      IsOpenPath m l s e ∧ l.Nodup) ∧
    (pathOf (m.solveDFS s e) = none → ∀ q : List Position, ¬ IsOpenPath m q s e) := by
  have hred : m.solveDFS s e
      = .ok (Maze.dfsRec e (m.width * m.height + 1) m.resetVisited s) := by
    rw [Maze.solveDFS]
    simp only [hs, he, Bool.not_true, Bool.false_eq_true, if_false]
  have hpath : pathOf (m.solveDFS s e)
      = (Maze.dfsRec e (m.width * m.height + 1) m.resetVisited s).1 := by
    rw [hred]
    rfl
  rw [hpath]
  have hwreset : m.sameWalls m.resetVisited := sameWalls_resetVisited m
  constructor
  · intro l hl
    cases hd : Maze.dfsRec e (m.width * m.height + 1) m.resetVisited s with
    | mk op m' =>
      rw [hd] at hl
      cases op with
      | none => cases hl
      | some l2 =>
        have hll : l2 = l := Option.some.inj hl
        rw [← hll]
        obtain ⟨hchain, hnd, _⟩ := dfsRec_some hcoh e (m.width * m.height + 1)
          m.resetVisited s l2 m' hwreset hs hd
        exact ⟨hchain, hnd⟩
  · intro hl q hq
    cases hd : Maze.dfsRec e (m.width * m.height + 1) m.resetVisited s with
    | mk op m' =>
      rw [hd] at hl
      cases op with
      | some l2 => cases hl
      | none =>
        have hsvis0 : (m.resetVisited.grid s).visited = false := visited_resetVisited m s hs
        have hcount : m.resetVisited.unvisitedCount < m.width * m.height + 1 := by
          have h1 : m.resetVisited.unvisitedCount ≤ (allPositions m.width m.height).length :=
            List.countP_le_length _
          rw [length_allPositions] at h1
          have hcomm : m.width * m.height = m.height * m.width := Nat.mul_comm _ _
          rw [hcomm]
          obtain ⟨A, hA⟩ : ∃ A : Nat, m.height * m.width = A := ⟨_, rfl⟩
          rw [hA] at h1 ⊢
          omega
        obtain ⟨hsvis', hclosure⟩ := dfsRec_none hcoh e (m.width * m.height + 1)
          m.resetVisited s m' hwreset hs hsvis0 hcount hd
        have hstepP : ∀ a b : Position, (m'.grid a).visited = true → stepOK m a b →
            (m'.grid b).visited = true := by
          intro a b hPa hab
          obtain ⟨d, _, hva, _, _⟩ := (stepOK_iff hcoh a b).mp hab
          have hva0 : (m.resetVisited.grid a).visited = false := visited_resetVisited m a hva
          exact (hclosure a hPa hva0).2 b hab
        have hPe := chainPath_closure hstepP q s e hq hsvis'
        have hre : (m.resetVisited.grid e).visited = false := visited_resetVisited m e he
        exact absurd rfl (hclosure e hPe hre).1

/-- C3 as amended: on a maze freshly produced by
generateRecursiveBacktracking, for every in-bounds start and end both
solveDFS and solveBFS succeed and return the SAME path (the unique simple
open path between the endpoints); the original claim that the two solvers
also mark the identical visited set is refuted separately. -/
theorem claim_C3_amended (m : Maze) (seed : Nat → Nat) (sx sy : Int)
    (hcoh : Coherent m) (hv : m.isValidPosition sx sy = true) (s e : Position)
    (hs : (m.generateRecursiveBacktracking seed sx sy).2.isValidPositionObject s = true)
    (he : (m.generateRecursiveBacktracking seed sx sy).2.isValidPositionObject e = true) :
    ∃ l : List Position,
      pathOf ((m.generateRecursiveBacktracking seed sx sy).2.solveDFS s e) = some l ∧
      pathOf ((m.generateRecursiveBacktracking seed sx sy).2.solveBFS s e) = some l ∧
      IsSimplePath (m.generateRecursiveBacktracking seed sx sy).2 l s e := by
  obtain ⟨hnone, hcohg, hinvg⟩ := generate_master m seed sx sy hcoh hv
  have hsym : SymWalls (m.generateRecursiveBacktracking seed sx sy).2 :=
    (generate_inv m seed sx sy hcoh).2
  have hall : ∀ p : Position,
      (m.generateRecursiveBacktracking seed sx sy).2.isValidPositionObject p = true →
      (((m.generateRecursiveBacktracking seed sx sy).2).grid p).visited = true := by
    apply gridClosure ⟨sx, sy⟩
      (fun p => (((m.generateRecursiveBacktracking seed sx sy).2).grid p).visited = true)
      hinvg.startValid hinvg.startVisited
    intro p hp hvis d hd
    rcases hinvg.closure p hp hvis with hin | hnb
    · cases hin
    · exact hnb d hd
  obtain ⟨ls, hls⟩ := hinvg.connects s hs (hall s hs)
  obtain ⟨le, hle⟩ := hinvg.connects e he (hall e he)
  have hseq : IsOpenPath (m.generateRecursiveBacktracking seed sx sy).2
      (ls.reverse ++ le.tail) s e :=
    chainPath_append
      (chainPath_reverse (fun a b hab => stepOK_symm hcohg hsym hab) hls) hle
  cases hdp : pathOf ((m.generateRecursiveBacktracking seed sx sy).2.solveDFS s e) with
  | none =>
    exact absurd hseq
      ((solveDFS_correct _ hcohg s e hs he).2 hdp (ls.reverse ++ le.tail))
  | some l1 =>
    obtain ⟨hopen1, hnd1⟩ := (solveDFS_correct _ hcohg s e hs he).1 l1 hdp
    cases hbp : pathOf ((m.generateRecursiveBacktracking seed sx sy).2.solveBFS s e) with
    | none =>
      exact absurd hseq
        ((solveBFS_correct _ hcohg s e hs he).2 hbp (ls.reverse ++ le.tail))
    | some l2 =>
      obtain ⟨hopen2, hnd2, _⟩ := (solveBFS_correct _ hcohg s e hs he).1 l2 hbp
      have heql : l1 = l2 := hinvg.uniq s e l1 l2 hopen1 hnd1 hopen2 hnd2
      refine ⟨l1, rfl, ?_, hopen1, hnd1⟩
      rw [heql]

/-- C3 amended witness: on the generated 1x1 maze both solvers return the
singleton path from the sole cell to itself. -/
theorem claim_C3_amended_witness :
    ∃ l : List Position,
      pathOf (((Maze.create 1 1 true).generateRecursiveBacktracking
        (fun _ => 0) 0 0).2.solveDFS ⟨0, 0⟩ ⟨0, 0⟩) = some l ∧
      pathOf (((Maze.create 1 1 true).generateRecursiveBacktracking
        (fun _ => 0) 0 0).2.solveBFS ⟨0, 0⟩ ⟨0, 0⟩) = some l ∧
      IsSimplePath ((Maze.create 1 1 true).generateRecursiveBacktracking
        (fun _ => 0) 0 0).2 l ⟨0, 0⟩ ⟨0, 0⟩ :=
  claim_C3_amended (Maze.create 1 1 true) (fun _ => 0) 0 0
    (coherent_create 1 1 true) (by decide) ⟨0, 0⟩ ⟨0, 0⟩ (by decide) (by decide)

end MazeProof
